import Mathlib

/-!
Verification of the med-pseudoscience-check repository: a shallow embedding of
the marker-matching engine (analyzer.py), the pattern catalog and risk scorer
(markets.py), and the text loader, normalizer and highlighter (textloader.py).

Python strings are modelled as `List Char` (sequences of code points); machine
regular expressions are modelled by a small pattern AST covering exactly the
constructs used by the catalog (literals, the classes w, s, d, S and bracket
sets, the quantifiers ?, *, + and bounded repeats, and word boundaries), with
a backtracking matcher that mirrors greedy leftmost semantics of Python re.
Fallible Python code (raise) is modelled with Option.
-/

namespace MedCheck

set_option maxRecDepth 20000

/-! ### Character predicates

The catalog texts use the Latin and Cyrillic scripts; the character classes
below spell out what the Python regex classes match on those scripts
(re.UNICODE word characters restricted to the two supported alphabets). -/

/-- Membership of a code point in an inclusive range. -/
def inRange (lo hi c : Char) : Bool :=
  lo.toNat ≤ c.toNat && c.toNat ≤ hi.toNat

/-- Python whitespace class `\s` (ASCII part, which is all the catalog needs). -/
def isSpaceC (c : Char) : Bool :=
  c == ' ' || c == '\t' || c == '\n' || c == '\r' || c == '\x0b' || c == '\x0c'

/-- Python digit class `\d`. -/
def isDigitC (c : Char) : Bool := inRange '0' '9' c

/-- Cyrillic letter as counted by detect_language: the class [а-яА-ЯёЁ]. -/
def isCyr (c : Char) : Bool :=
  inRange 'а' 'я' c || inRange 'А' 'Я' c || c == 'ё' || c == 'Ё'

/-- Latin letter as counted by detect_language: the class [a-zA-Z]. -/
def isLat (c : Char) : Bool := inRange 'a' 'z' c || inRange 'A' 'Z' c

/-- Python word class `\w` with re.UNICODE, restricted to the two scripts the
catalog supports: Latin or Cyrillic letters, digits, underscore. -/
def isWordChar (c : Char) : Bool := isLat c || isDigitC c || c == '_' || isCyr c

/-- Case folding used by re.IGNORECASE on the two supported scripts:
ASCII A-Z and Cyrillic А-Я map down by 32, Ё maps to ё. -/
def lowerC (c : Char) : Char :=
  if inRange 'A' 'Z' c then Char.ofNat (c.toNat + 32)
  else if inRange 'А' 'Я' c then Char.ofNat (c.toNat + 32)
  else if c == 'Ё' then 'ё'
  else c

/-! ### Pattern AST and backtracking matcher -/

/-- A character class of the pattern language. `cset` is a bracket expression:
explicit ranges, explicit characters, and optionally the whitespace class. -/
inductive CharCls where
  | lit (c : Char)
  | word
  | space
  | digit
  | nonspace
  | cset (ranges : List (Char × Char)) (chars : List Char) (withSpace : Bool)
deriving DecidableEq

/-- Quantifier on a class: exactly one, `?`, `*`, `+`. -/
inductive Quant where
  | one
  | opt
  | star
  | plus
deriving DecidableEq

/-- One item of a pattern: a quantified class or a word boundary `\b`. -/
inductive PatItem where
  | cls (cc : CharCls) (q : Quant)
  | bnd
deriving DecidableEq

/-- A pattern is a sequence of items (all catalog regexes have this shape). -/
abbrev Pat := List PatItem

/-- Does character `c` match class `cc`?  Literals honour the case-insensitive
flag `ci` (bracket sets and builtin classes in the catalog are case-closed). -/
def ccMatches (ci : Bool) (cc : CharCls) (c : Char) : Bool :=
  match cc with
  | .lit d => if ci then lowerC c == lowerC d else c == d
  | .word => isWordChar c
  | .space => isSpaceC c
  | .digit => isDigitC c
  | .nonspace => !isSpaceC c
  | .cset rs cs ws =>
      rs.any (fun r => inRange r.1 r.2 c) || cs.contains c || (ws && isSpaceC c)

/-- Backtracking matcher: length of the greedy leftmost match of `p` against a
prefix of `s`, given the previous character `prev` (for `\b`).  Quantifiers
prefer consuming (greedy) and backtrack on failure, mirroring Python re.
`fuel` bounds recursion depth; `matchFuel` below always suffices. -/
def matchEnd (ci : Bool) : Nat → Pat → Option Char → List Char → Option Nat
  | 0, _, _, _ => none
  | _ + 1, [], _, _ => some 0
  | fuel + 1, .bnd :: rest, prev, s =>
      let pw := match prev with | some c => isWordChar c | none => false
      let nw := match s with | c :: _ => isWordChar c | [] => false
      if pw != nw then matchEnd ci fuel rest prev s else none
  | fuel + 1, .cls cc q :: rest, prev, s =>
      match q with
      | .one =>
          match s with
          | [] => none
          | c :: t =>
              if ccMatches ci cc c then (matchEnd ci fuel rest (some c) t).map (· + 1)
              else none
      | .opt =>
          match s with
          | [] => matchEnd ci fuel rest prev []
          | c :: t =>
              if ccMatches ci cc c then
                match matchEnd ci fuel rest (some c) t with
                | some n => some (n + 1)
                | none => matchEnd ci fuel rest prev (c :: t)
              else matchEnd ci fuel rest prev (c :: t)
      | .plus =>
          match s with
          | [] => none
          | c :: t =>
              if ccMatches ci cc c then
                (matchEnd ci fuel (.cls cc .star :: rest) (some c) t).map (· + 1)
              else none
      | .star =>
          match s with
          | [] => matchEnd ci fuel rest prev []
          | c :: t =>
              if ccMatches ci cc c then
                match matchEnd ci fuel (.cls cc .star :: rest) (some c) t with
                | some n => some (n + 1)
                | none => matchEnd ci fuel rest prev (c :: t)
              else matchEnd ci fuel rest prev (c :: t)

/-- Sufficient fuel: recursion strictly decreases (text length, item count)
lexicographically, so the depth is below this product. -/
def matchFuel (p : Pat) (s : List Char) : Nat :=
  (s.length + 1) * (p.length + 1) + 1

/-- Match attempt of one pattern at the current position. -/
def patMatchAt (ci : Bool) (p : Pat) (prev : Option Char) (s : List Char) : Option Nat :=
  matchEnd ci (matchFuel p s) p prev s

/-- The word-boundary check of prev and next. -/
def prevWord : Option Char → Bool
  | none => false
  | some c => isWordChar c

/-- A position matcher: given the previous character and the remaining text,
the length of a match starting here (used to model alternation too). -/
abbrev Matcher := Option Char → List Char → Option Nat

/-- Python slice text[a:b] on code points. -/
def seg (l : List Char) (a b : Nat) : List Char := (l.drop a).take (b - a)

/-- re.finditer: non-overlapping leftmost matches, scanning left to right;
a zero-width match is emitted and the scan advances one character. -/
def finditerAux (m : Matcher) : Nat → Option Char → List Char → Nat → List (Nat × Nat)
  | 0, _, _, _ => []
  | fuel + 1, prev, s, pos =>
      match m prev s with
      | some (n + 1) =>
          (pos, pos + (n + 1)) ::
            finditerAux m fuel ((s.take (n + 1)).getLast?) (s.drop (n + 1)) (pos + (n + 1))
      | some 0 =>
          match s with
          | [] => [(pos, pos)]
          | c :: t => (pos, pos) :: finditerAux m fuel (some c) t (pos + 1)
      | none =>
          match s with
          | [] => []
          | c :: t => finditerAux m fuel (some c) t (pos + 1)

/-- All match spans of a matcher over a text. -/
def finditer (m : Matcher) (s : List Char) : List (Nat × Nat) :=
  finditerAux m (s.length + 1) none s 0

/-- All match spans of one pattern over a text. -/
def patFinditer (ci : Bool) (p : Pat) (s : List Char) : List (Nat × Nat) :=
  finditer (patMatchAt ci p) s

/-- re.sub with a constant replacement: replace every non-overlapping leftmost
match of `m` by `repl`. -/
def subAux (m : Matcher) (repl : List Char) : Nat → Option Char → List Char → List Char
  | 0, _, s => s
  | fuel + 1, prev, s =>
      match m prev s with
      | some (n + 1) =>
          repl ++ subAux m repl fuel ((s.take (n + 1)).getLast?) (s.drop (n + 1))
      | some 0 =>
          match s with
          | [] => repl
          | c :: t => repl ++ c :: subAux m repl fuel (some c) t
      | none =>
          match s with
          | [] => []
          | c :: t => c :: subAux m repl fuel (some c) t

/-- re.sub over a whole text. -/
def reSub (m : Matcher) (repl : List Char) (s : List Char) : List Char :=
  subAux m repl (s.length + 1) none s

/-- re.split: the fragments of the text between non-overlapping matches
(a zero-width or failed match just advances the scan). -/
def reSplitAux (m : Matcher) : Nat → Option Char → List Char → List Char → List (List Char)
  | 0, _, _, acc => [acc.reverse]
  | fuel + 1, prev, s, acc =>
      match m prev s with
      | some (n + 1) =>
          acc.reverse ::
            reSplitAux m fuel ((s.take (n + 1)).getLast?) (s.drop (n + 1)) []
      | _ =>
          match s with
          | [] => [acc.reverse]
          | c :: t => reSplitAux m fuel (some c) t (c :: acc)

/-- re.split over a whole text. -/
def reSplit (m : Matcher) (s : List Char) : List (List Char) :=
  reSplitAux m (s.length + 1) none s []

/-! ### textloader.py: TextLoader -/

/-- The URL pattern of preprocess_text, first alternative: https?://S+
(compiled without IGNORECASE, hence case-sensitive literals). -/
def urlPat1 : Pat :=
  [.cls (.lit 'h') .one, .cls (.lit 't') .one, .cls (.lit 't') .one,
   .cls (.lit 'p') .one, .cls (.lit 's') .opt, .cls (.lit ':') .one,
   .cls (.lit '/') .one, .cls (.lit '/') .one, .cls .nonspace .plus]

/-- The URL pattern, second alternative: www.S+ (the dot is escaped). -/
def urlPat2 : Pat :=
  [.cls (.lit 'w') .one, .cls (.lit 'w') .one, .cls (.lit 'w') .one,
   .cls (.lit '.') .one, .cls .nonspace .plus]

/-- Matcher for the URL alternation https?://S+|www.S+ : the first
alternative is preferred at each position, as in Python re. -/
def urlMatchAt : Matcher := fun prev s =>
  (patMatchAt false urlPat1 prev s).orElse (fun _ => patMatchAt false urlPat2 prev s)

/-- Bracket set [A-Za-z0-9._%+-] (local part of the email pattern). -/
def emailLocalCls : CharCls :=
  .cset [('A', 'Z'), ('a', 'z'), ('0', '9')] ['.', '_', '%', '+', '-'] false

/-- Bracket set [A-Za-z0-9.-] (domain of the email pattern). -/
def emailDomainCls : CharCls :=
  .cset [('A', 'Z'), ('a', 'z'), ('0', '9')] ['.', '-'] false

/-- Bracket set [A-Z|a-z] of the email pattern (the bar is a literal member). -/
def emailTldCls : CharCls := .cset [('A', 'Z'), ('a', 'z')] ['|'] false

/-- The email pattern of preprocess_text:
b[A-Za-z0-9._%+-]+@[A-Za-z0-9.-]+.[A-Z|a-z]{2,}b with {2,} unrolled as one
mandatory item followed by plus. -/
def emailPat : Pat :=
  [.bnd, .cls emailLocalCls .plus, .cls (.lit '@') .one, .cls emailDomainCls .plus,
   .cls (.lit '.') .one, .cls emailTldCls .one, .cls emailTldCls .plus, .bnd]

/-- Matcher for the email pattern. -/
def emailMatchAt : Matcher := fun prev s => patMatchAt false emailPat prev s

/-- The URL-masking substitution of preprocess_text. -/
def urlSub (s : List Char) : List Char := reSub urlMatchAt "[URL]".data s

/-- The email-masking substitution of preprocess_text. -/
def emailSub (s : List Char) : List Char := reSub emailMatchAt "[EMAIL]".data s

/-- re.sub(r"s+", " ", -): each maximal whitespace run collapses to one
space.  The flag records whether the previous character was whitespace, making
the recursion structural (equivalent to scanning for maximal runs). -/
def collapseWsAux : Bool → List Char → List Char
  | _, [] => []
  | inWs, c :: t =>
      if isSpaceC c then
        if inWs then collapseWsAux true t else ' ' :: collapseWsAux true t
      else c :: collapseWsAux false t

/-- Whitespace collapsing stage of preprocess_text. -/
def collapseWs (s : List Char) : List Char := collapseWsAux false s

/-- Drop a maximal run of trailing whitespace (right half of str.strip). -/
def stripR : List Char → List Char
  | [] => []
  | c :: t =>
      match stripR t with
      | [] => if isSpaceC c then [] else [c]
      | r => c :: r

/-- Python str.strip(): remove leading and trailing whitespace. -/
def pyStrip (s : List Char) : List Char := stripR (s.dropWhile isSpaceC)

/-- TextLoader.preprocess_text with default arguments: mask URLs, mask emails,
collapse whitespace runs, strip the ends. -/
def preprocess_text (s : List Char) : List Char :=
  pyStrip (collapseWs (emailSub (urlSub s)))

/-- TextLoader.load_from_string: rejects blank or whitespace-only text with a
ValueError (modelled as none), otherwise returns the stripped text. -/
def load_from_string (s : List Char) : Option (List Char) :=
  if pyStrip s = [] then none else some (pyStrip s)

/-- The sentence delimiter pattern [.!?]+s+ of split_into_sentences. -/
def sentenceDelimPat : Pat :=
  [.cls (.cset [] ['.', '!', '?'] false) .plus, .cls .space .plus]

/-- TextLoader.split_into_sentences: re.split on [.!?]+s+, then strip each
fragment and drop the blank ones. -/
def split_into_sentences (s : List Char) : List (List Char) :=
  ((reSplit (fun prev t => patMatchAt false sentenceDelimPat prev t) s).map pyStrip).filter
    (fun f => f ≠ [])

/-- Python str.split() with no arguments: the maximal non-whitespace runs.
The accumulator carries the current token reversed. -/
def pySplitWsAux : List Char → List Char → List (List Char)
  | cur, [] => if cur = [] then [] else [cur.reverse]
  | cur, c :: t =>
      if isSpaceC c then
        if cur = [] then pySplitWsAux [] t else cur.reverse :: pySplitWsAux [] t
      else pySplitWsAux (c :: cur) t

/-- Python str.split() with no arguments. -/
def pySplitWs (s : List Char) : List (List Char) := pySplitWsAux [] s

/-- The statistics record of TextLoader.get_text_stats.  The average is an
exact rational (Python computes it in floating point). -/
structure TextStats where
  chars : Nat
  chars_no_spaces : Nat
  words : Nat
  sentences : Nat
  avg_sentence_length : ℚ
deriving DecidableEq

/-- TextLoader.get_text_stats: character counts, whitespace-token count,
sentence count, and words per sentence guarded to 0 for zero sentences. -/
def get_text_stats (s : List Char) : TextStats :=
  let sentences := split_into_sentences s
  let words := pySplitWs s
  { chars := s.length
    chars_no_spaces := (s.filter (fun c => c ≠ ' ')).length
    words := words.length
    sentences := sentences.length
    avg_sentence_length :=
      if sentences.length = 0 then 0 else (words.length : ℚ) / (sentences.length : ℚ) }

/-- TextLoader.detect_language: counts Cyrillic and Latin letters and returns
the script whose share of their sum exceeds 0.6, else unknown.  The float
comparison count/total > 0.6 is modelled exactly as 5*count > 3*total. -/
def detect_language (s : List Char) : String :=
  let cyrillic := (s.filter isCyr).length
  let latin := (s.filter isLat).length
  let total := cyrillic + latin
  if total = 0 then "unknown"
  else if 5 * cyrillic > 3 * total then "russian"
  else if 5 * latin > 3 * total then "english"
  else "unknown"

/-! ### markets.py: the pattern catalog

Each regex source string of PSEUDOSCIENCE_MARKERS is transcribed into the
pattern AST.  `lits` is a run of literal characters, `wP`/`sP`/`s0`/`dP` are
w+, s+, s*, d+, and `dashSp`/`dashSp1` are [-s]? and [-s]. -/

/-- A run of literal characters of a regex source string. -/
def lits (s : String) : Pat := s.data.map (fun c => .cls (.lit c) .one)

/-- Regex w+. -/
def wP : PatItem := .cls .word .plus

/-- Regex s+. -/
def sP : PatItem := .cls .space .plus

/-- Regex s*. -/
def s0 : PatItem := .cls .space .star

/-- Regex d+. -/
def dP : PatItem := .cls .digit .plus

/-- Regex [-s]? (optional dash or whitespace). -/
def dashSp : PatItem := .cls (.cset [] ['-'] true) .opt

/-- Regex [-s] (mandatory dash or whitespace). -/
def dashSp1 : PatItem := .cls (.cset [] ['-'] true) .one

/-- A language catalog: ordered category/pattern-list pairs (Python dict in
insertion order). -/
abbrev Catalog := List (String × List Pat)

/-- PSEUDOSCIENCE_MARKERS["russian"], in source order. -/
def ruMarkers : Catalog :=
  [ ("miracle_claims",
     [ lits "чудо" ++ [dashSp] ++ lits "средство",
       lits "чудо" ++ [dashSp] ++ lits "препарат",
       lits "чудодейственн" ++ [wP],
       lits "волшебн" ++ [wP] ++ lits " эффект",
       lits "магическ" ++ [wP] ++ lits " формула",
       lits "революционн" ++ [wP] ++ lits " прорыв",
       lits "сенсационн" ++ [wP] ++ lits " открытие" ]),
    ("guarantees",
     [ lits "100%" ++ [s0] ++ lits "гарантия",
       lits "абсолютн" ++ [wP] ++ lits " гарантия",
       lits "гарантирован" ++ [wP] ++ lits " результат",
       lits "гарантирован" ++ [wP] ++ lits " излечение",
       lits "полностью излечива" ++ [wP],
       lits "навсегда избав" ++ [wP] ]),
    ("detox",
     [ lits "детокс",
       lits "очищение организма",
       lits "вывод токсинов",
       lits "шлак" ++ [wP],
       lits "чистка организма",
       lits "очистка от токсинов" ]),
    ("energy",
     [ lits "энергетическ" ++ [wP] ++ lits " поле",
       lits "биоэнергетика",
       lits "квантов" ++ [wP] ++ lits " энергия",
       lits "космическ" ++ [wP] ++ lits " энергия",
       lits "энергетическ" ++ [wP] ++ lits " баланс",
       lits "энергоинформационн" ++ [wP] ]),
    ("natural",
     [ lits "100%" ++ [s0] ++ lits "натуральн" ++ [wP],
       lits "исключительно натуральн" ++ [wP],
       lits "только природн" ++ [wP] ++ lits " компоненты",
       lits "без химии",
       lits "экологически чист" ++ [wP] ]),
    ("fast_results",
     [ lits "за" ++ [sP, dP, sP] ++ lits "дн" ++ [wP],
       lits "мгновенн" ++ [wP] ++ lits " результат",
       lits "немедленн" ++ [wP] ++ lits " эффект",
       lits "быстр" ++ [wP] ++ lits " излечение",
       lits "в" ++ [sP] ++ lits "считанные" ++ [sP, wP] ]),
    ("universal",
     [ lits "от всех болезней",
       lits "универсальн" ++ [wP] ++ lits " средство",
       lits "лечит всё",
       lits "помогает при любых",
       lits "панацея" ]),
    ("unproven",
     [ lits "не признаётся официальной медициной",
       lits "скрывается врачами",
       lits "тайна фармацевт" ++ [wP],
       lits "секретн" ++ [wP] ++ lits " методика",
       lits "древн" ++ [wP] ++ lits " знания",
       lits "тибетск" ++ [wP] ++ lits " медицина" ]),
    ("emotional",
     [ lits "спасёт вашу жизнь",
       lits "не упустите шанс",
       lits "последняя надежда",
       lits "единственн" ++ [wP] ++ lits " способ",
       lits "врачи в шоке",
       lits "медики скрывают" ]),
    ("testimonials",
     [ lits "тысячи довольных",
       lits "миллионы людей",
       lits "все пациенты довольны",
       lits "отзывы потрясающие",
       lits "никто не пожалел" ]) ]

/-- PSEUDOSCIENCE_MARKERS["english"], in source order. -/
def enMarkers : Catalog :=
  [ ("miracle_claims",
     [ lits "miracle" ++ [sP] ++ lits "cure",
       lits "miracle" ++ [sP] ++ lits "drug",
       lits "wonder" ++ [sP] ++ lits "drug",
       lits "magical" ++ [sP] ++ lits "formula",
       lits "revolutionary" ++ [sP] ++ lits "breakthrough",
       lits "breakthrough" ++ [sP] ++ lits "discovery" ]),
    ("guarantees",
     [ lits "100%" ++ [s0] ++ lits "guaranteed",
       lits "guaranteed" ++ [sP] ++ lits "results",
       lits "guaranteed" ++ [sP] ++ lits "cure",
       lits "complete" ++ [sP] ++ lits "cure",
       lits "forever" ++ [sP] ++ lits "cure" ]),
    ("detox",
     [ lits "detox",
       lits "cleanse",
       lits "flush" ++ [sP] ++ lits "toxins",
       lits "remove" ++ [sP] ++ lits "toxins",
       lits "body" ++ [sP] ++ lits "cleanse" ]),
    ("energy",
     [ lits "energy" ++ [sP] ++ lits "field",
       lits "quantum" ++ [sP] ++ lits "energy",
       lits "cosmic" ++ [sP] ++ lits "energy",
       lits "energy" ++ [sP] ++ lits "balance" ]),
    ("natural",
     [ lits "100%" ++ [s0] ++ lits "natural",
       lits "all" ++ [dashSp1] ++ lits "natural",
       lits "purely" ++ [sP] ++ lits "natural",
       lits "chemical" ++ [dashSp1] ++ lits "free" ]),
    ("fast_results",
     [ lits "instant" ++ [sP] ++ lits "results",
       lits "immediate" ++ [sP] ++ lits "effect",
       lits "in" ++ [sP, dP, sP] ++ lits "days",
       lits "overnight" ++ [sP] ++ lits "cure" ]),
    ("universal",
     [ lits "cures" ++ [sP] ++ lits "everything",
       lits "universal" ++ [sP] ++ lits "remedy",
       lits "panacea" ]),
    ("unproven",
     [ lits "not" ++ [sP] ++ lits "recognized" ++ [sP] ++ lits "by",
       lits "hidden" ++ [sP] ++ lits "by" ++ [sP] ++ lits "doctors",
       lits "big" ++ [sP] ++ lits "pharma" ++ [sP] ++ lits "secret",
       lits "ancient" ++ [sP] ++ lits "wisdom" ]),
    ("emotional",
     [ lits "save" ++ [sP] ++ lits "your" ++ [sP] ++ lits "life",
       lits "don\x27t" ++ [sP] ++ lits "miss",
       lits "last" ++ [sP] ++ lits "hope",
       lits "only" ++ [sP] ++ lits "way",
       lits "doctors" ++ [sP] ++ lits "shocked" ]),
    ("testimonials",
     [ lits "thousands" ++ [sP] ++ lits "satisfied",
       lits "millions" ++ [sP] ++ lits "of" ++ [sP] ++ lits "people",
       lits "all" ++ [sP] ++ lits "patients" ++ [sP] ++ lits "satisfied" ]) ]

/-- PSEUDOSCIENCE_MARKERS: the two supported language catalogs. -/
def PSEUDOSCIENCE_MARKERS : List (String × Catalog) :=
  [("russian", ruMarkers), ("english", enMarkers)]

/-- One entry of RISK_CATEGORIES. -/
structure CatMeta where
  name_ru : String
  name_en : String
  severity : String
  description_ru : String
  description_en : String
deriving DecidableEq

/-- RISK_CATEGORIES: category metadata in source order. -/
def RISK_CATEGORIES : List (String × CatMeta) :=
  [ ("miracle_claims",
     { name_ru := "Чудодейственные утверждения", name_en := "Miracle claims",
       severity := "high",
       description_ru := "Необоснованные обещания чудесного исцеления",
       description_en := "Unsubstantiated promises of miraculous healing" }),
    ("guarantees",
     { name_ru := "Абсолютные гарантии", name_en := "Absolute guarantees",
       severity := "high",
       description_ru := "100% гарантии результата без доказательств",
       description_en := "100% result guarantees without evidence" }),
    ("detox",
     { name_ru := "Детокс-мифы", name_en := "Detox myths",
       severity := "medium",
       description_ru := "Необоснованные утверждения об очищении организма",
       description_en := "Unsubstantiated cleansing claims" }),
    ("energy",
     { name_ru := "Энергетические псевдоконцепции", name_en := "Energy pseudoconcepts",
       severity := "high",
       description_ru := "Ссылки на несуществующие энергетические поля",
       description_en := "References to non-existent energy fields" }),
    ("natural",
     { name_ru := "Натуральность как гарантия", name_en := "Natural as guarantee",
       severity := "low",
       description_ru := "Ошибочное представление о безопасности натурального",
       description_en := "Misconception about natural safety" }),
    ("fast_results",
     { name_ru := "Мгновенные результаты", name_en := "Instant results",
       severity := "medium",
       description_ru := "Нереалистичные сроки лечения",
       description_en := "Unrealistic treatment timeframes" }),
    ("universal",
     { name_ru := "Универсальные средства", name_en := "Universal remedies",
       severity := "high",
       description_ru := "Утверждения о лечении всех болезней",
       description_en := "Claims of curing all diseases" }),
    ("unproven",
     { name_ru := "Непризнанные методы", name_en := "Unproven methods",
       severity := "high",
       description_ru := "Ссылки на секретные или непризнанные методы",
       description_en := "References to secret or unrecognized methods" }),
    ("emotional",
     { name_ru := "Эмоциональная манипуляция", name_en := "Emotional manipulation",
       severity := "high",
       description_ru := "Давление на эмоции и страхи пациентов",
       description_en := "Pressure on patient emotions and fears" }),
    ("testimonials",
     { name_ru := "Массовые отзывы", name_en := "Mass testimonials",
       severity := "medium",
       description_ru := "Необоснованные утверждения о массовой эффективности",
       description_en := "Unsubstantiated mass efficacy claims" }) ]

/-- LEGITIMATE_MEDICAL_TERMS: evidence-language patterns per language. -/
def LEGITIMATE_MEDICAL_TERMS : List (String × List Pat) :=
  [ ("russian",
     [ lits "клиническ" ++ [wP] ++ lits " исследования",
       lits "рандомизированн" ++ [wP] ++ lits " контролируем" ++ [wP],
       lits "доказательн" ++ [wP] ++ lits " медицина",
       lits "плацебо" ++ [dashSp1] ++ lits "контролируем" ++ [wP],
       lits "мета" ++ [dashSp1] ++ lits "анализ",
       lits "систематическ" ++ [wP] ++ lits " обзор",
       lits "peer" ++ [dashSp1] ++ lits "review",
       lits "рецензируем" ++ [wP] ++ lits " журнал" ]),
    ("english",
     [ lits "clinical" ++ [sP] ++ lits "trial",
       lits "randomized" ++ [sP] ++ lits "controlled",
       lits "evidence" ++ [dashSp1] ++ lits "based",
       lits "placebo" ++ [dashSp1] ++ lits "controlled",
       lits "meta" ++ [dashSp1] ++ lits "analysis",
       lits "systematic" ++ [sP] ++ lits "review",
       lits "peer" ++ [dashSp1] ++ lits "reviewed" ]) ]

/-- AMPLIFIERS: intensifier word lists per language. -/
def AMPLIFIERS : List (String × List String) :=
  [ ("russian",
     ["абсолютно", "полностью", "совершенно", "исключительно",
      "невероятно", "поразительно", "удивительно", "феноменально"]),
    ("english",
     ["absolutely", "completely", "totally", "exclusively",
      "incredibly", "amazingly", "astonishingly", "phenomenally"]) ]

/-- get_all_patterns: the catalog for a language; raises ValueError (none) if
the language is not a key of PSEUDOSCIENCE_MARKERS. -/
def get_all_patterns (language : String) : Option Catalog :=
  PSEUDOSCIENCE_MARKERS.lookup language

/-- Total of all counts in a category-count mapping (sum of dict values). -/
def totalMarkers (cc : List (String × Nat)) : Nat :=
  (cc.map (·.2)).sum

/-- The severity looked up with RISK_CATEGORIES.get(cat, default).get("severity"):
none models the missing-key path that yields Python None. -/
def severityOf (cat : String) : Option String :=
  (RISK_CATEGORIES.lookup cat).map (·.severity)

/-- Sum of counts of the categories whose looked-up severity is high. -/
def highSeverityCount (cc : List (String × Nat)) : Nat :=
  (cc.map (fun e => if severityOf e.1 = some "high" then e.2 else 0)).sum

/-- get_risk_level: the fixed decision table over the total marker count and
the high-severity count, evaluated top to bottom. -/
def get_risk_level (cc : List (String × Nat)) : String :=
  let total_markers := totalMarkers cc
  let high_severity_count := highSeverityCount cc
  if total_markers = 0 then "low"
  else if high_severity_count ≥ 3 ∨ total_markers ≥ 10 then "critical"
  else if high_severity_count ≥ 1 ∨ total_markers ≥ 5 then "high"
  else if total_markers ≥ 2 then "medium"
  else "low"

/-! ### analyzer.py: PseudoscienceAnalyzer -/

/-- A marker record emitted by _find_markers.  The Python dict key "end" is a
reserved word in Lean and is rendered endPos. -/
structure Marker where
  category : String
  text : List Char
  start : Nat
  endPos : Nat
  severity : String
  description_ru : String
  description_en : String
deriving DecidableEq

/-- Metadata of a category as read in _find_markers via RISK_CATEGORIES[cat].
The source raises KeyError for a category absent from RISK_CATEGORIES; every
catalog category is present, so the default record is never read there. -/
def riskMetaOf (cat : String) : CatMeta :=
  (RISK_CATEGORIES.lookup cat).getD ⟨"", "", "", "", ""⟩

/-- The markers one compiled pattern contributes for one category. -/
def markersOfPattern (cat : String) (p : Pat) (text : List Char) : List Marker :=
  (patFinditer true p text).map (fun sp =>
    { category := cat
      text := seg text sp.1 sp.2
      start := sp.1
      endPos := sp.2
      severity := (riskMetaOf cat).severity
      description_ru := (riskMetaOf cat).description_ru
      description_en := (riskMetaOf cat).description_en })

/-- _find_markers over an explicit compiled catalog: for each category in
order, for each of its patterns in order, all case-insensitive matches. -/
def findMarkersWith (catalog : Catalog) (text : List Char) : List Marker :=
  catalog.flatMap (fun e => e.2.flatMap (fun p => markersOfPattern e.1 p text))

/-- A plain positioned match as returned by _find_legitimate_terms and
_find_amplifiers. -/
structure TermMatch where
  text : List Char
  start : Nat
  endPos : Nat
deriving DecidableEq

/-- Spans of a pattern list, in order (the matching discipline shared by
_find_legitimate_terms and _find_amplifiers). -/
def termMatches (pats : List Pat) (text : List Char) : List TermMatch :=
  pats.flatMap (fun p =>
    (patFinditer true p text).map (fun sp => ⟨seg text sp.1 sp.2, sp.1, sp.2⟩))

/-- _find_legitimate_terms: LEGITIMATE_MEDICAL_TERMS.get(language, []) matched
case-insensitively; an unsupported language degrades to no matches. -/
def find_legitimate_terms (language : String) (text : List Char) : List TermMatch :=
  termMatches ((LEGITIMATE_MEDICAL_TERMS.lookup language).getD []) text

/-- The whole-word pattern re.compile(r"b" + re.escape(word) + r"b"). -/
def ampPat (word : String) : Pat := [.bnd] ++ lits word ++ [.bnd]

/-- _find_amplifiers: AMPLIFIERS.get(language, []) matched as case-insensitive
whole words; an unsupported language degrades to no matches. -/
def find_amplifiers (language : String) (text : List Char) : List TermMatch :=
  termMatches (((AMPLIFIERS.lookup language).getD []).map ampPat) text

/-! ### textloader.py: TextHighlighter -/

/-- The ANSI color table of TextHighlighter (escape = x1b). -/
def ansiColors : List (String × String) :=
  [("high", "\x1b[91m"), ("medium", "\x1b[93m"), ("low", "\x1b[92m"),
   ("reset", "\x1b[0m"), ("bold", "\x1b[1m")]

/-- The default severity_colors mapping (identity on the three severities);
severity_colors.get(severity, "medium") for anything else. -/
def severityColorKey (sev : String) : String :=
  if sev = "high" ∨ sev = "medium" ∨ sev = "low" then sev else "medium"

/-- The replacement spliced over a matched span: bold + color + span + reset
in console mode, **span** otherwise. -/
def wrapSpan (useColors : Bool) (sev : String) (original : List Char) : List Char :=
  if useColors then
    ((ansiColors.lookup "bold").getD "").data ++
      ((ansiColors.lookup (severityColorKey sev)).getD "").data ++
      original ++ ((ansiColors.lookup "reset").getD "").data
  else "**".data ++ original ++ "**".data

/-- One splice step of highlight_text:
highlighted[:start] + replacement + highlighted[end:]. -/
def spliceOne (useColors : Bool) (l : List Char) (m : Marker) : List Char :=
  l.take m.start ++ wrapSpan useColors m.severity (seg l m.start m.endPos) ++ l.drop m.endPos

/-- Stable insertion into a list sorted by descending start. -/
def insertDesc (m : Marker) : List Marker → List Marker
  | [] => [m]
  | x :: xs => if m.start < x.start then x :: insertDesc m xs else m :: x :: xs

/-- Python sorted(markers, key=start, reverse=True): stable descending sort. -/
def sortDesc : List Marker → List Marker
  | [] => []
  | m :: ms => insertDesc m (sortDesc ms)

/-- TextHighlighter.highlight_text: empty marker list returns the text
unchanged; otherwise the markers are spliced in descending start order. -/
def highlight_text (useColors : Bool) (text : List Char) (markers : List Marker) : List Char :=
  if markers = [] then text
  else (sortDesc markers).foldl (spliceOne useColors) text

/-! ### analyzer.py: analyze_text -/

/-- Category counting over the found markers: a dict built in first-seen
order, incrementing the count of an existing key. -/
def bumpCount (cc : List (String × Nat)) (cat : String) : List (String × Nat) :=
  match cc with
  | [] => [(cat, 1)]
  | (k, n) :: t => if k = cat then (k, n + 1) :: t else (k, n) :: bumpCount t cat

/-- The category_counts dict of analyze_text. -/
def countCats (markers : List Marker) : List (String × Nat) :=
  markers.foldl (fun cc m => bumpCount cc m.category) []

/-- An analyzer instance: configured language and the pattern catalog compiled
at construction (the compiled-pattern cache). -/
structure Analyzer where
  language : String
  compiled : Catalog

/-- Analyzer construction: compiles the catalog once; get_all_patterns raises
(none) for an unsupported language. -/
def mkAnalyzer (language : String) : Option Analyzer :=
  (get_all_patterns language).map (fun c => ⟨language, c⟩)

/-- The analyzer configured for the primary locale. -/
def ruAnalyzer : Analyzer := ⟨"russian", ruMarkers⟩

/-- The detailed analysis result of analyze_text.  The timestamp field is
wall-clock output and is not modelled; every other field is.
language_warning is the optional mismatch message. -/
structure AnalysisResult where
  language_detected : String
  language_warning : Option String
  text_stats : TextStats
  risk_level : String
  markers_count : Nat
  category_counts : List (String × Nat)
  legitimate_terms_count : Nat
  amplifiers_count : Nat
  markers : List Marker
  legitimate_terms : List TermMatch
  amplifiers : List TermMatch
  highlighted_text : List Char
deriving DecidableEq

/-- The language mismatch warning string of analyze_text. -/
def mkWarning (detected configured : String) : String :=
  "Внимание: обнаружен язык \x27" ++ detected ++
    "\x27, но анализатор настроен на \x27" ++ configured ++ "\x27"

/-- The body of analyze_text after preprocessing, over the processed text. -/
def analyzeProcessed (a : Analyzer) (processed : List Char) : AnalysisResult :=
  let detected := detect_language processed
  let warning :=
    if detected ≠ a.language ∧ detected ≠ "unknown" then some (mkWarning detected a.language)
    else none
  let markers_found := findMarkersWith a.compiled processed
  let legitimate := find_legitimate_terms a.language processed
  let amps := find_amplifiers a.language processed
  let category_counts := countCats markers_found
  { language_detected := detected
    language_warning := warning
    text_stats := get_text_stats processed
    risk_level := get_risk_level category_counts
    markers_count := markers_found.length
    category_counts := category_counts
    legitimate_terms_count := legitimate.length
    amplifiers_count := amps.length
    markers := markers_found
    legitimate_terms := legitimate
    amplifiers := amps
    highlighted_text := highlight_text true processed markers_found }

/-- PseudoscienceAnalyzer.analyze_text with detailed=True: preprocess, then
the full pipeline.  It raises nothing: blank input flows through. -/
def analyze_text (a : Analyzer) (text : List Char) : AnalysisResult :=
  analyzeProcessed a (preprocess_text text)

/-! ### Spec-side definitions used to state the claims -/

/-- Modelled from the spec: the risk decision table over
total = sum of all counts and high = sum of high-severity counts, evaluated
top to bottom with first match winning. -/
def riskLevelTable (total high : Nat) : String :=
  if total = 0 then "low"
  else if high ≥ 3 ∨ total ≥ 10 then "critical"
  else if high ≥ 1 ∨ total ≥ 5 then "high"
  else if total ≥ 2 then "medium"
  else "low"

/-- Modelled from the spec: the number of whitespace-delimited tokens,
counted by a single pass that tracks whether a token is open. -/
def tokCount : Bool → List Char → Nat
  | _, [] => 0
  | inTok, c :: t =>
      if isSpaceC c then tokCount false t
      else if inTok then tokCount true t else 1 + tokCount true t

/-- Two catalogs that present the same categories and patterns, permuting the
category order and each category's pattern order. -/
def catalogEquiv (c₁ c₂ : Catalog) : Prop :=
  ∃ c', List.Forall₂ (fun e₁ e₂ => e₁.1 = e₂.1 ∧ e₁.2.Perm e₂.2) c₁ c' ∧ c'.Perm c₂

/-- Markers listed in ascending start order with pairwise disjoint, nonempty,
in-bounds spans: each span starts at or after `p` and ends by `len`. -/
def okFromB (p len : Nat) : List Marker → Bool
  | [] => true
  | m :: ms =>
      decide (p ≤ m.start) && decide (m.start < m.endPos) && decide (m.endPos ≤ len) &&
        okFromB m.endPos len ms

/-- The expected highlighter output for ascending disjoint markers: literal
gaps of the original text alternate with wrapped original spans. -/
def renderFrom (useColors : Bool) (l : List Char) : Nat → List Marker → List Char
  | p, [] => l.drop p
  | p, m :: ms =>
      (l.drop p).take (m.start - p) ++
        wrapSpan useColors m.severity (seg l m.start m.endPos) ++
        renderFrom useColors l m.endPos ms

/-- Every character is whitespace. -/
def allSpace (s : List Char) : Bool := s.all isSpaceC

/-- The first character, if any, is not whitespace. -/
def headNonWs : List Char → Bool
  | [] => true
  | c :: _ => !isSpaceC c

/-- Whitespace-normal form: every whitespace character is a plain space and is
followed by a non-whitespace character (no adjacent whitespace). -/
def wsOk : List Char → Bool
  | [] => true
  | c :: t => (!isSpaceC c || (c == ' ' && headNonWs t)) && wsOk t

/-- The last character, if any, is not whitespace. -/
def lastNonWs : List Char → Bool
  | [] => true
  | [c] => !isSpaceC c
  | _ :: t => lastNonWs t

/-- No match of the matcher at any scan position of the text, threading the
previous character exactly as the substitution scan does. -/
def noMatchFrom (m : Matcher) : Option Char → List Char → Prop
  | prev, [] => m prev [] = none
  | prev, c :: t => m prev (c :: t) = none ∧ noMatchFrom m (some c) t


def clsList : Pat → List CharCls
  | [] => []
  | .cls cc _ :: rest => cc :: clsList rest
  | .bnd :: rest => clsList rest

def headsRel (ci : Bool) (q : Pat) : List Char → List Char → Prop
  | [], [] => True
  | c :: _, [] => (∀ cc ∈ clsList q, ccMatches ci cc c = false) ∧ isWordChar c = false
  | [], c :: _ => (∀ cc ∈ clsList q, ccMatches ci cc c = false) ∧ isWordChar c = false
  | c₁ :: _, c₂ :: _ =>
      (∀ cc ∈ clsList q, ccMatches ci cc c₁ = false) ∧
      (∀ cc ∈ clsList q, ccMatches ci cc c₂ = false) ∧
      isWordChar c₁ = isWordChar c₂

def headWord : List Char → Bool
  | [] => false
  | c :: _ => isWordChar c

def lastPrev : List Char → Option Char → Option Char
  | [], prev => prev
  | c :: w, _ => lastPrev w (some c)

def litsL (w : List Char) : Pat := w.map (fun c => .cls (.lit c) .one)

def litPref : List Char → List Char → Bool
  | [], _ => true
  | _ :: _, [] => false
  | c :: w, d :: t => (d == c) && litPref w t

def headNonSpace : List Char → Bool
  | [] => false
  | c :: _ => !isSpaceC c

def urlTrig (s : List Char) : Bool :=
  (litPref "http://".data s && headNonSpace (s.drop 7)) ||
  (litPref "https://".data s && headNonSpace (s.drop 8)) ||
  (litPref "www.".data s && headNonSpace (s.drop 4))

def subFrom (m : Matcher) (R : List Char) (prev : Option Char) (s : List Char) : List Char :=
  subAux m R (s.length + 1) prev s

def ctxAt (prev : Option Char) (s : List Char) (j : Nat) : Option Char :=
  if j = 0 then prev else (s.take j).getLast?

def isLocal (c : Char) : Bool := ccMatches false emailLocalCls c

def isDomain (c : Char) : Bool := ccMatches false emailDomainCls c

def isTld (c : Char) : Bool := ccMatches false emailTldCls c

def emTail (x : List Char) : Prop :=
  ∃ T r, x = T ++ r ∧ 2 ≤ T.length ∧ (∀ c ∈ T, isTld c = true) ∧
    (isWordChar (T.getLastD ' ') != headWord r) = true

def emDom (x : List Char) : Prop :=
  ∃ D y, x = D ++ '.' :: y ∧ D ≠ [] ∧ (∀ c ∈ D, isDomain c = true) ∧ emTail y

def emBody (x : List Char) : Prop :=
  ∃ L y, x = L ++ '@' :: y ∧ L ≠ [] ∧ (∀ c ∈ L, isLocal c = true) ∧ emDom y

def nonspaceP (c : Char) : Bool := !isSpaceC c

/-! ## Theorems -/

/-- A substitution scan with no match anywhere returns the text unchanged. -/
theorem subAux_eq_of_noMatch (m : Matcher) (repl : List Char) :
    ∀ (s : List Char) (fuel : Nat) (prev : Option Char), noMatchFrom m prev s →
      subAux m repl fuel prev s = s := by
  intro s
  induction s with
  | nil =>
      intro fuel prev h
      have h' : m prev [] = none := h
      cases fuel with
      | zero => rfl
      | succ n => simp [subAux, h']
  | cons c t ih =>
      intro fuel prev h
      have h1 : m prev (c :: t) = none := h.1
      have h2 : noMatchFrom m (some c) t := h.2
      cases fuel with
      | zero => rfl
      | succ n => simp [subAux, h1, ih n (some c) h2]


theorem fuel_step {x y n : Nat} (h : x * y ≤ n + 1) {u v : Nat}
    (hlt : u * v < x * y) : u * v ≤ n := by omega

theorem measure_lt {s' p' s p : Nat} (hs : s' ≤ s) (hp : p' ≤ p) (h : s' < s ∨ p' < p) :
    (s' + 1) * (p' + 1) < (s + 1) * (p + 1) := by
  rcases h with h | h <;> nlinarith

theorem measure_pos (p : Pat) (s : List Char) : 1 ≤ (s.length + 1) * (p.length + 1) :=
  Nat.one_le_iff_ne_zero.mpr (Nat.mul_ne_zero (Nat.succ_ne_zero _) (Nat.succ_ne_zero _))

theorem matchEnd_fuel_congr (ci : Bool) :
    ∀ n : Nat, ∀ (m : Nat) (p : Pat) (prev : Option Char) (s : List Char),
      (s.length + 1) * (p.length + 1) ≤ n →
      (s.length + 1) * (p.length + 1) ≤ m →
      matchEnd ci n p prev s = matchEnd ci m p prev s := by
  intro n
  induction n using Nat.strong_induction_on with
  | _ n ih =>
    intro m p prev s hn hm
    have hpos := measure_pos p s
    obtain ⟨n', rfl⟩ : ∃ n', n = n' + 1 := ⟨n - 1, by omega⟩
    obtain ⟨m', rfl⟩ : ∃ m', m = m' + 1 := ⟨m - 1, by omega⟩
    have hrec : ∀ (p' : Pat) (prev' : Option Char) (s' : List Char),
        (s'.length + 1) * (p'.length + 1) < (s.length + 1) * (p.length + 1) →
        matchEnd ci n' p' prev' s' = matchEnd ci m' p' prev' s' := by
      intro p' prev' s' hlt
      exact ih n' (by omega) m' p' prev' s' (fuel_step hn hlt) (fuel_step hm hlt)
    cases p with
    | nil => rfl
    | cons it rest =>
        cases it with
        | bnd =>
            show (if _ then matchEnd ci n' rest prev s else none) =
              (if _ then matchEnd ci m' rest prev s else none)
            rw [hrec rest prev s (measure_lt (le_refl _) (by simp) (Or.inr (by simp)))]
        | cls cc q =>
            cases q with
            | one =>
                cases s with
                | nil => rfl
                | cons c t =>
                    show (if ccMatches ci cc c then (matchEnd ci n' rest (some c) t).map (· + 1) else none) =
                      (if ccMatches ci cc c then (matchEnd ci m' rest (some c) t).map (· + 1) else none)
                    rw [hrec rest (some c) t (measure_lt (by simp) (by simp)
                      (Or.inl (by simp)))]
            | opt =>
                cases s with
                | nil =>
                    show matchEnd ci n' rest prev [] = matchEnd ci m' rest prev []
                    exact hrec rest prev [] (measure_lt (le_refl _) (by simp) (Or.inr (by simp)))
                | cons c t =>
                    have h1 := hrec rest (some c) t (measure_lt (by simp) (by simp) (Or.inl (by simp)))
                    have h2 := hrec rest prev (c :: t)
                      (measure_lt (le_refl _) (by simp) (Or.inr (by simp)))
                    show (if ccMatches ci cc c then
                            match matchEnd ci n' rest (some c) t with
                            | some k => some (k + 1)
                            | none => matchEnd ci n' rest prev (c :: t)
                          else matchEnd ci n' rest prev (c :: t)) =
                         (if ccMatches ci cc c then
                            match matchEnd ci m' rest (some c) t with
                            | some k => some (k + 1)
                            | none => matchEnd ci m' rest prev (c :: t)
                          else matchEnd ci m' rest prev (c :: t))
                    rw [h1, h2]
            | plus =>
                cases s with
                | nil => rfl
                | cons c t =>
                    show (if ccMatches ci cc c then
                            (matchEnd ci n' (.cls cc .star :: rest) (some c) t).map (· + 1)
                          else none) =
                         (if ccMatches ci cc c then
                            (matchEnd ci m' (.cls cc .star :: rest) (some c) t).map (· + 1)
                          else none)
                    rw [hrec (.cls cc .star :: rest) (some c) t
                      (measure_lt (by simp) (by simp) (Or.inl (by simp)))]
            | star =>
                cases s with
                | nil =>
                    show matchEnd ci n' rest prev [] = matchEnd ci m' rest prev []
                    exact hrec rest prev [] (measure_lt (le_refl _) (by simp) (Or.inr (by simp)))
                | cons c t =>
                    have h1 := hrec (.cls cc .star :: rest) (some c) t
                      (measure_lt (by simp) (by simp) (Or.inl (by simp)))
                    have h2 := hrec rest prev (c :: t)
                      (measure_lt (le_refl _) (by simp) (Or.inr (by simp)))
                    show (if ccMatches ci cc c then
                            match matchEnd ci n' (.cls cc .star :: rest) (some c) t with
                            | some k => some (k + 1)
                            | none => matchEnd ci n' rest prev (c :: t)
                          else matchEnd ci n' rest prev (c :: t)) =
                         (if ccMatches ci cc c then
                            match matchEnd ci m' (.cls cc .star :: rest) (some c) t with
                            | some k => some (k + 1)
                            | none => matchEnd ci m' rest prev (c :: t)
                          else matchEnd ci m' rest prev (c :: t))
                    rw [h1, h2]

theorem headsRel_tail {ci : Bool} {it : PatItem} {q : Pat} {r₁ r₂ : List Char}
    (h : headsRel ci (it :: q) r₁ r₂) : headsRel ci q r₁ r₂ := by
  have hmono : ∀ c, (∀ cc ∈ clsList (it :: q), ccMatches ci cc c = false) →
      (∀ cc ∈ clsList q, ccMatches ci cc c = false) := by
    intro c hc cc hcc
    cases it with
    | bnd => exact hc cc hcc
    | cls cc' q' => exact hc cc (List.mem_cons_of_mem _ hcc)
  cases r₁ with
  | nil =>
      cases r₂ with
      | nil => exact h
      | cons c t => exact ⟨hmono c h.1, h.2⟩
  | cons c t =>
      cases r₂ with
      | nil => exact ⟨hmono c h.1, h.2⟩
      | cons c₂ t₂ => exact ⟨hmono c h.1, hmono c₂ h.2.1, h.2.2⟩

theorem matchEnd_window (ci : Bool) :
    ∀ (fuel : Nat) (q : Pat) (prev : Option Char) (A r₁ r₂ : List Char),
      headsRel ci q r₁ r₂ →
      matchEnd ci fuel q prev (A ++ r₁) = matchEnd ci fuel q prev (A ++ r₂) := by
  intro fuel
  induction fuel with
  | zero => intro q prev A r₁ r₂ _; rfl
  | succ fuel ih =>
      intro q prev A r₁ r₂ h
      cases q with
      | nil => rfl
      | cons it rest =>
          cases it with
          | bnd =>
              cases A with
              | cons a A' =>
                  have hr := ih rest prev (a :: A') r₁ r₂ (headsRel_tail h)
                  simp only [List.cons_append] at hr ⊢
                  show (if _ then matchEnd ci fuel rest prev (a :: (A' ++ r₁)) else none) =
                    (if _ then matchEnd ci fuel rest prev (a :: (A' ++ r₂)) else none)
                  rw [hr]
              | nil =>
                  simp only [List.nil_append]
                  have hr := ih rest prev [] r₁ r₂ (headsRel_tail h)
                  simp only [List.nil_append] at hr
                  cases r₁ with
                  | nil =>
                      cases r₂ with
                      | nil => rfl
                      | cons c t =>
                          have hw : isWordChar c = false := h.2
                          cases prev with
                          | none =>
                              show (if (false != false) = true then
                                      matchEnd ci fuel rest none [] else none) =
                                   (if (false != isWordChar c) = true then
                                      matchEnd ci fuel rest none (c :: t) else none)
                              rw [hw, hr]
                          | some p =>
                              show (if (isWordChar p != false) = true then
                                      matchEnd ci fuel rest (some p) [] else none) =
                                   (if (isWordChar p != isWordChar c) = true then
                                      matchEnd ci fuel rest (some p) (c :: t) else none)
                              rw [hw, hr]
                  | cons c t =>
                      cases r₂ with
                      | nil =>
                          have hw : isWordChar c = false := h.2
                          cases prev with
                          | none =>
                              show (if (false != isWordChar c) = true then
                                      matchEnd ci fuel rest none (c :: t) else none) =
                                   (if (false != false) = true then
                                      matchEnd ci fuel rest none [] else none)
                              rw [hw, hr]
                          | some p =>
                              show (if (isWordChar p != isWordChar c) = true then
                                      matchEnd ci fuel rest (some p) (c :: t) else none) =
                                   (if (isWordChar p != false) = true then
                                      matchEnd ci fuel rest (some p) [] else none)
                              rw [hw, hr]
                      | cons c₂ t₂ =>
                          have hw : isWordChar c = isWordChar c₂ := h.2.2
                          cases prev with
                          | none =>
                              show (if (false != isWordChar c) = true then
                                      matchEnd ci fuel rest none (c :: t) else none) =
                                   (if (false != isWordChar c₂) = true then
                                      matchEnd ci fuel rest none (c₂ :: t₂) else none)
                              rw [hw, hr]
                          | some p =>
                              show (if (isWordChar p != isWordChar c) = true then
                                      matchEnd ci fuel rest (some p) (c :: t) else none) =
                                   (if (isWordChar p != isWordChar c₂) = true then
                                      matchEnd ci fuel rest (some p) (c₂ :: t₂) else none)
                              rw [hw, hr]
          | cls cc q' =>
              cases A with
              | cons a A' =>
                  have h1 := ih rest (some a) A' r₁ r₂ (headsRel_tail h)
                  have h1s := ih (.cls cc .star :: rest) (some a) A' r₁ r₂
                    (show headsRel ci (.cls cc .star :: rest) r₁ r₂ from
                      show headsRel ci (.cls cc .star :: rest) r₁ r₂ by
                        cases r₁ <;> cases r₂ <;> exact h)
                  have h2 := ih rest prev (a :: A') r₁ r₂ (headsRel_tail h)
                  simp only [List.cons_append] at h1 h1s h2 ⊢
                  cases q' with
                  | one =>
                      show (if ccMatches ci cc a then
                              (matchEnd ci fuel rest (some a) (A' ++ r₁)).map (· + 1)
                            else none) =
                           (if ccMatches ci cc a then
                              (matchEnd ci fuel rest (some a) (A' ++ r₂)).map (· + 1)
                            else none)
                      rw [h1]
                  | opt =>
                      show (if ccMatches ci cc a then
                              match matchEnd ci fuel rest (some a) (A' ++ r₁) with
                              | some k => some (k + 1)
                              | none => matchEnd ci fuel rest prev (a :: (A' ++ r₁))
                            else matchEnd ci fuel rest prev (a :: (A' ++ r₁))) =
                           (if ccMatches ci cc a then
                              match matchEnd ci fuel rest (some a) (A' ++ r₂) with
                              | some k => some (k + 1)
                              | none => matchEnd ci fuel rest prev (a :: (A' ++ r₂))
                            else matchEnd ci fuel rest prev (a :: (A' ++ r₂)))
                      rw [h1, h2]
                  | plus =>
                      show (if ccMatches ci cc a then
                              (matchEnd ci fuel (.cls cc .star :: rest) (some a) (A' ++ r₁)).map (· + 1)
                            else none) =
                           (if ccMatches ci cc a then
                              (matchEnd ci fuel (.cls cc .star :: rest) (some a) (A' ++ r₂)).map (· + 1)
                            else none)
                      rw [h1s]
                  | star =>
                      show (if ccMatches ci cc a then
                              match matchEnd ci fuel (.cls cc .star :: rest) (some a) (A' ++ r₁) with
                              | some k => some (k + 1)
                              | none => matchEnd ci fuel rest prev (a :: (A' ++ r₁))
                            else matchEnd ci fuel rest prev (a :: (A' ++ r₁))) =
                           (if ccMatches ci cc a then
                              match matchEnd ci fuel (.cls cc .star :: rest) (some a) (A' ++ r₂) with
                              | some k => some (k + 1)
                              | none => matchEnd ci fuel rest prev (a :: (A' ++ r₂))
                            else matchEnd ci fuel rest prev (a :: (A' ++ r₂)))
                      rw [h1s, h2]
              | nil =>
                  simp only [List.nil_append]
                  have hr := ih rest prev [] r₁ r₂ (headsRel_tail h)
                  simp only [List.nil_append] at hr
                  cases r₁ with
                  | nil =>
                      cases r₂ with
                      | nil => rfl
                      | cons c t =>
                          have hcc : ccMatches ci cc c = false := h.1 cc (by simp [clsList])
                          cases q' with
                          | one => simp [matchEnd, hcc]
                          | opt =>
                              show matchEnd ci fuel rest prev [] =
                                (if ccMatches ci cc c then
                                  match matchEnd ci fuel rest (some c) t with
                                  | some k => some (k + 1)
                                  | none => matchEnd ci fuel rest prev (c :: t)
                                 else matchEnd ci fuel rest prev (c :: t))
                              rw [hcc, hr]
                              simp
                          | plus => simp [matchEnd, hcc]
                          | star =>
                              show matchEnd ci fuel rest prev [] =
                                (if ccMatches ci cc c then
                                  match matchEnd ci fuel (.cls cc .star :: rest) (some c) t with
                                  | some k => some (k + 1)
                                  | none => matchEnd ci fuel rest prev (c :: t)
                                 else matchEnd ci fuel rest prev (c :: t))
                              rw [hcc, hr]
                              simp
                  | cons c t =>
                      cases r₂ with
                      | nil =>
                          have hcc : ccMatches ci cc c = false := h.1 cc (by simp [clsList])
                          cases q' with
                          | one => simp [matchEnd, hcc]
                          | opt =>
                              show (if ccMatches ci cc c then
                                      match matchEnd ci fuel rest (some c) t with
                                      | some k => some (k + 1)
                                      | none => matchEnd ci fuel rest prev (c :: t)
                                    else matchEnd ci fuel rest prev (c :: t)) =
                                   matchEnd ci fuel rest prev []
                              rw [hcc, hr]
                              simp
                          | plus => simp [matchEnd, hcc]
                          | star =>
                              show (if ccMatches ci cc c then
                                      match matchEnd ci fuel (.cls cc .star :: rest) (some c) t with
                                      | some k => some (k + 1)
                                      | none => matchEnd ci fuel rest prev (c :: t)
                                    else matchEnd ci fuel rest prev (c :: t)) =
                                   matchEnd ci fuel rest prev []
                              rw [hcc, hr]
                              simp
                      | cons c₂ t₂ =>
                          have hcc₁ : ccMatches ci cc c = false := h.1 cc (by simp [clsList])
                          have hcc₂ : ccMatches ci cc c₂ = false := h.2.1 cc (by simp [clsList])
                          cases q' with
                          | one => simp [matchEnd, hcc₁, hcc₂]
                          | opt =>
                              show (if ccMatches ci cc c then
                                      match matchEnd ci fuel rest (some c) t with
                                      | some k => some (k + 1)
                                      | none => matchEnd ci fuel rest prev (c :: t)
                                    else matchEnd ci fuel rest prev (c :: t)) =
                                   (if ccMatches ci cc c₂ then
                                      match matchEnd ci fuel rest (some c₂) t₂ with
                                      | some k => some (k + 1)
                                      | none => matchEnd ci fuel rest prev (c₂ :: t₂)
                                    else matchEnd ci fuel rest prev (c₂ :: t₂))
                              rw [hcc₁, hcc₂, hr]
                              simp
                          | plus => simp [matchEnd, hcc₁, hcc₂]
                          | star =>
                              show (if ccMatches ci cc c then
                                      match matchEnd ci fuel (.cls cc .star :: rest) (some c) t with
                                      | some k => some (k + 1)
                                      | none => matchEnd ci fuel rest prev (c :: t)
                                    else matchEnd ci fuel rest prev (c :: t)) =
                                   (if ccMatches ci cc c₂ then
                                      match matchEnd ci fuel (.cls cc .star :: rest) (some c₂) t₂ with
                                      | some k => some (k + 1)
                                      | none => matchEnd ci fuel rest prev (c₂ :: t₂)
                                    else matchEnd ci fuel rest prev (c₂ :: t₂))
                              rw [hcc₁, hcc₂, hr]
                              simp

theorem patMatchAt_fuel (q : Pat) (prev : Option Char) (s : List Char) {fuel : Nat}
    (h : (s.length + 1) * (q.length + 1) ≤ fuel) :
    patMatchAt false q prev s = matchEnd false fuel q prev s :=
  matchEnd_fuel_congr false _ fuel q prev s (by simp [matchFuel]) h

theorem patMatchAt_nil (prev : Option Char) (s : List Char) :
    patMatchAt false [] prev s = some 0 := by
  have h := @patMatchAt_fuel [] prev s ((s.length + 1) * 1) (by simp)
  rw [h]
  have : (s.length + 1) * 1 = s.length + 1 := by omega
  rw [this]
  rfl

theorem patMatchAt_bnd (rest : Pat) (prev : Option Char) (s : List Char) :
    patMatchAt false (.bnd :: rest) prev s =
      if (prevWord prev != headWord s) = true then patMatchAt false rest prev s
      else none := by
  have hs : patMatchAt false (.bnd :: rest) prev s =
      matchEnd false ((s.length + 1) * (rest.length + 2)) (.bnd :: rest) prev s :=
    patMatchAt_fuel _ _ _ (by exact Nat.le_refl _)
  rw [hs]
  have hpos : 1 ≤ (s.length + 1) * (rest.length + 2) :=
    Nat.one_le_iff_ne_zero.mpr (Nat.mul_ne_zero (by omega) (by omega))
  obtain ⟨f, hf⟩ : ∃ f, (s.length + 1) * (rest.length + 2) = f + 1 :=
    ⟨(s.length + 1) * (rest.length + 2) - 1, by omega⟩
  rw [hf]
  have hrest : matchEnd false f rest prev s = patMatchAt false rest prev s := by
    refine (patMatchAt_fuel _ _ _ ?_).symm
    have hx : (s.length + 1) * (rest.length + 2) =
        (s.length + 1) * (rest.length + 1) + (s.length + 1) := by ring
    omega
  cases prev with
  | none =>
      cases s with
      | nil =>
          show (if (false != false) = true then matchEnd false f rest none [] else none) = _
          rw [hrest]
          rfl
      | cons c t =>
          show (if (false != isWordChar c) = true then matchEnd false f rest none (c :: t) else none) = _
          rw [hrest]
          rfl
  | some p =>
      cases s with
      | nil =>
          show (if (isWordChar p != false) = true then matchEnd false f rest (some p) [] else none) = _
          rw [hrest]
          rfl
      | cons c t =>
          show (if (isWordChar p != isWordChar c) = true then matchEnd false f rest (some p) (c :: t) else none) = _
          rw [hrest]
          rfl

theorem patMatchAt_cons_fuel (it : PatItem) (rest : Pat) (prev : Option Char) (s : List Char) :
    ∃ f, patMatchAt false (it :: rest) prev s = matchEnd false (f + 1) (it :: rest) prev s ∧
      (s.length + 1) * (rest.length + 1) ≤ f ∧
      (∀ d (t : List Char), s = d :: t → (t.length + 1) * (rest.length + 1) ≤ f) ∧
      (∀ d (t : List Char), s = d :: t → (t.length + 1) * (it :: rest).length.succ ≤ f) := by
  have hpos : 1 ≤ (s.length + 1) * (rest.length + 2) :=
    Nat.one_le_iff_ne_zero.mpr (Nat.mul_ne_zero (by omega) (by omega))
  refine ⟨(s.length + 1) * (rest.length + 2) - 1, ?_, ?_, ?_, ?_⟩
  · have hs : patMatchAt false (it :: rest) prev s =
        matchEnd false ((s.length + 1) * (rest.length + 2)) (it :: rest) prev s :=
      patMatchAt_fuel _ _ _ (by exact Nat.le_refl _)
    rw [hs]
    congr 1
  · have hx : (s.length + 1) * (rest.length + 2) =
        (s.length + 1) * (rest.length + 1) + (s.length + 1) := by ring
    omega
  · intro d t ht
    subst ht
    have hx : (t.length + 1 + 1) * (rest.length + 2) =
        (t.length + 1) * (rest.length + 1) + (t.length + 1) + (rest.length + 2) := by ring
    simp only [List.length_cons]
    omega
  · intro d t ht
    subst ht
    show (t.length + 1) * (rest.length + 2) ≤ (t.length + 1 + 1) * (rest.length + 2) - 1
    have hx : (t.length + 1 + 1) * (rest.length + 2) =
        (t.length + 1) * (rest.length + 2) + (rest.length + 2) := by ring
    omega

theorem patMatchAt_one_nil (cc : CharCls) (rest : Pat) (prev : Option Char) :
    patMatchAt false (.cls cc .one :: rest) prev [] = none := by
  obtain ⟨f, hf, -, -, -⟩ := patMatchAt_cons_fuel (.cls cc .one) rest prev []
  rw [hf]
  rfl

theorem patMatchAt_one_cons (cc : CharCls) (rest : Pat) (prev : Option Char)
    (d : Char) (t : List Char) :
    patMatchAt false (.cls cc .one :: rest) prev (d :: t) =
      if ccMatches false cc d then (patMatchAt false rest (some d) t).map (· + 1)
      else none := by
  obtain ⟨f, hf, -, hsub, -⟩ := patMatchAt_cons_fuel (.cls cc .one) rest prev (d :: t)
  rw [hf]
  have hr : matchEnd false f rest (some d) t = patMatchAt false rest (some d) t :=
    (patMatchAt_fuel _ _ _ (hsub d t rfl)).symm
  show (if ccMatches false cc d then (matchEnd false f rest (some d) t).map (· + 1) else none) = _
  rw [hr]

theorem patMatchAt_opt_nil (cc : CharCls) (rest : Pat) (prev : Option Char) :
    patMatchAt false (.cls cc .opt :: rest) prev [] = patMatchAt false rest prev [] := by
  obtain ⟨f, hf, hr0, -, -⟩ := patMatchAt_cons_fuel (.cls cc .opt) rest prev []
  rw [hf]
  show matchEnd false f rest prev [] = _
  exact (patMatchAt_fuel _ _ _ (by simpa using hr0)).symm

theorem patMatchAt_opt_cons (cc : CharCls) (rest : Pat) (prev : Option Char)
    (d : Char) (t : List Char) :
    patMatchAt false (.cls cc .opt :: rest) prev (d :: t) =
      if ccMatches false cc d then
        match patMatchAt false rest (some d) t with
        | some n => some (n + 1)
        | none => patMatchAt false rest prev (d :: t)
      else patMatchAt false rest prev (d :: t) := by
  obtain ⟨f, hf, hr0, hsub, -⟩ := patMatchAt_cons_fuel (.cls cc .opt) rest prev (d :: t)
  rw [hf]
  have h1 : matchEnd false f rest (some d) t = patMatchAt false rest (some d) t :=
    (patMatchAt_fuel _ _ _ (hsub d t rfl)).symm
  have h2 : matchEnd false f rest prev (d :: t) = patMatchAt false rest prev (d :: t) :=
    (patMatchAt_fuel _ _ _ hr0).symm
  show (if ccMatches false cc d then
          match matchEnd false f rest (some d) t with
          | some n => some (n + 1)
          | none => matchEnd false f rest prev (d :: t)
        else matchEnd false f rest prev (d :: t)) = _
  rw [h1, h2]

theorem patMatchAt_star_nil (cc : CharCls) (rest : Pat) (prev : Option Char) :
    patMatchAt false (.cls cc .star :: rest) prev [] = patMatchAt false rest prev [] := by
  obtain ⟨f, hf, hr0, -, -⟩ := patMatchAt_cons_fuel (.cls cc .star) rest prev []
  rw [hf]
  show matchEnd false f rest prev [] = _
  exact (patMatchAt_fuel _ _ _ (by simpa using hr0)).symm

theorem patMatchAt_star_cons (cc : CharCls) (rest : Pat) (prev : Option Char)
    (d : Char) (t : List Char) :
    patMatchAt false (.cls cc .star :: rest) prev (d :: t) =
      if ccMatches false cc d then
        match patMatchAt false (.cls cc .star :: rest) (some d) t with
        | some n => some (n + 1)
        | none => patMatchAt false rest prev (d :: t)
      else patMatchAt false rest prev (d :: t) := by
  obtain ⟨f, hf, hr0, hsub, hself⟩ := patMatchAt_cons_fuel (.cls cc .star) rest prev (d :: t)
  rw [hf]
  have h1 : matchEnd false f (.cls cc .star :: rest) (some d) t =
      patMatchAt false (.cls cc .star :: rest) (some d) t :=
    (patMatchAt_fuel _ _ _ (by simpa using hself d t rfl)).symm
  have h2 : matchEnd false f rest prev (d :: t) = patMatchAt false rest prev (d :: t) :=
    (patMatchAt_fuel _ _ _ hr0).symm
  show (if ccMatches false cc d then
          match matchEnd false f (.cls cc .star :: rest) (some d) t with
          | some n => some (n + 1)
          | none => matchEnd false f rest prev (d :: t)
        else matchEnd false f rest prev (d :: t)) = _
  rw [h1, h2]

theorem patMatchAt_plus_nil (cc : CharCls) (rest : Pat) (prev : Option Char) :
    patMatchAt false (.cls cc .plus :: rest) prev [] = none := by
  obtain ⟨f, hf, -, -, -⟩ := patMatchAt_cons_fuel (.cls cc .plus) rest prev []
  rw [hf]
  rfl

theorem patMatchAt_plus_cons (cc : CharCls) (rest : Pat) (prev : Option Char)
    (d : Char) (t : List Char) :
    patMatchAt false (.cls cc .plus :: rest) prev (d :: t) =
      if ccMatches false cc d then
        (patMatchAt false (.cls cc .star :: rest) (some d) t).map (· + 1)
      else none := by
  obtain ⟨f, hf, -, -, hself⟩ := patMatchAt_cons_fuel (.cls cc .plus) rest prev (d :: t)
  rw [hf]
  have h1 : matchEnd false f (.cls cc .star :: rest) (some d) t =
      patMatchAt false (.cls cc .star :: rest) (some d) t :=
    (patMatchAt_fuel _ _ _ (by simpa using hself d t rfl)).symm
  show (if ccMatches false cc d then
          (matchEnd false f (.cls cc .star :: rest) (some d) t).map (· + 1)
        else none) = _
  rw [h1]

theorem patMatchAt_lits (w : List Char) (rest : Pat) :
    ∀ (prev : Option Char) (s : List Char),
      patMatchAt false (litsL w ++ rest) prev s =
        if litPref w s then
          (patMatchAt false rest (lastPrev w prev) (s.drop w.length)).map (· + w.length)
        else none := by
  induction w with
  | nil =>
      intro prev s
      simp only [litsL, List.map_nil, List.nil_append, litPref, lastPrev, List.length_nil,
        List.drop_zero, if_true]
      cases patMatchAt false rest prev s <;> simp
  | cons c w ih =>
      intro prev s
      cases s with
      | nil =>
          show patMatchAt false (.cls (.lit c) .one :: (litsL w ++ rest)) prev [] = _
          rw [patMatchAt_one_nil]
          simp [litPref]
      | cons d t =>
          show patMatchAt false (.cls (.lit c) .one :: (litsL w ++ rest)) prev (d :: t) = _
          rw [patMatchAt_one_cons]
          by_cases hd : (d == c) = true
          · have hcc : ccMatches false (.lit c) d = true := by simpa [ccMatches] using hd
            rw [if_pos hcc, ih (some d) t]
            have hdc : d = c := beq_iff_eq.mp hd
            subst hdc
            show (if litPref w t then
                    (patMatchAt false rest (lastPrev w (some d)) (t.drop w.length)).map (· + w.length)
                  else none).map (· + 1) =
                 if litPref (d :: w) (d :: t) then
                    (patMatchAt false rest (lastPrev (d :: w) prev) ((d :: t).drop (d :: w).length)).map
                      (· + (d :: w).length)
                 else none
            have hpref : litPref (d :: w) (d :: t) = litPref w t := by
              simp [litPref]
            rw [hpref]
            by_cases hp : litPref w t = true
            · rw [if_pos hp, if_pos hp]
              show _ = (patMatchAt false rest (lastPrev w (some d)) (t.drop w.length)).map
                (· + (w.length + 1))
              cases patMatchAt false rest (lastPrev w (some d)) (t.drop w.length) with
              | none => rfl
              | some x =>
                  show some (x + w.length + 1) = some (x + (w.length + 1))
                  rw [Nat.add_assoc]
            · rw [if_neg hp, if_neg hp]
              rfl
          · have hcc : ccMatches false (.lit c) d = false := by
              simpa [ccMatches] using hd
            rw [if_neg (by simp [hcc])]
            have : litPref (c :: w) (d :: t) = false := by
              simp only [litPref, Bool.and_eq_true, Bool.and_eq_false_iff]
              simp [hd]
            rw [this]
            rfl

theorem patMatchAt_star_fwd (cc : CharCls) (rest : Pat) :
    ∀ (s : List Char) (prev : Option Char) (n : Nat),
      patMatchAt false (.cls cc .star :: rest) prev s = some n →
      ∃ k, k ≤ n ∧ (∀ c ∈ s.take k, ccMatches false cc c = true) ∧ k ≤ s.length ∧
        patMatchAt false rest (lastPrev (s.take k) prev) (s.drop k) = some (n - k) := by
  intro s
  induction s with
  | nil =>
      intro prev n h
      rw [patMatchAt_star_nil] at h
      exact ⟨0, by omega, by simp, by simp, by simpa using h⟩
  | cons d t ih =>
      intro prev n h
      rw [patMatchAt_star_cons] at h
      by_cases hd : ccMatches false cc d = true
      · rw [if_pos hd] at h
        cases hin : patMatchAt false (.cls cc .star :: rest) (some d) t with
        | some m =>
            rw [hin] at h
            have hnm : n = m + 1 := by
              have := h
              simp at this
              omega
            obtain ⟨k, hk1, hk2, hk3, hk4⟩ := ih (some d) m hin
            refine ⟨k + 1, by omega, ?_, by simp; omega, ?_⟩
            · intro x hx
              simp only [List.take_succ_cons, List.mem_cons] at hx
              rcases hx with hx | hx
              · exact hx ▸ hd
              · exact hk2 x hx
            · show patMatchAt false rest (lastPrev (d :: t.take k) prev) (t.drop k) =
                some (n - (k + 1))
              show patMatchAt false rest (lastPrev (t.take k) (some d)) (t.drop k) =
                some (n - (k + 1))
              rw [hk4]
              congr 1
              omega
        | none =>
            rw [hin] at h
            exact ⟨0, by omega, by simp, by simp, by simpa using h⟩
      · rw [if_neg hd] at h
        exact ⟨0, by omega, by simp, by simp, by simpa using h⟩

theorem patMatchAt_star_bwd (cc : CharCls) (rest : Pat) :
    ∀ (s : List Char) (prev : Option Char) (k m : Nat),
      (∀ c ∈ s.take k, ccMatches false cc c = true) → k ≤ s.length →
      patMatchAt false rest (lastPrev (s.take k) prev) (s.drop k) = some m →
      ∃ n, patMatchAt false (.cls cc .star :: rest) prev s = some n := by
  intro s
  induction s with
  | nil =>
      intro prev k m hchars hk h
      simp only [List.length_nil, Nat.le_zero] at hk
      subst hk
      rw [patMatchAt_star_nil]
      exact ⟨m, by simpa using h⟩
  | cons d t ih =>
      intro prev k m hchars hk h
      rw [patMatchAt_star_cons]
      cases k with
      | zero =>
          simp only [List.take_zero, lastPrev, List.drop_zero] at h
          by_cases hd : ccMatches false cc d = true
          · rw [if_pos hd]
            cases hin : patMatchAt false (.cls cc .star :: rest) (some d) t with
            | some m' => exact ⟨m' + 1, rfl⟩
            | none => exact ⟨m, h⟩
          · rw [if_neg hd]
            exact ⟨m, h⟩
      | succ k =>
          have hd : ccMatches false cc d = true :=
            hchars d (by simp [List.take_succ_cons])
          rw [if_pos hd]
          have hchars' : ∀ c ∈ t.take k, ccMatches false cc c = true := by
            intro c hct
            exact hchars c (by simp [List.take_succ_cons, hct])
          have hk' : k ≤ t.length := by simpa using hk
          have h' : patMatchAt false rest (lastPrev (t.take k) (some d)) (t.drop k) = some m := by
            simpa [List.take_succ_cons, lastPrev, List.drop_succ_cons] using h
          obtain ⟨n', hn'⟩ := ih (some d) k m hchars' hk' h'
          rw [hn']
          exact ⟨n' + 1, rfl⟩

theorem patMatchAt_plus_fwd (cc : CharCls) (rest : Pat) (s : List Char)
    (prev : Option Char) (n : Nat)
    (h : patMatchAt false (.cls cc .plus :: rest) prev s = some n) :
    ∃ k, 1 ≤ k ∧ k ≤ n ∧ (∀ c ∈ s.take k, ccMatches false cc c = true) ∧ k ≤ s.length ∧
      patMatchAt false rest (lastPrev (s.take k) prev) (s.drop k) = some (n - k) := by
  cases s with
  | nil => rw [patMatchAt_plus_nil] at h; cases h
  | cons d t =>
      rw [patMatchAt_plus_cons] at h
      by_cases hd : ccMatches false cc d = true
      · rw [if_pos hd] at h
        cases hin : patMatchAt false (.cls cc .star :: rest) (some d) t with
        | none => rw [hin] at h; cases h
        | some m =>
            rw [hin] at h
            have hnm : n = m + 1 := by simp at h; omega
            obtain ⟨k, hk1, hk2, hk3, hk4⟩ := patMatchAt_star_fwd cc rest t (some d) m hin
            refine ⟨k + 1, by omega, by omega, ?_, by simp; omega, ?_⟩
            · intro x hx
              simp only [List.take_succ_cons, List.mem_cons] at hx
              rcases hx with hx | hx
              · exact hx ▸ hd
              · exact hk2 x hx
            · show patMatchAt false rest (lastPrev (t.take k) (some d)) (t.drop k) =
                some (n - (k + 1))
              rw [hk4]
              congr 1
              omega
      · rw [if_neg hd] at h; cases h

theorem patMatchAt_plus_bwd (cc : CharCls) (rest : Pat) (s : List Char)
    (prev : Option Char) (k m : Nat) (hk1 : 1 ≤ k)
    (hchars : ∀ c ∈ s.take k, ccMatches false cc c = true) (hk : k ≤ s.length)
    (h : patMatchAt false rest (lastPrev (s.take k) prev) (s.drop k) = some m) :
    ∃ n, patMatchAt false (.cls cc .plus :: rest) prev s = some n := by
  cases s with
  | nil => simp at hk; omega
  | cons d t =>
      obtain ⟨k', rfl⟩ : ∃ k', k = k' + 1 := ⟨k - 1, by omega⟩
      have hd : ccMatches false cc d = true := hchars d (by simp [List.take_succ_cons])
      rw [patMatchAt_plus_cons, if_pos hd]
      have hchars' : ∀ c ∈ t.take k', ccMatches false cc c = true := by
        intro c hct
        exact hchars c (by simp [List.take_succ_cons, hct])
      obtain ⟨n', hn'⟩ := patMatchAt_star_bwd cc rest t (some d) k' m hchars'
        (by simpa using hk)
        (by simpa [List.take_succ_cons, lastPrev, List.drop_succ_cons] using h)
      rw [hn']
      exact ⟨n' + 1, rfl⟩

theorem litPref_append (w₁ w₂ : List Char) :
    ∀ s, litPref (w₁ ++ w₂) s = (litPref w₁ s && litPref w₂ (s.drop w₁.length)) := by
  induction w₁ with
  | nil => intro s; simp [litPref]
  | cons c w ih =>
      intro s
      cases s with
      | nil => simp [litPref]
      | cons d t =>
          show ((d == c) && litPref (w ++ w₂) t) = _
          rw [ih t]
          show _ = ((d == c) && litPref w t && litPref w₂ (t.drop w.length))
          rw [Bool.and_assoc]

theorem litPref_length : ∀ {w s : List Char}, litPref w s = true → w.length ≤ s.length := by
  intro w
  induction w with
  | nil => intro s _; simp
  | cons c w ih =>
      intro s h
      cases s with
      | nil => simp [litPref] at h
      | cons d t =>
          have h' : litPref w t = true := by
            simp only [litPref, Bool.and_eq_true] at h
            exact h.2
          simpa using ih h'

theorem patMatchAt_plus_end (cc : CharCls) (prev : Option Char) (s : List Char) :
    (∃ n, patMatchAt false [.cls cc .plus] prev s = some n) ↔
      (match s with
       | [] => False
       | c :: _ => ccMatches false cc c = true) := by
  constructor
  · rintro ⟨n, hn⟩
    obtain ⟨k, hk1, -, hk2, hk3, -⟩ := patMatchAt_plus_fwd cc [] s prev n hn
    cases s with
    | nil => simp at hk3; omega
    | cons c t =>
        show ccMatches false cc c = true
        refine hk2 c ?_
        obtain ⟨k', rfl⟩ : ∃ k', k = k' + 1 := ⟨k - 1, by omega⟩
        simp [List.take_succ_cons]
  · intro h
    cases s with
    | nil => exact h.elim
    | cons c t =>
        refine patMatchAt_plus_bwd cc [] (c :: t) prev 1 0 (by omega) ?_ (by simp)
          (by rw [patMatchAt_nil])
        intro x hx
        simp only [List.take_succ_cons, List.take_zero, List.mem_singleton] at hx
        exact hx ▸ h

theorem exists_map_some (o : Option Nat) (f : Nat → Nat) :
    (∃ n, o.map f = some n) ↔ ∃ m, o = some m := by
  cases o <;> simp

theorem litsPlusMatch (w : List Char) (prev : Option Char) (u : List Char) :
    (∃ n, patMatchAt false (litsL w ++ [.cls .nonspace .plus]) prev u = some n) ↔
      (litPref w u && headNonSpace (u.drop w.length)) = true := by
  rw [patMatchAt_lits]
  by_cases hw : litPref w u = true
  · rw [if_pos hw, hw, Bool.true_and, exists_map_some]
    constructor
    · rintro ⟨x, hx⟩
      have h := (patMatchAt_plus_end .nonspace _ _).mp ⟨x, hx⟩
      cases hu : u.drop w.length with
      | nil => rw [hu] at h; exact h.elim
      | cons c r =>
          rw [hu] at h
          simpa [headNonSpace, ccMatches] using h
    · intro h
      rw [patMatchAt_plus_end]
      cases hu : u.drop w.length with
      | nil => rw [hu] at h; simp [headNonSpace] at h
      | cons c r =>
          rw [hu] at h
          simpa [ccMatches, headNonSpace] using h
  · rw [if_neg hw]
    have hwf : litPref w u = false := by
      cases hq : litPref w u
      · rfl
      · exact absurd hq hw
    rw [hwf]
    simp

theorem tailOptMatch (prev : Option Char) (u : List Char) :
    (∃ n, patMatchAt false
        (.cls (.lit 's') .opt :: (litsL "://".data ++ [.cls .nonspace .plus]))
        prev u = some n) ↔
      ((litPref "://".data u && headNonSpace (u.drop 3)) ||
       (litPref "s://".data u && headNonSpace (u.drop 4))) = true := by
  cases u with
  | nil =>
      rw [patMatchAt_opt_nil, litsPlusMatch]
      rw [show (litPref "://".data ([] : List Char)) = false from rfl,
          show (litPref "s://".data ([] : List Char)) = false from rfl]
      simp
  | cons d t =>
      rw [patMatchAt_opt_cons]
      by_cases hcc : ccMatches false (.lit 's') d = true
      · have hd : d = 's' := by
          have : (d == 's') = true := hcc
          exact beq_iff_eq.mp this
        subst hd
        rw [if_pos hcc]
        have h1 : litPref "://".data ('s' :: t) = false := by
          show ((('s' : Char) == ':') && litPref "//".data t) = false
          rw [show (('s' : Char) == ':') = false from rfl]
          rfl
        have h2 : litPref "s://".data ('s' :: t) = litPref "://".data t := by
          show ((('s' : Char) == 's') && litPref "://".data t) = _
          rw [show (('s' : Char) == 's') = true from rfl, Bool.true_and]
        have hfall : patMatchAt false (litsL "://".data ++ [.cls .nonspace .plus])
            prev ('s' :: t) = none := by
          rw [patMatchAt_lits, h1]
          simp
        rw [h1, h2, hfall]
        simp only [Bool.false_and, Bool.false_or]
        rw [show (('s' :: t).drop 4) = t.drop 3 from rfl]
        constructor
        · rintro ⟨n, hn⟩
          cases hin : patMatchAt false (litsL "://".data ++ [.cls .nonspace .plus])
              (some 's') t with
          | none => rw [hin] at hn; cases hn
          | some m =>
              have h := (litsPlusMatch "://".data (some 's') t).mp ⟨m, hin⟩
              rw [show ("://".data.length) = 3 from rfl] at h
              exact h
        · intro h
          obtain ⟨m, hm⟩ := (litsPlusMatch "://".data (some 's') t).mpr (by
            rw [show ("://".data.length) = 3 from rfl]
            exact h)
          rw [hm]
          exact ⟨m + 1, rfl⟩
      · rw [if_neg hcc]
        have hdn : (d == 's') = false := by
          cases hq : (d == 's')
          · rfl
          · exact absurd (hq : ccMatches false (.lit 's') d = true) hcc
        have h2 : litPref "s://".data (d :: t) = false := by
          show ((d == 's') && litPref "://".data t) = false
          rw [hdn]
          rfl
        rw [h2]
        simp only [Bool.false_and, Bool.or_false]
        rw [litsPlusMatch "://".data prev (d :: t),
            show ("://".data.length) = 3 from rfl]

theorem urlPat1_match_iff (prev : Option Char) (s : List Char) :
    (∃ n, patMatchAt false urlPat1 prev s = some n) ↔
      ((litPref "http://".data s && headNonSpace (s.drop 7)) ||
       (litPref "https://".data s && headNonSpace (s.drop 8))) = true := by
  have hsplit : urlPat1 = litsL "http".data ++
      (.cls (.lit 's') .opt :: (litsL "://".data ++ [.cls .nonspace .plus])) := rfl
  rw [hsplit, patMatchAt_lits, show ("http".data.length) = 4 from rfl]
  have h7 : litPref "http://".data s =
      (litPref "http".data s && litPref "://".data (s.drop 4)) := by
    rw [show ("http://".data) = "http".data ++ "://".data from rfl, litPref_append,
        show ("http".data.length) = 4 from rfl]
  have h8 : litPref "https://".data s =
      (litPref "http".data s && litPref "s://".data (s.drop 4)) := by
    rw [show ("https://".data) = "http".data ++ "s://".data from rfl, litPref_append,
        show ("http".data.length) = 4 from rfl]
  by_cases h4 : litPref "http".data s = true
  · rw [if_pos h4, exists_map_some]
    have hd7 : s.drop 7 = (s.drop 4).drop 3 := by simp [List.drop_drop]
    have hd8 : s.drop 8 = (s.drop 4).drop 4 := by simp [List.drop_drop]
    rw [h7, h8, h4, Bool.true_and, Bool.true_and, hd7, hd8]
    exact tailOptMatch (lastPrev "http".data prev) (s.drop 4)
  · rw [if_neg h4]
    have h4f : litPref "http".data s = false := by
      cases hq : litPref "http".data s
      · rfl
      · exact absurd hq h4
    rw [h7, h8, h4f]
    simp

theorem urlPat2_match_iff (prev : Option Char) (s : List Char) :
    (∃ n, patMatchAt false urlPat2 prev s = some n) ↔
      (litPref "www.".data s && headNonSpace (s.drop 4)) = true := by
  have hsplit : urlPat2 = litsL "www.".data ++ [.cls .nonspace .plus] := rfl
  rw [hsplit, litsPlusMatch, show ("www.".data.length) = 4 from rfl]

theorem urlMatch_iff_trig (prev : Option Char) (s : List Char) :
    (∃ n, urlMatchAt prev s = some n) ↔ urlTrig s = true := by
  have hor : (∃ n, urlMatchAt prev s = some n) ↔
      ((∃ n, patMatchAt false urlPat1 prev s = some n) ∨
       (∃ n, patMatchAt false urlPat2 prev s = some n)) := by
    show (∃ n, (patMatchAt false urlPat1 prev s).orElse
        (fun _ => patMatchAt false urlPat2 prev s) = some n) ↔ _
    cases patMatchAt false urlPat1 prev s <;>
      cases patMatchAt false urlPat2 prev s <;>
        simp [Option.orElse]
  rw [hor, urlPat1_match_iff, urlPat2_match_iff]
  show _ ↔ (_ || _ || _) = true
  simp only [Bool.or_eq_true]

theorem matchEnd_bnd_step (ci : Bool) (f : Nat) (rest : Pat) (prev : Option Char)
    (s : List Char) :
    matchEnd ci (f + 1) (.bnd :: rest) prev s =
      if (prevWord prev != headWord s) = true then matchEnd ci f rest prev s else none := by
  cases prev <;> cases s <;> rfl

theorem matchEnd_le_length (ci : Bool) :
    ∀ (f : Nat) (p : Pat) (prev : Option Char) (s : List Char) (n : Nat),
      matchEnd ci f p prev s = some n → n ≤ s.length := by
  intro f
  induction f with
  | zero => intro p prev s n h; cases h
  | succ f ih =>
      intro p prev s n h
      cases p with
      | nil =>
          have h' : (some 0 : Option Nat) = some n := h
          cases h'
          omega
      | cons it rest =>
          cases it with
          | bnd =>
              rw [matchEnd_bnd_step] at h
              have h' := h
              by_cases hb : (prevWord prev != headWord s) = true
              · rw [if_pos hb] at h'
                exact ih rest prev s n h'
              · rw [if_neg hb] at h'
                cases h'
          | cls cc q =>
              cases q with
              | one =>
                  cases s with
                  | nil => cases h
                  | cons c t =>
                      have h' : (if ccMatches ci cc c then
                          (matchEnd ci f rest (some c) t).map (· + 1) else none) = some n := h
                      by_cases hc : ccMatches ci cc c = true
                      · rw [if_pos hc] at h'
                        cases hin : matchEnd ci f rest (some c) t with
                        | none => rw [hin] at h'; cases h'
                        | some m =>
                            rw [hin] at h'
                            have := ih rest (some c) t m hin
                            have hmn : m + 1 = n := by simpa using h'
                            simp
                            omega
                      · rw [if_neg hc] at h'
                        cases h'
              | opt =>
                  cases s with
                  | nil =>
                      have h' : matchEnd ci f rest prev [] = some n := h
                      exact ih rest prev [] n h'
                  | cons c t =>
                      have h' : (if ccMatches ci cc c then
                          match matchEnd ci f rest (some c) t with
                          | some x => some (x + 1)
                          | none => matchEnd ci f rest prev (c :: t)
                          else matchEnd ci f rest prev (c :: t)) = some n := h
                      by_cases hc : ccMatches ci cc c = true
                      · rw [if_pos hc] at h'
                        cases hin : matchEnd ci f rest (some c) t with
                        | none =>
                            rw [hin] at h'
                            exact ih rest prev (c :: t) n h'
                        | some m =>
                            rw [hin] at h'
                            have := ih rest (some c) t m hin
                            have hmn : m + 1 = n := by simpa using h'
                            simp
                            omega
                      · rw [if_neg hc] at h'
                        exact ih rest prev (c :: t) n h'
              | plus =>
                  cases s with
                  | nil => cases h
                  | cons c t =>
                      have h' : (if ccMatches ci cc c then
                          (matchEnd ci f (.cls cc .star :: rest) (some c) t).map (· + 1)
                          else none) = some n := h
                      by_cases hc : ccMatches ci cc c = true
                      · rw [if_pos hc] at h'
                        cases hin : matchEnd ci f (.cls cc .star :: rest) (some c) t with
                        | none => rw [hin] at h'; cases h'
                        | some m =>
                            rw [hin] at h'
                            have := ih (.cls cc .star :: rest) (some c) t m hin
                            have hmn : m + 1 = n := by simpa using h'
                            simp
                            omega
                      · rw [if_neg hc] at h'
                        cases h'
              | star =>
                  cases s with
                  | nil =>
                      have h' : matchEnd ci f rest prev [] = some n := h
                      exact ih rest prev [] n h'
                  | cons c t =>
                      have h' : (if ccMatches ci cc c then
                          match matchEnd ci f (.cls cc .star :: rest) (some c) t with
                          | some x => some (x + 1)
                          | none => matchEnd ci f rest prev (c :: t)
                          else matchEnd ci f rest prev (c :: t)) = some n := h
                      by_cases hc : ccMatches ci cc c = true
                      · rw [if_pos hc] at h'
                        cases hin : matchEnd ci f (.cls cc .star :: rest) (some c) t with
                        | none =>
                            rw [hin] at h'
                            exact ih rest prev (c :: t) n h'
                        | some m =>
                            rw [hin] at h'
                            have := ih (.cls cc .star :: rest) (some c) t m hin
                            have hmn : m + 1 = n := by simpa using h'
                            simp
                            omega
                      · rw [if_neg hc] at h'
                        exact ih rest prev (c :: t) n h'

theorem patMatchAt_le_length (ci : Bool) (p : Pat) (prev : Option Char)
    (s : List Char) (n : Nat) (h : patMatchAt ci p prev s = some n) : n ≤ s.length :=
  matchEnd_le_length ci _ p prev s n h

theorem subAux_fuel_congr (m : Matcher) (R : List Char)
    (hm1 : ∀ prev u, m prev u ≠ some 0)
    (hlen : ∀ prev u n, m prev u = some n → n ≤ u.length) :
    ∀ f1 f2 prev s, s.length < f1 → s.length < f2 →
      subAux m R f1 prev s = subAux m R f2 prev s := by
  intro f1
  induction f1 with
  | zero => intro f2 prev s h1 h2; omega
  | succ f1 ih =>
      intro f2 prev s h1 h2
      cases f2 with
      | zero => omega
      | succ f2 =>
          cases hm : m prev s with
          | some n =>
              cases n with
              | zero => exact absurd hm (hm1 prev s)
              | succ n =>
                  have hn := hlen prev s (n + 1) hm
                  simp only [subAux, hm]
                  congr 1
                  apply ih
                  · simp only [List.length_drop]
                    omega
                  · simp only [List.length_drop]
                    omega
          | none =>
              cases s with
              | nil => simp [subAux, hm]
              | cons c t =>
                  simp only [subAux, hm]
                  congr 1
                  apply ih
                  · simp at h1
                    omega
                  · simp at h2
                    omega

theorem subFrom_none_nil (m : Matcher) (R : List Char) (prev : Option Char)
    (h : m prev [] = none) : subFrom m R prev [] = [] := by
  simp [subFrom, subAux, h]

theorem subFrom_none_cons (m : Matcher) (R : List Char)
    (hm1 : ∀ prev u, m prev u ≠ some 0)
    (hlen : ∀ prev u n, m prev u = some n → n ≤ u.length)
    (prev : Option Char) (c : Char) (t : List Char) (h : m prev (c :: t) = none) :
    subFrom m R prev (c :: t) = c :: subFrom m R (some c) t := by
  show subAux m R (t.length + 1 + 1) prev (c :: t) = _
  simp only [subAux, h]
  rfl

theorem subFrom_match (m : Matcher) (R : List Char)
    (hm1 : ∀ prev u, m prev u ≠ some 0)
    (hlen : ∀ prev u n, m prev u = some n → n ≤ u.length)
    (prev : Option Char) (s : List Char) (n : Nat) (h : m prev s = some (n + 1)) :
    subFrom m R prev s =
      R ++ subFrom m R ((s.take (n + 1)).getLast?) (s.drop (n + 1)) := by
  have hn := hlen prev s (n + 1) h
  show subAux m R (s.length + 1) prev s = _
  have hd : (s.length + 1) = (s.length) + 1 := rfl
  simp only [subAux, h]
  congr 1
  apply subAux_fuel_congr m R hm1 hlen
  · simp only [List.length_drop]
    omega
  · simp only [List.length_drop]
    omega

theorem ctxAt_cons (prev : Option Char) (c : Char) (t : List Char) (j : Nat)
    (hj : j ≤ t.length) : ctxAt prev (c :: t) (j + 1) = ctxAt (some c) t j := by
  unfold ctxAt
  rw [if_neg (by omega)]
  cases j with
  | zero => simp
  | succ j' =>
      rw [if_neg (by omega)]
      show ((c :: t).take (j' + 1 + 1)).getLast? = (t.take (j' + 1)).getLast?
      rw [List.take_succ_cons]
      have hne : t.take (j' + 1) ≠ [] := by
        have h1 : (t.take (j' + 1)).length = j' + 1 := by
          simp [List.length_take]
          omega
        intro hq
        rw [hq] at h1
        simp at h1
      obtain ⟨x, xs, hx⟩ := List.exists_cons_of_ne_nil hne
      rw [hx]
      exact List.getLast?_cons_cons

theorem subFrom_shape (m : Matcher) (R : List Char)
    (hm1 : ∀ prev u, m prev u ≠ some 0)
    (hlen : ∀ prev u n, m prev u = some n → n ≤ u.length) :
    ∀ (N : Nat) (s : List Char), s.length ≤ N → ∀ (prev : Option Char),
      (subFrom m R prev s = s ∧ noMatchFrom m prev s) ∨
      ∃ k n, k + (n + 1) ≤ s.length ∧
        (subFrom m R prev s).take k = s.take k ∧
        (subFrom m R prev s).drop k =
          R ++ subFrom m R (ctxAt prev s (k + n + 1)) (s.drop (k + n + 1)) ∧
        (∀ j, j < k → m (ctxAt prev s j) (s.drop j) = none) ∧
        m (ctxAt prev s k) (s.drop k) = some (n + 1) := by
  intro N
  induction N with
  | zero =>
      intro s hs prev
      have hnil : s = [] := List.eq_nil_of_length_eq_zero (by omega)
      subst hnil
      cases hm : m prev [] with
      | none => exact Or.inl ⟨subFrom_none_nil m R prev hm, hm⟩
      | some n =>
          cases n with
          | zero => exact absurd hm (hm1 _ _)
          | succ n =>
              have := hlen _ _ _ hm
              simp at this
  | succ N ih =>
      intro s hs prev
      cases hm : m prev s with
      | some n =>
          cases n with
          | zero => exact absurd hm (hm1 _ _)
          | succ n =>
              refine Or.inr ⟨0, n, ?_, by simp, ?_, ?_, ?_⟩
              · simpa using hlen _ _ _ hm
              · simp only [List.drop_zero, Nat.zero_add]
                rw [subFrom_match m R hm1 hlen prev s n hm]
                have hctx : ctxAt prev s (n + 1) = (s.take (n + 1)).getLast? := by
                  unfold ctxAt
                  rw [if_neg (by omega)]
                rw [hctx]
              · intro j hj
                exact absurd hj (Nat.not_lt_zero j)
              · simpa [ctxAt] using hm
      | none =>
          cases s with
          | nil => exact Or.inl ⟨subFrom_none_nil m R prev hm, hm⟩
          | cons c t =>
              have ht : t.length ≤ N := by
                simp at hs
                omega
              rcases ih t ht (some c) with ⟨heq, hns⟩ | ⟨k, n, hkn, htake, hdrop, hnones, hmk⟩
              · refine Or.inl ⟨?_, hm, hns⟩
                rw [subFrom_none_cons m R hm1 hlen prev c t hm, heq]
              · refine Or.inr ⟨k + 1, n, ?_, ?_, ?_, ?_, ?_⟩
                · simp
                  omega
                · rw [subFrom_none_cons m R hm1 hlen prev c t hm,
                      List.take_succ_cons, List.take_succ_cons, htake]
                · rw [subFrom_none_cons m R hm1 hlen prev c t hm]
                  have e : k + 1 + n + 1 = (k + n + 1) + 1 := by omega
                  rw [e]
                  show (subFrom m R (some c) t).drop k = _
                  rw [hdrop, ctxAt_cons prev c t (k + n + 1) (by omega)]
                  rfl
                · intro j hj
                  cases j with
                  | zero =>
                      simpa [ctxAt] using hm
                  | succ j' =>
                      have hj' : j' < k := by omega
                      have hn' := hnones j' hj'
                      rw [ctxAt_cons prev c t j' (by omega)]
                      exact hn'
                · rw [ctxAt_cons prev c t k (by omega)]
                  exact hmk

theorem lastPrev_getLast? (w : List Char) (prev : Option Char) (h : w ≠ []) :
    lastPrev w prev = w.getLast? := by
  induction w generalizing prev with
  | nil => exact absurd rfl h
  | cons c w ih =>
      cases w with
      | nil => rfl
      | cons d t =>
          show lastPrev (d :: t) (some c) = _
          rw [ih (some c) (by simp), List.getLast?_cons_cons]

theorem prevWord_lastPrev (w : List Char) (p : Option Char) (h : w ≠ []) :
    prevWord (lastPrev w p) = isWordChar (w.getLastD ' ') := by
  rw [lastPrev_getLast? w p h, List.getLast?_eq_getLast w h]
  show isWordChar (w.getLast h) = _
  rw [List.getLastD_eq_getLast? , List.getLast?_eq_getLast w h]
  rfl

theorem getLastD_ne_nil {w : List Char} (h : w ≠ []) (a b : Char) :
    w.getLastD a = w.getLastD b := by
  rw [List.getLastD_eq_getLast?, List.getLastD_eq_getLast?,
      List.getLast?_eq_getLast w h]
  rfl

theorem exE1 (p : Option Char) (x : List Char) :
    (∃ n, patMatchAt false [.bnd] p x = some n) ↔
      (prevWord p != headWord x) = true := by
  rw [patMatchAt_bnd]
  by_cases hb : (prevWord p != headWord x) = true
  · rw [if_pos hb, patMatchAt_nil]
    simp [hb]
  · rw [if_neg hb]
    simp [hb]

theorem exOne (cc : CharCls) (rest : Pat) (p : Option Char) (x : List Char) :
    (∃ n, patMatchAt false (.cls cc .one :: rest) p x = some n) ↔
      ∃ c y, x = c :: y ∧ ccMatches false cc c = true ∧
        (∃ m, patMatchAt false rest (some c) y = some m) := by
  cases x with
  | nil =>
      rw [patMatchAt_one_nil]
      simp
  | cons c t =>
      rw [patMatchAt_one_cons]
      by_cases hc : ccMatches false cc c = true
      · rw [if_pos hc, exists_map_some]
        constructor
        · rintro ⟨m, hm⟩
          exact ⟨c, t, rfl, hc, m, hm⟩
        · rintro ⟨c2, y, heq, hc2, m, hm⟩
          obtain ⟨rfl, rfl⟩ : c2 = c ∧ y = t := by
            simpa [eq_comm] using heq
          exact ⟨m, hm⟩
      · rw [if_neg hc]
        constructor
        · rintro ⟨n, hn⟩
          cases hn
        · rintro ⟨c2, y, heq, hc2, -⟩
          obtain ⟨rfl, rfl⟩ : c2 = c ∧ y = t := by
            simpa [eq_comm] using heq
          exact absurd hc2 hc

theorem exPlus (cc : CharCls) (rest : Pat) (p : Option Char) (x : List Char) :
    (∃ n, patMatchAt false (.cls cc .plus :: rest) p x = some n) ↔
      ∃ k, 1 ≤ k ∧ k ≤ x.length ∧ (∀ c ∈ x.take k, ccMatches false cc c = true) ∧
        (∃ m, patMatchAt false rest (lastPrev (x.take k) p) (x.drop k) = some m) := by
  constructor
  · rintro ⟨n, hn⟩
    obtain ⟨k, hk1, hk2, hchars, hkle, hrest⟩ := patMatchAt_plus_fwd cc rest x p n hn
    exact ⟨k, hk1, hkle, hchars, n - k, hrest⟩
  · rintro ⟨k, hk1, hk2, hchars, m, hm⟩
    exact patMatchAt_plus_bwd cc rest x p k m hk1 hchars hk2 hm

theorem exE2 (p : Option Char) (x : List Char) :
    (∃ n, patMatchAt false [.cls emailTldCls .plus, .bnd] p x = some n) ↔
      ∃ T r, x = T ++ r ∧ 1 ≤ T.length ∧ (∀ c ∈ T, isTld c = true) ∧
        (isWordChar (T.getLastD ' ') != headWord r) = true := by
  rw [show ([.cls emailTldCls .plus, .bnd] : Pat) =
      .cls emailTldCls .plus :: [.bnd] from rfl, exPlus]
  constructor
  · rintro ⟨k, hk1, hk2, hchars, hrest⟩
    refine ⟨x.take k, x.drop k, (List.take_append_drop k x).symm, ?_, hchars, ?_⟩
    · simp [List.length_take]
      omega
    · have hb := (exE1 _ _).mp hrest
      have hne : x.take k ≠ [] := by
        intro hq
        have := congrArg List.length hq
        rw [List.length_take, List.length_nil] at this
        omega
      rw [prevWord_lastPrev _ _ hne] at hb
      exact hb
  · rintro ⟨T, r, rfl, hT1, hchars, hbnd⟩
    have hne : T ≠ [] := by
      intro hq
      rw [hq] at hT1
      simp at hT1
    refine ⟨T.length, hT1, by simp, ?_, ?_⟩
    · rw [List.take_left]
      exact hchars
    · rw [List.take_left, List.drop_left, exE1, prevWord_lastPrev _ _ hne]
      exact hbnd

theorem exE3 (p : Option Char) (x : List Char) :
    (∃ n, patMatchAt false
        [.cls emailTldCls .one, .cls emailTldCls .plus, .bnd] p x = some n) ↔
      emTail x := by
  rw [show ([.cls emailTldCls .one, .cls emailTldCls .plus, .bnd] : Pat) =
      .cls emailTldCls .one :: [.cls emailTldCls .plus, .bnd] from rfl, exOne]
  constructor
  · rintro ⟨c, y, rfl, hc, hrest⟩
    obtain ⟨T, r, rfl, hT1, hchars, hbnd⟩ := (exE2 _ _).mp hrest
    have hne : T ≠ [] := by
      intro hq
      rw [hq] at hT1
      simp at hT1
    refine ⟨c :: T, r, rfl, by simp; omega, ?_, ?_⟩
    · intro d hd
      rcases List.mem_cons.mp hd with rfl | hd
      · exact hc
      · exact hchars d hd
    · rw [List.getLastD_cons, getLastD_ne_nil hne c ' ']
      exact hbnd
  · rintro ⟨T, r, rfl, hT2, hchars, hbnd⟩
    cases T with
    | nil => simp at hT2
    | cons c T' =>
        have hne : T' ≠ [] := by
          intro hq
          rw [hq] at hT2
          simp at hT2
        refine ⟨c, T' ++ r, by simp, hchars c (by simp), ?_⟩
        rw [exE2]
        refine ⟨T', r, rfl, ?_, fun d hd => hchars d (by simp [hd]), ?_⟩
        · cases T' with
          | nil => exact absurd rfl hne
          | cons _ _ => simp
        · rw [List.getLastD_cons, getLastD_ne_nil hne c ' '] at hbnd
          exact hbnd

theorem exE5 (p : Option Char) (x : List Char) :
    (∃ n, patMatchAt false
        [.cls emailDomainCls .plus, .cls (.lit '.') .one,
         .cls emailTldCls .one, .cls emailTldCls .plus, .bnd] p x = some n) ↔
      emDom x := by
  rw [show ([.cls emailDomainCls .plus, .cls (.lit '.') .one, .cls emailTldCls .one,
        .cls emailTldCls .plus, .bnd] : Pat) =
      .cls emailDomainCls .plus :: [.cls (.lit '.') .one, .cls emailTldCls .one,
        .cls emailTldCls .plus, .bnd] from rfl, exPlus]
  constructor
  · rintro ⟨k, hk1, hk2, hchars, hrest⟩
    rw [show ([.cls (.lit '.') .one, .cls emailTldCls .one, .cls emailTldCls .plus,
        .bnd] : Pat) = .cls (.lit '.') .one :: [.cls emailTldCls .one,
        .cls emailTldCls .plus, .bnd] from rfl, exOne] at hrest
    obtain ⟨c, y, hdrop, hc, hrest2⟩ := hrest
    have hcdot : c = '.' := by
      have : (c == '.') = true := hc
      exact beq_iff_eq.mp this
    subst hcdot
    refine ⟨x.take k, y, ?_, ?_, hchars, (exE3 _ _).mp hrest2⟩
    · conv_lhs => rw [← List.take_append_drop k x]
      rw [hdrop]
    · intro hq
      have := congrArg List.length hq
      rw [List.length_take, List.length_nil] at this
      omega
  · rintro ⟨D, y, rfl, hne, hchars, htail⟩
    refine ⟨D.length, ?_, by simp, ?_, ?_⟩
    · cases D with
      | nil => exact absurd rfl hne
      | cons _ _ => simp
    · rw [List.take_left]
      exact hchars
    · rw [List.take_left, List.drop_left]
      rw [show ([.cls (.lit '.') .one, .cls emailTldCls .one, .cls emailTldCls .plus,
          .bnd] : Pat) = .cls (.lit '.') .one :: [.cls emailTldCls .one,
          .cls emailTldCls .plus, .bnd] from rfl, exOne]
      refine ⟨'.', y, rfl, by rfl, ?_⟩
      rw [exE3]
      exact htail

theorem exE7 (p : Option Char) (x : List Char) :
    (∃ n, patMatchAt false
        [.cls emailLocalCls .plus, .cls (.lit '@') .one, .cls emailDomainCls .plus,
         .cls (.lit '.') .one, .cls emailTldCls .one, .cls emailTldCls .plus, .bnd]
        p x = some n) ↔ emBody x := by
  rw [show ([.cls emailLocalCls .plus, .cls (.lit '@') .one, .cls emailDomainCls .plus,
        .cls (.lit '.') .one, .cls emailTldCls .one, .cls emailTldCls .plus,
        .bnd] : Pat) =
      .cls emailLocalCls .plus :: [.cls (.lit '@') .one, .cls emailDomainCls .plus,
        .cls (.lit '.') .one, .cls emailTldCls .one, .cls emailTldCls .plus,
        .bnd] from rfl, exPlus]
  constructor
  · rintro ⟨k, hk1, hk2, hchars, hrest⟩
    rw [show ([.cls (.lit '@') .one, .cls emailDomainCls .plus, .cls (.lit '.') .one,
        .cls emailTldCls .one, .cls emailTldCls .plus, .bnd] : Pat) =
        .cls (.lit '@') .one :: [.cls emailDomainCls .plus, .cls (.lit '.') .one,
        .cls emailTldCls .one, .cls emailTldCls .plus, .bnd] from rfl, exOne] at hrest
    obtain ⟨c, y, hdrop, hc, hrest2⟩ := hrest
    have hcat : c = '@' := by
      have : (c == '@') = true := hc
      exact beq_iff_eq.mp this
    subst hcat
    refine ⟨x.take k, y, ?_, ?_, hchars, (exE5 _ _).mp hrest2⟩
    · conv_lhs => rw [← List.take_append_drop k x]
      rw [hdrop]
    · intro hq
      have := congrArg List.length hq
      rw [List.length_take, List.length_nil] at this
      omega
  · rintro ⟨L, y, rfl, hne, hchars, hdom⟩
    refine ⟨L.length, ?_, by simp, ?_, ?_⟩
    · cases L with
      | nil => exact absurd rfl hne
      | cons _ _ => simp
    · rw [List.take_left]
      exact hchars
    · rw [List.take_left, List.drop_left]
      rw [show ([.cls (.lit '@') .one, .cls emailDomainCls .plus, .cls (.lit '.') .one,
          .cls emailTldCls .one, .cls emailTldCls .plus, .bnd] : Pat) =
          .cls (.lit '@') .one :: [.cls emailDomainCls .plus, .cls (.lit '.') .one,
          .cls emailTldCls .one, .cls emailTldCls .plus, .bnd] from rfl, exOne]
      refine ⟨'@', y, rfl, by rfl, ?_⟩
      rw [exE5]
      exact hdom

theorem emailMatch_iff (q : Option Char) (u : List Char) :
    (∃ n, emailMatchAt q u = some n) ↔
      ((prevWord q != headWord u) = true ∧ emBody u) := by
  show (∃ n, patMatchAt false emailPat q u = some n) ↔ _
  rw [show (emailPat : Pat) = .bnd ::
      [.cls emailLocalCls .plus, .cls (.lit '@') .one, .cls emailDomainCls .plus,
       .cls (.lit '.') .one, .cls emailTldCls .one, .cls emailTldCls .plus,
       .bnd] from rfl]
  rw [show ((PatItem.bnd :: [PatItem.cls emailLocalCls Quant.plus,
      PatItem.cls (CharCls.lit '@') Quant.one, PatItem.cls emailDomainCls Quant.plus,
      PatItem.cls (CharCls.lit '.') Quant.one, PatItem.cls emailTldCls Quant.one,
      PatItem.cls emailTldCls Quant.plus, PatItem.bnd]) : Pat) =
      [PatItem.bnd, PatItem.cls emailLocalCls Quant.plus,
      PatItem.cls (CharCls.lit '@') Quant.one, PatItem.cls emailDomainCls Quant.plus,
      PatItem.cls (CharCls.lit '.') Quant.one, PatItem.cls emailTldCls Quant.one,
      PatItem.cls emailTldCls Quant.plus, PatItem.bnd] from rfl] at *
  rw [show ([PatItem.bnd, PatItem.cls emailLocalCls Quant.plus,
      PatItem.cls (CharCls.lit '@') Quant.one, PatItem.cls emailDomainCls Quant.plus,
      PatItem.cls (CharCls.lit '.') Quant.one, PatItem.cls emailTldCls Quant.one,
      PatItem.cls emailTldCls Quant.plus, PatItem.bnd] : Pat) =
      PatItem.bnd :: [PatItem.cls emailLocalCls Quant.plus,
      PatItem.cls (CharCls.lit '@') Quant.one, PatItem.cls emailDomainCls Quant.plus,
      PatItem.cls (CharCls.lit '.') Quant.one, PatItem.cls emailTldCls Quant.one,
      PatItem.cls emailTldCls Quant.plus, PatItem.bnd] from rfl, patMatchAt_bnd]
  by_cases hb : (prevWord q != headWord u) = true
  · rw [if_pos hb]
    rw [exE7]
    simp [hb]
  · rw [if_neg hb]
    constructor
    · rintro ⟨n, hn⟩
      cases hn
    · rintro ⟨hb2, -⟩
      exact absurd hb2 hb

theorem elem_unfold (c d : Char) (l : List Char) :
    List.elem c (d :: l) = ((c == d) || List.elem c l) := by
  show (match c == d with | true => true | false => List.elem c l) = _
  cases c == d <;> rfl

theorem elem_nil_char (c : Char) : List.elem c [] = false := rfl

theorem domain_local (c : Char) (h : isDomain c = true) : isLocal c = true := by
  simp [isDomain, ccMatches, emailDomainCls, List.any, List.contains, elem_unfold, elem_nil_char] at h
  rcases h with ((h | h | h) | (h | h))
  · simp [isLocal, ccMatches, emailLocalCls, List.any, h]
  · simp [isLocal, ccMatches, emailLocalCls, List.any, h]
  · simp [isLocal, ccMatches, emailLocalCls, List.any, h]
  · subst h; decide
  · subst h; decide

theorem tld_cases (c : Char) (h : isTld c = true) :
    (isLocal c = true ∧ isWordChar c = true) ∨ c = '|' := by
  simp [isTld, ccMatches, emailTldCls, List.any, List.contains, elem_unfold, elem_nil_char] at h
  rcases h with ((h | h) | h)
  · refine Or.inl ⟨?_, ?_⟩
    · simp [isLocal, ccMatches, emailLocalCls, List.any, h]
    · simp [isWordChar, isLat, h]
  · refine Or.inl ⟨?_, ?_⟩
    · simp [isLocal, ccMatches, emailLocalCls, List.any, h]
    · simp [isWordChar, isLat, h]
  · exact Or.inr h

theorem nonspace_of_toNat {c : Char} (h1 : 33 ≤ c.toNat) : isSpaceC c = false := by
  cases hq : isSpaceC c
  · rfl
  · exfalso
    simp [isSpaceC] at hq
    rcases hq with ((((h | h) | h) | h) | h) | h <;> (subst h; revert h1; decide)

theorem local_nonspace (c : Char) (h : isLocal c = true) : isSpaceC c = false := by
  simp [isLocal, ccMatches, emailLocalCls, List.any, List.contains, elem_unfold, elem_nil_char] at h
  rcases h with ((h | h | h) | (h | h | h | h | h))
  · have hw : 65 ≤ c.toNat ∧ c.toNat ≤ 90 := by
      simpa [inRange, show ('A').toNat = 65 from rfl, show ('Z').toNat = 90 from rfl] using h
    exact nonspace_of_toNat (by omega)
  · have hw : 97 ≤ c.toNat ∧ c.toNat ≤ 122 := by
      simpa [inRange, show ('a').toNat = 97 from rfl, show ('z').toNat = 122 from rfl] using h
    exact nonspace_of_toNat (by omega)
  · have hw : 48 ≤ c.toNat ∧ c.toNat ≤ 57 := by
      simpa [inRange, show ('0').toNat = 48 from rfl, show ('9').toNat = 57 from rfl] using h
    exact nonspace_of_toNat (by omega)
  all_goals (subst h; decide)

theorem email_none_nil (q : Option Char) : emailMatchAt q [] = none := by
  cases hq : emailMatchAt q [] with
  | none => rfl
  | some n =>
      obtain ⟨-, L, y, heq, hLne, -⟩ := (emailMatch_iff q []).mp ⟨n, hq⟩
      have := congrArg List.length heq
      simp at this
      cases L with
      | nil => exact absurd rfl hLne
      | cons _ _ => simp at this; omega

theorem email_hm1 (prev : Option Char) (u : List Char) : emailMatchAt prev u ≠ some 0 := by
  intro h
  have h0 : patMatchAt false (.bnd :: [.cls emailLocalCls .plus, .cls (.lit '@') .one,
      .cls emailDomainCls .plus, .cls (.lit '.') .one, .cls emailTldCls .one,
      .cls emailTldCls .plus, .bnd]) prev u = some 0 := h
  rw [patMatchAt_bnd] at h0
  by_cases hb : (prevWord prev != headWord u) = true
  · rw [if_pos hb] at h0
    obtain ⟨k, hk1, hk2, -, -, -⟩ := patMatchAt_plus_fwd _ _ _ _ _ h0
    omega
  · rw [if_neg hb] at h0
    cases h0

theorem email_hlen (prev : Option Char) (u : List Char) (n : Nat)
    (h : emailMatchAt prev u = some n) : n ≤ u.length :=
  patMatchAt_le_length false emailPat prev u n h

theorem email_hstart (prev : Option Char) (u : List Char) (n : Nat)
    (h : emailMatchAt prev u = some (n + 1)) :
    ∃ c r, u = c :: r ∧ isSpaceC c = false := by
  obtain ⟨-, L, y, heq, hLne, hLc, -⟩ := (emailMatch_iff prev u).mp ⟨n + 1, h⟩
  cases L with
  | nil => exact absurd rfl hLne
  | cons c L' =>
      refine ⟨c, L' ++ '@' :: y, by simpa using heq, ?_⟩
      exact local_nonspace c (hLc c (by simp))

theorem url1_ge (prev : Option Char) (u : List Char) (v : Nat)
    (h : patMatchAt false urlPat1 prev u = some v) : 1 ≤ v := by
  rw [show urlPat1 = litsL "http".data ++
      (.cls (.lit 's') .opt :: (litsL "://".data ++ [.cls .nonspace .plus])) from rfl,
      patMatchAt_lits] at h
  by_cases hp : litPref "http".data u = true
  · rw [if_pos hp] at h
    cases hin : patMatchAt false (.cls (.lit 's') .opt ::
        (litsL "://".data ++ [.cls .nonspace .plus]))
        (lastPrev "http".data prev) (u.drop "http".data.length) with
    | none => rw [hin] at h; cases h
    | some x =>
        rw [hin] at h
        have : x + "http".data.length = v := by simpa using h
        rw [show ("http".data.length) = 4 from rfl] at this
        omega
  · rw [if_neg hp] at h
    cases h

theorem url2_ge (prev : Option Char) (u : List Char) (v : Nat)
    (h : patMatchAt false urlPat2 prev u = some v) : 1 ≤ v := by
  rw [show urlPat2 = litsL "www.".data ++ [.cls .nonspace .plus] from rfl,
      patMatchAt_lits] at h
  by_cases hp : litPref "www.".data u = true
  · rw [if_pos hp] at h
    cases hin : patMatchAt false [.cls .nonspace .plus]
        (lastPrev "www.".data prev) (u.drop "www.".data.length) with
    | none => rw [hin] at h; cases h
    | some x =>
        rw [hin] at h
        have : x + "www.".data.length = v := by simpa using h
        rw [show ("www.".data.length) = 4 from rfl] at this
        omega
  · rw [if_neg hp] at h
    cases h

theorem url_hm1 (prev : Option Char) (u : List Char) : urlMatchAt prev u ≠ some 0 := by
  intro h
  show False
  cases h1 : patMatchAt false urlPat1 prev u with
  | some x =>
      have hx : (some x : Option Nat) = some 0 := by
        have : urlMatchAt prev u = some x := by
          show (patMatchAt false urlPat1 prev u).orElse
            (fun _ => patMatchAt false urlPat2 prev u) = some x
          rw [h1]
          rfl
        rw [← this, h]
      cases hx
      have := url1_ge prev u 0 h1
      omega
  | none =>
      have h2 : patMatchAt false urlPat2 prev u = some 0 := by
        have : urlMatchAt prev u = patMatchAt false urlPat2 prev u := by
          show (patMatchAt false urlPat1 prev u).orElse
            (fun _ => patMatchAt false urlPat2 prev u) = _
          rw [h1]
          rfl
        rw [← this, h]
      have := url2_ge prev u 0 h2
      omega

theorem url_hlen (prev : Option Char) (u : List Char) (n : Nat)
    (h : urlMatchAt prev u = some n) : n ≤ u.length := by
  cases h1 : patMatchAt false urlPat1 prev u with
  | some x =>
      have hx : x = n := by
        have : urlMatchAt prev u = some x := by
          show (patMatchAt false urlPat1 prev u).orElse
            (fun _ => patMatchAt false urlPat2 prev u) = some x
          rw [h1]
          rfl
        rw [h] at this
        exact (Option.some.injEq _ _ ▸ this).symm
      subst hx
      exact patMatchAt_le_length false urlPat1 prev u x h1
  | none =>
      have h2 : patMatchAt false urlPat2 prev u = some n := by
        have : urlMatchAt prev u = patMatchAt false urlPat2 prev u := by
          show (patMatchAt false urlPat1 prev u).orElse
            (fun _ => patMatchAt false urlPat2 prev u) = _
          rw [h1]
          rfl
        rw [← this, h]
      exact patMatchAt_le_length false urlPat2 prev u n h2

theorem litPref_head (w0 : Char) (ws u : List Char) (h : litPref (w0 :: ws) u = true) :
    ∃ r, u = w0 :: r := by
  cases u with
  | nil => simp [litPref] at h
  | cons d t =>
      have hd : (d == w0) = true := by
        have h' : ((d == w0) && litPref ws t) = true := h
        rw [Bool.and_eq_true] at h'
        exact h'.1
      exact ⟨t, by rw [beq_iff_eq.mp hd]⟩

theorem url_hstart (prev : Option Char) (u : List Char) (n : Nat)
    (h : urlMatchAt prev u = some (n + 1)) :
    ∃ c r, u = c :: r ∧ isSpaceC c = false := by
  have htrig := (urlMatch_iff_trig prev u).mp ⟨n + 1, h⟩
  unfold urlTrig at htrig
  rw [Bool.or_eq_true, Bool.or_eq_true, Bool.and_eq_true, Bool.and_eq_true,
      Bool.and_eq_true] at htrig
  rcases htrig with (⟨h1a, -⟩ | ⟨h1b, -⟩) | ⟨h2, -⟩
  · obtain ⟨r, hr⟩ := litPref_head 'h' _ u h1a
    exact ⟨'h', r, hr, by decide⟩
  · obtain ⟨r, hr⟩ := litPref_head 'h' _ u h1b
    exact ⟨'h', r, hr, by decide⟩
  · obtain ⟨r, hr⟩ := litPref_head 'w' _ u h2
    exact ⟨'w', r, hr, by decide⟩

theorem getLast?_eq_getLastD {l : List Char} (h : l ≠ []) :
    l.getLast? = some (l.getLastD ' ') := by
  rw [List.getLastD_eq_getLast?, List.getLast?_eq_getLast l h]
  rfl

theorem email_match_val (prev : Option Char) (s : List Char) (v : Nat)
    (h : emailMatchAt prev s = some v) :
    ∃ L D T r, s = L ++ '@' :: (D ++ '.' :: (T ++ r)) ∧
      L ≠ [] ∧ (∀ c ∈ L, isLocal c = true) ∧
      D ≠ [] ∧ (∀ c ∈ D, isDomain c = true) ∧
      2 ≤ T.length ∧ (∀ c ∈ T, isTld c = true) ∧
      (prevWord prev != headWord s) = true ∧
      (isWordChar (T.getLastD ' ') != headWord r) = true ∧
      L.length + 1 + D.length + 1 + T.length = v := by
  have h0 : patMatchAt false (.bnd :: [.cls emailLocalCls .plus, .cls (.lit '@') .one,
      .cls emailDomainCls .plus, .cls (.lit '.') .one, .cls emailTldCls .one,
      .cls emailTldCls .plus, .bnd]) prev s = some v := h
  rw [patMatchAt_bnd] at h0
  by_cases hb : (prevWord prev != headWord s) = true
  case neg => rw [if_neg hb] at h0; cases h0
  rw [if_pos hb] at h0
  obtain ⟨k1, hk11, hk1v, hch1, hk1len, h1⟩ := patMatchAt_plus_fwd _ _ _ _ _ h0
  cases hd1 : s.drop k1 with
  | nil => rw [hd1, patMatchAt_one_nil] at h1; cases h1
  | cons c y =>
      rw [hd1, patMatchAt_one_cons] at h1
      by_cases hc : ccMatches false (.lit '@') c = true
      case neg => rw [if_neg hc] at h1; cases h1
      rw [if_pos hc] at h1
      have hceq : c = '@' := beq_iff_eq.mp hc
      subst hceq
      cases h2m : patMatchAt false [.cls emailDomainCls .plus, .cls (.lit '.') .one,
          .cls emailTldCls .one, .cls emailTldCls .plus, .bnd] (some '@') y with
      | none => rw [h2m] at h1; cases h1
      | some w2 =>
          rw [h2m] at h1
          have hv1 : w2 + 1 = v - k1 := by simpa using h1
          obtain ⟨k2, hk21, hk2w, hch2, hk2len, h3⟩ := patMatchAt_plus_fwd _ _ _ _ _ h2m
          cases hd2 : y.drop k2 with
          | nil => rw [hd2, patMatchAt_one_nil] at h3; cases h3
          | cons c2 y2 =>
              rw [hd2, patMatchAt_one_cons] at h3
              by_cases hc2 : ccMatches false (.lit '.') c2 = true
              case neg => rw [if_neg hc2] at h3; cases h3
              rw [if_pos hc2] at h3
              have hc2eq : c2 = '.' := beq_iff_eq.mp hc2
              subst hc2eq
              cases h4m : patMatchAt false [.cls emailTldCls .one, .cls emailTldCls .plus,
                  .bnd] (some '.') y2 with
              | none => rw [h4m] at h3; cases h3
              | some w3 =>
                  rw [h4m] at h3
                  have hv2 : w3 + 1 = w2 - k2 := by simpa using h3
                  cases hy2 : y2 with
                  | nil => rw [hy2, patMatchAt_one_nil] at h4m; cases h4m
                  | cons c3 y3 =>
                      rw [hy2, patMatchAt_one_cons] at h4m
                      by_cases hc3 : ccMatches false emailTldCls c3 = true
                      case neg => rw [if_neg hc3] at h4m; cases h4m
                      rw [if_pos hc3] at h4m
                      cases h5m : patMatchAt false [.cls emailTldCls .plus, .bnd]
                          (some c3) y3 with
                      | none => rw [h5m] at h4m; cases h4m
                      | some w4 =>
                          rw [h5m] at h4m
                          have hv3 : w4 + 1 = w3 := by simpa using h4m
                          obtain ⟨k3, hk31, hk3w, hch3, hk3len, h5⟩ :=
                            patMatchAt_plus_fwd _ _ _ _ _ h5m
                          rw [patMatchAt_bnd] at h5
                          by_cases hbe : (prevWord (lastPrev (y3.take k3) (some c3)) !=
                              headWord (y3.drop k3)) = true
                          case neg => rw [if_neg hbe] at h5; cases h5
                          rw [if_pos hbe, patMatchAt_nil] at h5
                          have hw4 : w4 - k3 = 0 := by
                            have : (0 : Nat) = w4 - k3 := by simpa using h5
                            omega
                          have htne : y3.take k3 ≠ [] := by
                            intro hq
                            have := congrArg List.length hq
                            rw [List.length_take, List.length_nil] at this
                            omega
                          refine ⟨s.take k1, y.take k2, c3 :: y3.take k3, y3.drop k3,
                            ?_, ?_, ?_, ?_, ?_, ?_, ?_, hb, ?_, ?_⟩
                          · conv_lhs => rw [← List.take_append_drop k1 s]
                            rw [hd1]
                            congr 2
                            conv_lhs => rw [← List.take_append_drop k2 y]
                            rw [hd2]
                            congr 2
                            rw [hy2]
                            show c3 :: y3 = c3 :: (y3.take k3 ++ y3.drop k3)
                            rw [List.take_append_drop]
                          · intro hq
                            have := congrArg List.length hq
                            rw [List.length_take, List.length_nil] at this
                            omega
                          · exact fun c hcm => hch1 c hcm
                          · intro hq
                            have := congrArg List.length hq
                            rw [List.length_take, List.length_nil] at this
                            omega
                          · exact fun c hcm => hch2 c hcm
                          · simp [List.length_take]
                            omega
                          · intro d hd
                            rcases List.mem_cons.mp hd with rfl | hd
                            · exact hc3
                            · exact hch3 d hd
                          · rw [List.getLastD_cons, getLastD_ne_nil htne c3 ' ']
                            rw [prevWord_lastPrev _ _ htne] at hbe
                            exact hbe
                          · rw [List.length_take, List.length_take]
                            simp only [List.length_cons, List.length_take]
                            omega

theorem email_match_ctx (prev : Option Char) (s : List Char) (v : Nat)
    (h : emailMatchAt prev s = some (v + 1)) :
    (prevWord ((s.take (v + 1)).getLast?) != headWord (s.drop (v + 1))) = true := by
  obtain ⟨L, D, T, r, heq, hL, -, hD, -, hT2, -, -, hbt, hlen⟩ :=
    email_match_val prev s (v + 1) h
  have hTne : T ≠ [] := by
    intro hq
    rw [hq] at hT2
    simp at hT2
  have hdec : s = (L ++ '@' :: (D ++ '.' :: T)) ++ r := by
    rw [heq]
    simp [List.append_assoc]
  have hlen2 : (L ++ '@' :: (D ++ '.' :: T)).length = v + 1 := by
    simp
    omega
  rw [hdec, ← hlen2, List.take_left, List.drop_left]
  have hXne : ('@' :: (D ++ '.' :: T) : List Char) ≠ [] := by simp
  have hYne : ('.' :: T : List Char) ≠ [] := by simp
  have h1 : T.getLast? = some (T.getLastD ' ') := getLast?_eq_getLastD hTne
  have h2 : ('.' :: T).getLast? = some (T.getLastD ' ') := by
    cases T with
    | nil => exact absurd rfl hTne
    | cons f fs => rw [List.getLast?_cons_cons]; exact h1
  have h3 : (D ++ '.' :: T).getLast? = some (T.getLastD ' ') := by
    rw [List.getLast?_append, h2]
    rfl
  have h4 : ('@' :: (D ++ '.' :: T)).getLast? = some (T.getLastD ' ') := by
    cases hDe : D ++ '.' :: T with
    | nil => simp at hDe
    | cons e es =>
        rw [List.getLast?_cons_cons, ← hDe]
        exact h3
  have hgl : (L ++ '@' :: (D ++ '.' :: T)).getLast? = some (T.getLastD ' ') := by
    rw [List.getLast?_append, h4]
    rfl
  rw [hgl]
  exact hbt

theorem em_none_barrier (q : Option Char) (u : List Char) (i : Nat)
    (hbar : ∀ c, u.get? i = some c → isLocal c = false ∧ c ≠ '@')
    (hpre : ∀ j, j < i → ∀ c, u.get? j = some c → c ≠ '@') :
    emailMatchAt q u = none := by
  cases hq : emailMatchAt q u with
  | none => rfl
  | some n =>
      exfalso
      obtain ⟨-, L, y, heq, hLne, hLc, -⟩ := (emailMatch_iff q u).mp ⟨n, hq⟩
      have hat : u.get? L.length = some '@' := by
        rw [heq, List.get?_append_right (le_refl L.length)]
        simp
      rcases Nat.lt_trichotomy i L.length with hi | hi | hi
      · have hL : L.get? i = some (L.get ⟨i, hi⟩) := List.get?_eq_get hi
        have hu : u.get? i = some (L.get ⟨i, hi⟩) := by
          rw [heq, List.get?_append hi]
          exact hL
        have := (hbar _ hu).1
        have hmem : L.get ⟨i, hi⟩ ∈ L := List.get_mem L i hi
        rw [hLc _ hmem] at this
        cases this
      · subst hi
        exact (hbar '@' hat).2 rfl
      · exact hpre L.length hi '@' hat rfl

theorem rescueSplit : ∀ (B : List Char), B ≠ [] →
    (∀ c ∈ B, isLocal c = true ∨ c = '|') →
    isWordChar (B.getLastD ' ') = true →
    isLocal (B.getLastD ' ') = true →
    ∃ B1 B2, B = B1 ++ B2 ∧ B2 ≠ [] ∧ (∀ c ∈ B2, isLocal c = true) ∧
      isWordChar (B2.headD ' ') = true ∧ isWordChar (B1.getLastD '@') = false := by
  intro B
  induction B with
  | nil => intro h; exact absurd rfl h
  | cons c B' ih =>
      intro _ hchars hlastw hlastl
      cases hB0 : B' with
      | nil =>
          subst hB0
          have hc : (([c] : List Char).getLastD ' ') = c := rfl
          rw [show ([c] : List Char) = (c :: []) from rfl] at *
          refine ⟨[], [c], rfl, by simp, ?_, ?_, by decide⟩
          · intro d hd
            rcases List.mem_singleton.mp hd with rfl
            exact hlastl
          · exact hlastw
      | cons d B'' =>
          have hne' : B' ≠ [] := by rw [hB0]; simp
          rw [List.getLastD_cons, getLastD_ne_nil hne' c ' '] at hlastw hlastl
          obtain ⟨B1', B2', heq, hne2, hloc2, hhead2, hlast1⟩ :=
            ih hne' (fun x hx => hchars x (by simp [hx])) hlastw hlastl
          cases hB1 : B1' with
          | cons e es =>
              refine ⟨c :: B1', B2', by rw [← hB0, heq]; rfl, hne2, hloc2, hhead2, ?_⟩
              rw [hB1, List.getLastD_cons,
                  getLastD_ne_nil (show (e :: es : List Char) ≠ [] by simp) c '@', ← hB1]
              exact hlast1
          | nil =>
              rw [hB1] at heq
              simp only [List.nil_append] at heq
              by_cases hw : isWordChar c = true
              · have hcl : isLocal c = true := by
                  rcases hchars c (by simp) with h | h
                  · exact h
                  · subst h
                    exact absurd hw (by decide)
                refine ⟨[], c :: B2', by rw [← hB0, heq]; rfl, by simp, ?_, ?_, by decide⟩
                · intro x hx
                  rcases List.mem_cons.mp hx with rfl | hx
                  · exact hcl
                  · exact hloc2 x hx
                · exact hw
              · refine ⟨[c], B2', by rw [← hB0, heq]; rfl, hne2, hloc2, hhead2, ?_⟩
                show isWordChar ((([c] : List Char)).getLastD '@') = false
                rw [show (([c] : List Char)).getLastD '@' = c from rfl]
                cases hx : isWordChar c
                · rfl
                · exact absurd hx hw

theorem noMatchFrom_head (m : Matcher) (prev : Option Char) (s : List Char)
    (h : noMatchFrom m prev s) : m prev s = none := by
  cases s with
  | nil => exact h
  | cons c t => exact h.1

theorem getLastD_mem {l : List Char} (h : l ≠ []) : l.getLastD ' ' ∈ l := by
  rw [List.getLastD_eq_getLast?, List.getLast?_eq_getLast l h]
  show l.getLast h ∈ l
  exact List.getLast_mem h

theorem getLastD_append_cons (X : List Char) (c : Char) (Y : List Char)
    (hY : Y ≠ []) (d : Char) : (X ++ c :: Y).getLastD d = Y.getLastD d := by
  cases Y with
  | nil => exact absurd rfl hY
  | cons y0 Y' =>
      rw [List.getLastD_eq_getLast?, List.getLast?_append, List.getLast?_cons_cons,
          getLast?_eq_getLastD (show (y0 :: Y' : List Char) ≠ [] by simp)]
      show (y0 :: Y').getLastD ' ' = (y0 :: Y').getLastD d
      exact getLastD_ne_nil (by simp) ' ' d

theorem take_append_ge (l₁ l₂ : List Char) (n : Nat) (h : l₁.length ≤ n) :
    (l₁ ++ l₂).take n = l₁ ++ l₂.take (n - l₁.length) := by
  rw [List.take_append_eq_append_take]
  congr 1
  exact List.take_all_of_le h

theorem email_keep_nomatch (prev q : Option Char) (s : List Char)
    (hINV : prevWord q = prevWord prev ∨ (prevWord q = false ∧ headWord s = false))
    (h0 : emailMatchAt prev s = none) :
    emailMatchAt q (subFrom emailMatchAt "[EMAIL]".data prev s) = none := by
  cases hq : emailMatchAt q (subFrom emailMatchAt "[EMAIL]".data prev s) with
  | none => rfl
  | some n =>
      exfalso
      obtain ⟨hbq, L, y0, hout, hLne, hLc, D, y1, hy0, hDne, hDc, T, r, hy1, hT2, hTc, hbt⟩ :=
        (emailMatch_iff q _).mp ⟨n, hq⟩
      rw [hy1] at hy0
      rw [hy0] at hout
      have hTne : T ≠ [] := by
        intro hx
        rw [hx] at hT2
        simp at hT2
      obtain ⟨cL, L', rfl⟩ : ∃ cL L', L = cL :: L' := by
        cases L with
        | nil => exact absurd rfl hLne
        | cons a b => exact ⟨a, b, rfl⟩
      have hout2 : subFrom emailMatchAt "[EMAIL]".data prev s =
          ((cL :: L') ++ '@' :: (D ++ '.' :: T)) ++ r := by
        rw [hout]
        simp [List.append_assoc]
      rcases subFrom_shape emailMatchAt "[EMAIL]".data email_hm1 email_hlen
        s.length s (le_refl _) prev with ⟨hself, hns⟩ |
        ⟨k, n', hkn, htake, hdrop, hnones, hmk⟩
      · -- no match anywhere: the candidate transfers to the input directly
        rw [hself] at hout hbq
        have hhws : headWord s = isWordChar cL := by
          rw [hout]
          rfl
        have hbnd : (prevWord prev != headWord s) = true := by
          rcases hINV with hpq | ⟨hpq0, hhw⟩
          · rw [← hpq]
            exact hbq
          · rw [hhw] at hbq ⊢
            rw [hpq0] at hbq
            cases hbq
        have hex : ∃ n2, emailMatchAt prev s = some n2 := by
          rw [emailMatch_iff]
          exact ⟨hbnd, cL :: L', D ++ '.' :: (T ++ r), hout, hLne, hLc, D, T ++ r,
            rfl, hDne, hDc, T, r, rfl, hT2, hTc, hbt⟩
        obtain ⟨n2, hn2⟩ := hex
        rw [h0] at hn2
        cases hn2
      · -- a first match at position k of the input
        rcases Nat.lt_trichotomy (((cL :: L') ++ '@' :: (D ++ '.' :: T)).length) k with
          hlt | hkeq | hgt
        · -- candidate ends strictly before the replacement: transfer to input
          set dec := (cL :: L') ++ '@' :: (D ++ '.' :: T) with hdec
          have hkout : k < (subFrom emailMatchAt "[EMAIL]".data prev s).length := by
            have := congrArg List.length hdrop
            rw [List.length_drop, List.length_append] at this
            have h7 : ("[EMAIL]".data).length = 7 := rfl
            omega
          have hrlen : k - dec.length < r.length := by
            have := congrArg List.length hout2
            rw [List.length_append] at this
            omega
          obtain ⟨rc, rrest, rfl⟩ : ∃ rc rrest, r = rc :: rrest := by
            cases r with
            | nil => simp at hrlen
            | cons a b => exact ⟨a, b, rfl⟩
          obtain ⟨mm, hmm⟩ : ∃ mm, k - dec.length = mm + 1 := ⟨k - dec.length - 1, by omega⟩
          have hsk : s.take k = dec ++ (rc :: rrest).take (k - dec.length) := by
            rw [← htake, hout2, take_append_ge dec _ k (by omega)]
          have hs : s = dec ++ ((rc :: rrest).take (k - dec.length) ++ s.drop k) := by
            conv_lhs => rw [← List.take_append_drop k s]
            rw [hsk, List.append_assoc]
          have hhws : headWord s = isWordChar cL := by
            rw [hs]
            rfl
          have hhwo : headWord (subFrom emailMatchAt "[EMAIL]".data prev s) =
              isWordChar cL := by
            rw [hout2]
            rfl
          have hbnd : (prevWord prev != headWord s) = true := by
            rcases hINV with hpq | ⟨hpq0, hhw⟩
            · rw [← hpq]
              rw [hhwo] at hbq
              rw [hhws]
              exact hbq
            · rw [hhw] at hhws
              rw [hhwo, ← hhws, hpq0] at hbq
              cases hbq
          have hex : ∃ n2, emailMatchAt prev s = some n2 := by
            rw [emailMatch_iff]
            refine ⟨hbnd, cL :: L',
              D ++ '.' :: (T ++ ((rc :: rrest).take (k - dec.length) ++ s.drop k)), ?_,
              hLne, hLc, D, T ++ ((rc :: rrest).take (k - dec.length) ++ s.drop k),
              rfl, hDne, hDc, T,
              (rc :: rrest).take (k - dec.length) ++ s.drop k, rfl, hT2, hTc, ?_⟩
            · conv_lhs => rw [hs]
              rw [hdec]
              simp [List.append_assoc]
            · rw [hmm, List.take_succ_cons]
              show (isWordChar (T.getLastD ' ') != isWordChar rc) = true
              exact hbt
          obtain ⟨n2, hn2⟩ := hex
          have hk0 : 0 < k := by omega
          have hz := hnones 0 hk0
          rw [show ctxAt prev s 0 = prev from rfl, List.drop_zero] at hz
          rw [hz] at hn2
          cases hn2
        · -- candidate ends exactly at the replacement: rescue match inside it
          set dec := (cL :: L') ++ '@' :: (D ++ '.' :: T) with hdec
          have hstake : s.take k = dec := by
            rw [← htake, hout2, ← hkeq, List.take_left]
          have hs : s = dec ++ s.drop k := by
            conv_lhs => rw [← List.take_append_drop k s]
            rw [hstake]
          have hr : r = "[EMAIL]".data ++ subFrom emailMatchAt "[EMAIL]".data
              (ctxAt prev s (k + n' + 1)) (s.drop (k + n' + 1)) := by
            rw [← hdrop, hout2, ← hkeq, List.drop_left]
          have hhwr : headWord r = false := by
            rw [hr]
            rfl
          have hwT : isWordChar (T.getLastD ' ') = true := by
            rw [hhwr] at hbt
            cases hx : isWordChar (T.getLastD ' ')
            · rw [hx] at hbt
              cases hbt
            · rfl
          have hlocT : isLocal (T.getLastD ' ') = true := by
            rcases tld_cases _ (hTc _ (getLastD_mem hTne)) with ⟨hl, -⟩ | hbar
            · exact hl
            · rw [hbar] at hwT
              cases hwT
          have hBne : (D ++ '.' :: T : List Char) ≠ [] := by simp
          have hBlast : (D ++ '.' :: T).getLastD ' ' = T.getLastD ' ' :=
            getLastD_append_cons D '.' T hTne ' '
          obtain ⟨B1, B2, hBeq, hB2ne, hB2loc, hB2head, hB1last⟩ :=
            rescueSplit (D ++ '.' :: T) hBne
              (by
                intro c hc
                rcases List.mem_append.mp hc with hc | hc
                · exact Or.inl (domain_local c (hDc c hc))
                · rcases List.mem_cons.mp hc with rfl | hc
                  · exact Or.inl (by decide)
                  · rcases tld_cases c (hTc c hc) with ⟨hl, -⟩ | hb
                    · exact Or.inl hl
                    · exact Or.inr hb)
              (by rw [hBlast]; exact hwT)
              (by rw [hBlast]; exact hlocT)
          obtain ⟨hm2, Lm, ym, hskeq, hLmne, hLmc, hdomm⟩ :=
            (emailMatch_iff _ _).mp ⟨n' + 1, hmk⟩
          set qs := (cL :: L').length + 1 + B1.length with hqs
          have hsplit1 : dec = ((cL :: L') ++ '@' :: B1) ++ B2 := by
            rw [hdec, hBeq]
            simp [List.append_assoc]
          have hlen1 : ((cL :: L') ++ '@' :: B1).length = qs := by
            simp [hqs]
            omega
          have hqslt : qs < k := by
            have h1 : dec.length = ((cL :: L') ++ '@' :: B1).length + B2.length := by
              rw [hsplit1]
              simp
              omega
            have h2 : 1 ≤ B2.length := by
              cases B2 with
              | nil => exact absurd rfl hB2ne
              | cons _ _ => simp
            omega
          have hsq : s.drop qs = B2 ++ s.drop k := by
            conv_lhs => rw [hs, hsplit1, List.append_assoc]
            rw [List.drop_left' hlen1]
          have hctx : ctxAt prev s qs = some (B1.getLastD '@') := by
            unfold ctxAt
            rw [if_neg (by omega)]
            have htk : s.take qs = (cL :: L') ++ '@' :: B1 := by
              conv_lhs => rw [hs, hsplit1, List.append_assoc]
              rw [List.take_left' hlen1]
            rw [htk, List.getLast?_append,
                getLast?_eq_getLastD (show ('@' :: B1 : List Char) ≠ [] by simp),
                List.getLastD_cons]
            rfl
          obtain ⟨b0, B2', rfl⟩ : ∃ b0 B2', B2 = b0 :: B2' := by
            cases B2 with
            | nil => exact absurd rfl hB2ne
            | cons a b => exact ⟨a, b, rfl⟩
          have hbnd2 : (prevWord (ctxAt prev s qs) != headWord (s.drop qs)) = true := by
            rw [hctx, hsq]
            show (isWordChar (B1.getLastD '@') != isWordChar b0) = true
            rw [hB1last]
            rw [show (b0 :: B2').headD ' ' = b0 from rfl] at hB2head
            rw [hB2head]
            rfl
          have hex : ∃ n2, emailMatchAt (ctxAt prev s qs) (s.drop qs) = some n2 := by
            rw [emailMatch_iff]
            refine ⟨hbnd2, (b0 :: B2') ++ Lm, ym, ?_, by simp, ?_, hdomm⟩
            · rw [hsq, hskeq, ← List.append_assoc]
            · intro c hc
              rcases List.mem_append.mp hc with hc | hc
              · exact hB2loc c hc
              · exact hLmc c hc
          obtain ⟨n2, hn2⟩ := hex
          rw [hnones qs hqslt] at hn2
          cases hn2
        · -- the replacement head sits inside the candidate span: impossible
          have hkc : ((subFrom emailMatchAt "[EMAIL]".data prev s).drop k).get? 0 =
              some '[' := by
            rw [hdrop]
            rfl
          rw [List.get?_drop] at hkc
          simp only [Nat.add_zero] at hkc
          have h2 : ((cL :: L') ++ '@' :: (D ++ '.' :: T)).get? k = some '[' := by
            rw [hout2] at hkc
            rw [List.get?_append hgt] at hkc
            exact hkc
          have hmem : '[' ∈ (cL :: L') ++ '@' :: (D ++ '.' :: T) := List.get?_mem h2
          rcases List.mem_append.mp hmem with hm | hm
          · exact absurd (hLc _ hm) (by decide)
          · rcases List.mem_cons.mp hm with he | hm
            · exact absurd he (by decide)
            · rcases List.mem_append.mp hm with hm | hm
              · exact absurd (hDc _ hm) (by decide)
              · rcases List.mem_cons.mp hm with he | hm
                · exact absurd he (by decide)
                · exact absurd (hTc _ hm) (by decide)

theorem email_sub_noMatch : ∀ (N : Nat) (s : List Char), s.length ≤ N →
    ∀ (prev q : Option Char),
    (prevWord q = prevWord prev ∨ (prevWord q = false ∧ headWord s = false)) →
    noMatchFrom emailMatchAt q (subFrom emailMatchAt "[EMAIL]".data prev s) := by
  intro N
  induction N with
  | zero =>
      intro s hs prev q hINV
      have hnil : s = [] := List.eq_nil_of_length_eq_zero (by omega)
      subst hnil
      rw [subFrom_none_nil _ _ _ (email_none_nil prev)]
      exact email_none_nil q
  | succ N ih =>
      intro s hs prev q hINV
      cases hm : emailMatchAt prev s with
      | none =>
          cases s with
          | nil =>
              rw [subFrom_none_nil _ _ _ hm]
              exact email_none_nil q
          | cons c t =>
              rw [subFrom_none_cons _ _ email_hm1 email_hlen _ _ _ hm]
              refine ⟨?_, ?_⟩
              · have hh := email_keep_nomatch prev q (c :: t) hINV hm
                rw [subFrom_none_cons _ _ email_hm1 email_hlen _ _ _ hm] at hh
                exact hh
              · exact ih t (by simp at hs; omega) (some c) (some c) (Or.inl rfl)
      | some v =>
          cases v with
          | zero => exact absurd hm (email_hm1 _ _)
          | succ n' =>
              rw [subFrom_match _ _ email_hm1 email_hlen _ _ _ hm]
              have hctx := email_match_ctx prev s n' hm
              have hINV' : prevWord (some ']') = prevWord ((s.take (n' + 1)).getLast?) ∨
                  (prevWord (some ']') = false ∧ headWord (s.drop (n' + 1)) = false) := by
                cases hx : prevWord ((s.take (n' + 1)).getLast?)
                · exact Or.inl (by decide)
                · rw [hx] at hctx
                  refine Or.inr ⟨by decide, ?_⟩
                  cases hy : headWord (s.drop (n' + 1))
                  · rfl
                  · rw [hy] at hctx
                    cases hctx
              have hlen2 : (s.drop (n' + 1)).length ≤ N := by
                have := email_hlen prev s (n' + 1) hm
                rw [List.length_drop]
                omega
              have hrec := ih (s.drop (n' + 1)) hlen2 ((s.take (n' + 1)).getLast?)
                (some ']') hINV'
              show noMatchFrom emailMatchAt q
                ('[' :: 'E' :: 'M' :: 'A' :: 'I' :: 'L' :: ']' ::
                  subFrom emailMatchAt "[EMAIL]".data ((s.take (n' + 1)).getLast?)
                    (s.drop (n' + 1)))
              refine ⟨?_, ?_, ?_, ?_, ?_, ?_, ?_, hrec⟩
              · apply em_none_barrier _ _ 0
                · intro c hc
                  injection hc with h
                  subst h
                  exact ⟨by decide, by decide⟩
                · intro j hj c hc
                  exact absurd hj (Nat.not_lt_zero j)
              · apply em_none_barrier _ _ 5
                · intro c hc
                  injection hc with h
                  subst h
                  exact ⟨by decide, by decide⟩
                · intro j hj c hc
                  interval_cases j <;> (injection hc with h; subst h; decide)
              · apply em_none_barrier _ _ 4
                · intro c hc
                  injection hc with h
                  subst h
                  exact ⟨by decide, by decide⟩
                · intro j hj c hc
                  interval_cases j <;> (injection hc with h; subst h; decide)
              · apply em_none_barrier _ _ 3
                · intro c hc
                  injection hc with h
                  subst h
                  exact ⟨by decide, by decide⟩
                · intro j hj c hc
                  interval_cases j <;> (injection hc with h; subst h; decide)
              · apply em_none_barrier _ _ 2
                · intro c hc
                  injection hc with h
                  subst h
                  exact ⟨by decide, by decide⟩
                · intro j hj c hc
                  interval_cases j <;> (injection hc with h; subst h; decide)
              · apply em_none_barrier _ _ 1
                · intro c hc
                  injection hc with h
                  subst h
                  exact ⟨by decide, by decide⟩
                · intro j hj c hc
                  interval_cases j <;> (injection hc with h; subst h; decide)
              · apply em_none_barrier _ _ 0
                · intro c hc
                  injection hc with h
                  subst h
                  exact ⟨by decide, by decide⟩
                · intro j hj c hc
                  exact absurd hj (Nat.not_lt_zero j)

theorem litPref_iff_take (w : List Char) : ∀ (u : List Char),
    litPref w u = true ↔ u.take w.length = w := by
  induction w with
  | nil =>
      intro u
      simp [litPref]
  | cons c w ih =>
      intro u
      cases u with
      | nil => simp [litPref]
      | cons d t =>
          show ((d == c) && litPref w t) = true ↔
            (d :: t).take (c :: w).length = c :: w
          rw [show ((c :: w : List Char)).length = w.length + 1 from rfl,
              List.take_succ_cons, Bool.and_eq_true, beq_iff_eq, ih t]
          constructor
          · rintro ⟨rfl, h2⟩
            rw [h2]
          · intro h
            injection h with h1 h2
            exact ⟨h1, by rw [h2]⟩

theorem headNonSpace_get? (x : List Char) :
    headNonSpace x = (match x.get? 0 with
      | some c => !isSpaceC c
      | none => false) := by
  cases x <;> rfl

theorem trig_comp_transfer (w : List Char) (hwb : '[' ∉ w) (c : Char)
    (t o : List Char) (k : Nat) (htake : o.take k = t.take k)
    (hobr : o.get? k = some '[')
    (htd : ∃ d, t.get? k = some d ∧ isSpaceC d = false)
    (h : (litPref w (c :: o) && headNonSpace ((c :: o).drop w.length)) = true) :
    (litPref w (c :: t) && headNonSpace ((c :: t).drop w.length)) = true := by
  rw [Bool.and_eq_true] at h
  obtain ⟨h1, h2⟩ := h
  rw [litPref_iff_take] at h1
  obtain ⟨d, htd1, htd2⟩ := htd
  have hpre : (c :: o).take (k + 1) = (c :: t).take (k + 1) := by
    rw [List.take_succ_cons, List.take_succ_cons, htake]
  rcases Nat.lt_trichotomy w.length (k + 1) with hlt | heq | hgt
  · have hw1 : litPref w (c :: t) = true := by
      rw [litPref_iff_take]
      have e1 : (c :: t).take w.length = ((c :: t).take (k + 1)).take w.length := by
        rw [List.take_take]
        congr 1
        omega
      have e2 : (c :: o).take w.length = ((c :: o).take (k + 1)).take w.length := by
        rw [List.take_take]
        congr 1
        omega
      rw [e1, ← hpre, ← e2]
      exact h1
    rw [Bool.and_eq_true]
    refine ⟨hw1, ?_⟩
    rw [headNonSpace_get?, List.get?_drop] at h2 ⊢
    simp only [Nat.add_zero] at h2 ⊢
    have e3 : (c :: o).get? w.length = (c :: t).get? w.length := by
      have g1 : ((c :: o).take (k + 1)).get? w.length = (c :: o).get? w.length :=
        List.get?_take (by omega)
      have g2 : ((c :: t).take (k + 1)).get? w.length = (c :: t).get? w.length :=
        List.get?_take (by omega)
      rw [← g1, ← g2, hpre]
    rw [← e3]
    exact h2
  · have hw1 : litPref w (c :: t) = true := by
      rw [litPref_iff_take, heq, ← hpre, ← heq]
      exact h1
    rw [Bool.and_eq_true]
    refine ⟨hw1, ?_⟩
    rw [headNonSpace_get?, List.get?_drop]
    simp only [Nat.add_zero]
    rw [heq, show (c :: t).get? (k + 1) = t.get? k from rfl, htd1]
    show (!isSpaceC d) = true
    rw [htd2]
    rfl
  · exfalso
    have hcho : (c :: o).get? (k + 1) = some '[' := by
      rw [show (c :: o).get? (k + 1) = o.get? k from rfl, hobr]
    have hmem : w.get? (k + 1) = some '[' := by
      rw [← h1, List.get?_take hgt]
      exact hcho
    exact hwb (List.get?_mem hmem)

theorem urlTrig_false_transfer (c : Char) (t o : List Char)
    (hsh : o = t ∨ ∃ k, o.take k = t.take k ∧ o.get? k = some '[' ∧
           ∃ d, t.get? k = some d ∧ isSpaceC d = false)
    (h0 : urlTrig (c :: t) = false) : urlTrig (c :: o) = false := by
  rcases hsh with rfl | ⟨k, htake, hobr, htd⟩
  · exact h0
  unfold urlTrig at h0 ⊢
  have T1 : (litPref "http://".data (c :: o) && headNonSpace ((c :: o).drop 7)) = true →
      (litPref "http://".data (c :: t) && headNonSpace ((c :: t).drop 7)) = true := by
    intro hx
    have hy := trig_comp_transfer "http://".data (by decide) c t o k htake hobr htd
      (by rw [show ("http://".data.length : Nat) = 7 from rfl]; exact hx)
    rw [show ("http://".data.length : Nat) = 7 from rfl] at hy
    exact hy
  have T2 : (litPref "https://".data (c :: o) && headNonSpace ((c :: o).drop 8)) = true →
      (litPref "https://".data (c :: t) && headNonSpace ((c :: t).drop 8)) = true := by
    intro hx
    have hy := trig_comp_transfer "https://".data (by decide) c t o k htake hobr htd
      (by rw [show ("https://".data.length : Nat) = 8 from rfl]; exact hx)
    rw [show ("https://".data.length : Nat) = 8 from rfl] at hy
    exact hy
  have T3 : (litPref "www.".data (c :: o) && headNonSpace ((c :: o).drop 4)) = true →
      (litPref "www.".data (c :: t) && headNonSpace ((c :: t).drop 4)) = true := by
    intro hx
    have hy := trig_comp_transfer "www.".data (by decide) c t o k htake hobr htd
      (by rw [show ("www.".data.length : Nat) = 4 from rfl]; exact hx)
    rw [show ("www.".data.length : Nat) = 4 from rfl] at hy
    exact hy
  cases hx1 : (litPref "http://".data (c :: o) && headNonSpace ((c :: o).drop 7)) with
  | true =>
      exfalso
      rw [T1 hx1] at h0
      simp at h0
  | false =>
      cases hx2 : (litPref "https://".data (c :: o) && headNonSpace ((c :: o).drop 8)) with
      | true =>
          exfalso
          rw [T2 hx2] at h0
          simp at h0
      | false =>
          cases hx3 : (litPref "www.".data (c :: o) && headNonSpace ((c :: o).drop 4)) with
          | true =>
              exfalso
              rw [T3 hx3] at h0
              simp at h0
          | false => rfl

theorem urlTrig_cons_false (c : Char) (u : List Char)
    (h1 : (c == 'h') = false) (h2 : (c == 'w') = false) :
    urlTrig (c :: u) = false := by
  unfold urlTrig
  have e1 : litPref "http://".data (c :: u) = false := by
    show ((c == 'h') && litPref "ttp://".data u) = false
    rw [h1]
    rfl
  have e2 : litPref "https://".data (c :: u) = false := by
    show ((c == 'h') && litPref "ttps://".data u) = false
    rw [h1]
    rfl
  have e3 : litPref "www.".data (c :: u) = false := by
    show ((c == 'w') && litPref "ww.".data u) = false
    rw [h2]
    rfl
  rw [e1, e2, e3]
  rfl

theorem url_none_of_trigFalse (u : List Char) (h : urlTrig u = false)
    (prev : Option Char) : urlMatchAt prev u = none := by
  cases hx : urlMatchAt prev u with
  | none => rfl
  | some n =>
      have := (urlMatch_iff_trig prev u).mp ⟨n, hx⟩
      rw [h] at this
      cases this

theorem url_sub_trigFree : ∀ (N : Nat) (s : List Char), s.length ≤ N →
    ∀ (prev : Option Char) (i : Nat),
    urlTrig ((subFrom urlMatchAt "[URL]".data prev s).drop i) = false := by
  intro N
  induction N with
  | zero =>
      intro s hs prev i
      have hnil : s = [] := List.eq_nil_of_length_eq_zero (by omega)
      subst hnil
      rw [subFrom_none_nil _ _ _ (url_none_of_trigFalse [] (by decide) prev),
          List.drop_nil]
      decide
  | succ N ih =>
      intro s hs prev i
      cases hm : urlMatchAt prev s with
      | none =>
          cases s with
          | nil =>
              rw [subFrom_none_nil _ _ _ hm, List.drop_nil]
              decide
          | cons c t =>
              rw [subFrom_none_cons _ _ url_hm1 url_hlen _ _ _ hm]
              cases i with
              | succ i1 =>
                  rw [List.drop_succ_cons]
                  exact ih t (by simp at hs; omega) (some c) i1
              | zero =>
                  rw [List.drop_zero]
                  have h0 : urlTrig (c :: t) = false := by
                    cases hx : urlTrig (c :: t)
                    · rfl
                    · obtain ⟨n2, hn2⟩ := (urlMatch_iff_trig prev (c :: t)).mpr hx
                      rw [hm] at hn2
                      cases hn2
                  refine urlTrig_false_transfer c t _ ?_ h0
                  rcases subFrom_shape urlMatchAt "[URL]".data url_hm1 url_hlen
                    t.length t (le_refl _) (some c) with ⟨hself, -⟩ |
                    ⟨k, n', hkn, htake, hdrop, -, hmk⟩
                  · exact Or.inl hself
                  · refine Or.inr ⟨k, htake, ?_, ?_⟩
                    · have hh : ((subFrom urlMatchAt "[URL]".data (some c) t).drop k).get? 0 =
                          some '[' := by
                        rw [hdrop]
                        rfl
                      rw [List.get?_drop] at hh
                      simpa using hh
                    · obtain ⟨d, dr, hdr, hdns⟩ := url_hstart _ _ _ hmk
                      refine ⟨d, ?_, hdns⟩
                      have hh : (t.drop k).get? 0 = some d := by
                        rw [hdr]
                        rfl
                      rw [List.get?_drop] at hh
                      simpa using hh
      | some v =>
          cases v with
          | zero => exact absurd hm (url_hm1 _ _)
          | succ n' =>
              rw [subFrom_match _ _ url_hm1 url_hlen _ _ _ hm]
              have hlen2 : (s.drop (n' + 1)).length ≤ N := by
                have := url_hlen prev s (n' + 1) hm
                rw [List.length_drop]
                omega
              have hrec := ih (s.drop (n' + 1)) hlen2 ((s.take (n' + 1)).getLast?)
              cases i with
              | zero => exact urlTrig_cons_false '[' _ (by decide) (by decide)
              | succ i1 =>
                  cases i1 with
                  | zero => exact urlTrig_cons_false 'U' _ (by decide) (by decide)
                  | succ i2 =>
                      cases i2 with
                      | zero => exact urlTrig_cons_false 'R' _ (by decide) (by decide)
                      | succ i3 =>
                          cases i3 with
                          | zero => exact urlTrig_cons_false 'L' _ (by decide) (by decide)
                          | succ i4 =>
                              cases i4 with
                              | zero =>
                                  exact urlTrig_cons_false ']' _ (by decide) (by decide)
                              | succ i5 => exact hrec i5

theorem email_sub_trigFree : ∀ (N : Nat) (s : List Char), s.length ≤ N →
    (∀ j, urlTrig (s.drop j) = false) → ∀ (prev : Option Char) (i : Nat),
    urlTrig ((subFrom emailMatchAt "[EMAIL]".data prev s).drop i) = false := by
  intro N
  induction N with
  | zero =>
      intro s hs htf prev i
      have hnil : s = [] := List.eq_nil_of_length_eq_zero (by omega)
      subst hnil
      rw [subFrom_none_nil _ _ _ (email_none_nil prev), List.drop_nil]
      decide
  | succ N ih =>
      intro s hs htf prev i
      cases hm : emailMatchAt prev s with
      | none =>
          cases s with
          | nil =>
              rw [subFrom_none_nil _ _ _ hm, List.drop_nil]
              decide
          | cons c t =>
              rw [subFrom_none_cons _ _ email_hm1 email_hlen _ _ _ hm]
              cases i with
              | succ i1 =>
                  rw [List.drop_succ_cons]
                  exact ih t (by simp at hs; omega) (fun j => htf (j + 1)) (some c) i1
              | zero =>
                  rw [List.drop_zero]
                  refine urlTrig_false_transfer c t _ ?_ (htf 0)
                  rcases subFrom_shape emailMatchAt "[EMAIL]".data email_hm1 email_hlen
                    t.length t (le_refl _) (some c) with ⟨hself, -⟩ |
                    ⟨k, n', hkn, htake, hdrop, -, hmk⟩
                  · exact Or.inl hself
                  · refine Or.inr ⟨k, htake, ?_, ?_⟩
                    · have hh : ((subFrom emailMatchAt "[EMAIL]".data (some c) t).drop k).get? 0 =
                          some '[' := by
                        rw [hdrop]
                        rfl
                      rw [List.get?_drop] at hh
                      simpa using hh
                    · obtain ⟨d, dr, hdr, hdns⟩ := email_hstart _ _ _ hmk
                      refine ⟨d, ?_, hdns⟩
                      have hh : (t.drop k).get? 0 = some d := by
                        rw [hdr]
                        rfl
                      rw [List.get?_drop] at hh
                      simpa using hh
      | some v =>
          cases v with
          | zero => exact absurd hm (email_hm1 _ _)
          | succ n' =>
              rw [subFrom_match _ _ email_hm1 email_hlen _ _ _ hm]
              have hlen2 : (s.drop (n' + 1)).length ≤ N := by
                have := email_hlen prev s (n' + 1) hm
                rw [List.length_drop]
                omega
              have htf2 : ∀ j, urlTrig ((s.drop (n' + 1)).drop j) = false := by
                intro j
                rw [List.drop_drop]
                have := htf (j + (n' + 1))
                rw [show j + (n' + 1) = n' + 1 + j from by omega] at this
                exact this
              have hrec := ih (s.drop (n' + 1)) hlen2 htf2 ((s.take (n' + 1)).getLast?)
              cases i with
              | zero => exact urlTrig_cons_false '[' _ (by decide) (by decide)
              | succ i1 =>
                  cases i1 with
                  | zero => exact urlTrig_cons_false 'E' _ (by decide) (by decide)
                  | succ i2 =>
                      cases i2 with
                      | zero => exact urlTrig_cons_false 'M' _ (by decide) (by decide)
                      | succ i3 =>
                          cases i3 with
                          | zero => exact urlTrig_cons_false 'A' _ (by decide) (by decide)
                          | succ i4 =>
                              cases i4 with
                              | zero =>
                                  exact urlTrig_cons_false 'I' _ (by decide) (by decide)
                              | succ i5 =>
                                  cases i5 with
                                  | zero =>
                                      exact urlTrig_cons_false 'L' _ (by decide) (by decide)
                                  | succ i6 =>
                                      cases i6 with
                                      | zero =>
                                          exact urlTrig_cons_false ']' _
                                            (by decide) (by decide)
                                      | succ i7 => exact hrec i7

theorem matchEnd_ctx (ci : Bool) : ∀ (f : Nat) (p : Pat) (q q' : Option Char)
    (s : List Char), prevWord q = prevWord q' →
    matchEnd ci f p q s = matchEnd ci f p q' s := by
  intro f
  induction f with
  | zero => intro p q q' s h; rfl
  | succ f ih =>
      intro p q q' s hqq
      cases p with
      | nil => rfl
      | cons it rest =>
          cases it with
          | bnd =>
              rw [matchEnd_bnd_step, matchEnd_bnd_step, hqq]
              by_cases hb : (prevWord q' != headWord s) = true
              · rw [if_pos hb, if_pos hb]
                exact ih rest q q' s hqq
              · rw [if_neg hb, if_neg hb]
          | cls cc qu =>
              cases qu with
              | one => cases s <;> rfl
              | opt =>
                  cases s with
                  | nil =>
                      show matchEnd ci f rest q [] = matchEnd ci f rest q' []
                      exact ih rest q q' [] hqq
                  | cons c t =>
                      show (if ccMatches ci cc c then
                          match matchEnd ci f rest (some c) t with
                          | some n => some (n + 1)
                          | none => matchEnd ci f rest q (c :: t)
                          else matchEnd ci f rest q (c :: t)) =
                        (if ccMatches ci cc c then
                          match matchEnd ci f rest (some c) t with
                          | some n => some (n + 1)
                          | none => matchEnd ci f rest q' (c :: t)
                          else matchEnd ci f rest q' (c :: t))
                      rw [ih rest q q' (c :: t) hqq]
              | star =>
                  cases s with
                  | nil =>
                      show matchEnd ci f rest q [] = matchEnd ci f rest q' []
                      exact ih rest q q' [] hqq
                  | cons c t =>
                      show (if ccMatches ci cc c then
                          match matchEnd ci f (.cls cc .star :: rest) (some c) t with
                          | some n => some (n + 1)
                          | none => matchEnd ci f rest q (c :: t)
                          else matchEnd ci f rest q (c :: t)) =
                        (if ccMatches ci cc c then
                          match matchEnd ci f (.cls cc .star :: rest) (some c) t with
                          | some n => some (n + 1)
                          | none => matchEnd ci f rest q' (c :: t)
                          else matchEnd ci f rest q' (c :: t))
                      rw [ih rest q q' (c :: t) hqq]
              | plus => cases s <;> rfl

theorem emailMatchAt_ctx (q q' : Option Char) (u : List Char)
    (h : prevWord q = prevWord q') : emailMatchAt q u = emailMatchAt q' u :=
  matchEnd_ctx false _ emailPat q q' u h

theorem noMatchFrom_email_ctx (q q' : Option Char) (u : List Char)
    (h : prevWord q = prevWord q') (hn : noMatchFrom emailMatchAt q u) :
    noMatchFrom emailMatchAt q' u := by
  cases u with
  | nil =>
      show emailMatchAt q' [] = none
      rw [← emailMatchAt_ctx q q' [] h]
      exact hn
  | cons c t =>
      refine ⟨?_, hn.2⟩
      rw [← emailMatchAt_ctx q q' (c :: t) h]
      exact hn.1

theorem space_nonword (c : Char) (h : isSpaceC c = true) : isWordChar c = false := by
  simp [isSpaceC] at h
  rcases h with ((((h | h) | h) | h) | h) | h <;> (subst h; decide)

theorem tld_nonspace (c : Char) (h : isTld c = true) : isSpaceC c = false := by
  rcases tld_cases c h with ⟨hl, -⟩ | hb
  · exact local_nonspace c hl
  · subst hb
    decide

theorem takeWhile_append_nonspace : ∀ (y z : List Char),
    (∀ c ∈ y, isSpaceC c = false) →
    (y ++ z).takeWhile nonspaceP = y ++ z.takeWhile nonspaceP := by
  intro y
  induction y with
  | nil => intro z h; rfl
  | cons c y' ih =>
      intro z h
      have hc : nonspaceP c = true := by
        show (!isSpaceC c) = true
        rw [h c (by simp)]
        rfl
      show ((c :: (y' ++ z)).takeWhile nonspaceP) = _
      rw [List.takeWhile_cons_of_pos hc, ih z (fun d hd => h d (by simp [hd]))]
      rfl

theorem takeWhile_append_ws : ∀ (y z : List Char),
    (∀ c ∈ z, isSpaceC c = true) →
    (y ++ z).takeWhile nonspaceP = y.takeWhile nonspaceP := by
  intro y
  induction y with
  | nil =>
      intro z h
      cases z with
      | nil => rfl
      | cons c t =>
          show (c :: t).takeWhile nonspaceP = []
          have hc : ¬ nonspaceP c = true := by
            show ¬ (!isSpaceC c) = true
            rw [h c (by simp)]
            simp
          rw [List.takeWhile_cons_of_neg hc]
  | cons c y' ih =>
      intro z h
      by_cases hc : nonspaceP c = true
      · show ((c :: (y' ++ z)).takeWhile nonspaceP) = (c :: y').takeWhile nonspaceP
        rw [List.takeWhile_cons_of_pos hc, List.takeWhile_cons_of_pos hc, ih z h]
      · show ((c :: (y' ++ z)).takeWhile nonspaceP) = (c :: y').takeWhile nonspaceP
        rw [List.takeWhile_cons_of_neg hc, List.takeWhile_cons_of_neg hc]

theorem dropWhile_head_false : ∀ (l : List Char) (c : Char) (r : List Char),
    l.dropWhile nonspaceP = c :: r → nonspaceP c = false := by
  intro l
  induction l with
  | nil => intro c r h; cases h
  | cons d t ih =>
      intro c r h
      by_cases hd : nonspaceP d = true
      · rw [List.dropWhile_cons_of_pos hd] at h
        exact ih c r h
      · rw [List.dropWhile_cons_of_neg hd] at h
        injection h with h1 h2
        subst h1
        cases hx : nonspaceP d
        · rfl
        · exact absurd hx hd

theorem email_runwin (q : Option Char) (u v : List Char)
    (hrun : u.takeWhile nonspaceP = v.takeWhile nonspaceP)
    (h : emailMatchAt q u = none) : emailMatchAt q v = none := by
  cases hv : emailMatchAt q v with
  | none => rfl
  | some n =>
      exfalso
      obtain ⟨hb, L, y0, hveq, hLne, hLc, D, y1, hy0, hDne, hDc, T, r, hy1, hT2, hTc, hbt⟩ :=
        (emailMatch_iff q v).mp ⟨n, hv⟩
      rw [hy1] at hy0
      rw [hy0] at hveq
      set dec := L ++ '@' :: (D ++ '.' :: T) with hdec
      have hvdec : v = dec ++ r := by
        rw [hveq, hdec]
        simp [List.append_assoc]
      have hdecns : ∀ c ∈ dec, isSpaceC c = false := by
        intro c hc
        rw [hdec] at hc
        rcases List.mem_append.mp hc with hc | hc
        · exact local_nonspace c (hLc c hc)
        · rcases List.mem_cons.mp hc with rfl | hc
          · decide
          · rcases List.mem_append.mp hc with hc | hc
            · exact local_nonspace c (domain_local c (hDc c hc))
            · rcases List.mem_cons.mp hc with rfl | hc
              · decide
              · exact tld_nonspace c (hTc c hc)
      have hvw : v.takeWhile nonspaceP = dec ++ r.takeWhile nonspaceP := by
        rw [hvdec]
        exact takeWhile_append_nonspace dec r hdecns
      have huw : u.takeWhile nonspaceP = dec ++ r.takeWhile nonspaceP := by
        rw [hrun, hvw]
      have hu : u = dec ++ (r.takeWhile nonspaceP ++ u.dropWhile nonspaceP) := by
        conv_lhs => rw [← List.takeWhile_append_dropWhile nonspaceP u]
        rw [huw, List.append_assoc]
      have hhw : headWord (r.takeWhile nonspaceP ++ u.dropWhile nonspaceP) =
          headWord r := by
        cases hrt : r.takeWhile nonspaceP with
        | cons c rest =>
            have hrc : ∃ rr, r = c :: rr := by
              cases r with
              | nil => cases hrt
              | cons d dr =>
                  by_cases hP : nonspaceP d = true
                  · rw [List.takeWhile_cons_of_pos hP] at hrt
                    injection hrt with h1 h2
                    exact ⟨dr, by rw [h1]⟩
                  · rw [List.takeWhile_cons_of_neg hP] at hrt
                    cases hrt
            obtain ⟨rr, rfl⟩ := hrc
            rfl
        | nil =>
            have h1 : headWord r = false := by
              cases r with
              | nil => rfl
              | cons d dr =>
                  by_cases hP : nonspaceP d = true
                  · rw [List.takeWhile_cons_of_pos hP] at hrt
                    cases hrt
                  · have hds : isSpaceC d = true := by
                      cases hx : isSpaceC d
                      · exact absurd (by show (!isSpaceC d) = true; rw [hx]; rfl) hP
                      · rfl
                    exact space_nonword d hds
            have h2 : headWord (u.dropWhile nonspaceP) = false := by
              cases hdw : u.dropWhile nonspaceP with
              | nil => rfl
              | cons d dr =>
                  have hP := dropWhile_head_false u d dr hdw
                  have hds : isSpaceC d = true := by
                    cases hx : isSpaceC d
                    · rw [show nonspaceP d = !isSpaceC d from rfl, hx] at hP
                      cases hP
                    · rfl
                  exact space_nonword d hds
            simp only [List.nil_append]
            rw [h2, h1]
      have hex : ∃ m, emailMatchAt q u = some m := by
        rw [emailMatch_iff]
        refine ⟨?_, L,
          D ++ '.' :: (T ++ (r.takeWhile nonspaceP ++ u.dropWhile nonspaceP)), ?_,
          hLne, hLc, D, T ++ (r.takeWhile nonspaceP ++ u.dropWhile nonspaceP),
          rfl, hDne, hDc, T, r.takeWhile nonspaceP ++ u.dropWhile nonspaceP,
          rfl, hT2, hTc, ?_⟩
        · have e1 : headWord u = headWord v := by
            rw [hu, hvdec]
            cases hdcase : dec with
            | nil =>
                rw [hdec] at hdcase
                cases L with
                | nil => exact absurd rfl hLne
                | cons a b => cases hdcase
            | cons dc dt => rfl
          rw [← e1] at hb
          exact hb
        · conv_lhs => rw [hu]
          rw [hdec]
          simp [List.append_assoc]
        · rw [hhw]
          exact hbt
      obtain ⟨m, hm⟩ := hex
      rw [h] at hm
      cases hm

theorem space_of_not_nonspace {c : Char} (h : ¬ nonspaceP c = true) :
    isSpaceC c = true := by
  cases hx : isSpaceC c
  · exact absurd (by show (!isSpaceC c) = true; rw [hx]; rfl) h
  · rfl

theorem headNonSpace_run_congr : ∀ (u v : List Char),
    u.takeWhile nonspaceP = v.takeWhile nonspaceP →
    headNonSpace u = headNonSpace v := by
  intro u v h
  cases u with
  | nil =>
      cases v with
      | nil => rfl
      | cons d v' =>
          by_cases hd : nonspaceP d = true
          · rw [List.takeWhile_cons_of_pos hd] at h
            simp at h
          · show false = !isSpaceC d
            rw [space_of_not_nonspace hd]
            rfl
  | cons c u' =>
      cases v with
      | nil =>
          by_cases hc : nonspaceP c = true
          · rw [List.takeWhile_cons_of_pos hc] at h
            simp at h
          · show (!isSpaceC c) = false
            rw [space_of_not_nonspace hc]
            rfl
      | cons d v' =>
          by_cases hc : nonspaceP c = true <;> by_cases hd : nonspaceP d = true
          · rw [List.takeWhile_cons_of_pos hc, List.takeWhile_cons_of_pos hd] at h
            injection h with h1 h2
            subst h1
            rfl
          · rw [List.takeWhile_cons_of_pos hc, List.takeWhile_cons_of_neg hd] at h
            simp at h
          · rw [List.takeWhile_cons_of_neg hc, List.takeWhile_cons_of_pos hd] at h
            simp at h
          · show (!isSpaceC c) = !isSpaceC d
            rw [space_of_not_nonspace hc, space_of_not_nonspace hd]

theorem comp_run_congr (w : List Char) (hw : ∀ c ∈ w, isSpaceC c = false) :
    ∀ (u v : List Char), u.takeWhile nonspaceP = v.takeWhile nonspaceP →
      (litPref w u && headNonSpace (u.drop w.length)) =
      (litPref w v && headNonSpace (v.drop w.length)) := by
  induction w with
  | nil =>
      intro u v h
      show (true && headNonSpace u) = (true && headNonSpace v)
      rw [Bool.true_and, Bool.true_and]
      exact headNonSpace_run_congr u v h
  | cons a w' ih =>
      intro u v h
      have ha : isSpaceC a = false := hw a (by simp)
      cases u with
      | nil =>
          cases v with
          | nil => rfl
          | cons d v' =>
              by_cases hd : nonspaceP d = true
              · rw [List.takeWhile_cons_of_pos hd] at h
                simp at h
              · have hds := space_of_not_nonspace hd
                have hda : (d == a) = false := by
                  rw [beq_eq_false_iff_ne]
                  intro he
                  rw [he, ha] at hds
                  cases hds
                show (false && headNonSpace (([] : List Char).drop (a :: w').length)) =
                  (((d == a) && litPref w' v') &&
                    headNonSpace ((d :: v').drop (a :: w').length))
                rw [hda]
                rfl
      | cons c u' =>
          cases v with
          | nil =>
              by_cases hc : nonspaceP c = true
              · rw [List.takeWhile_cons_of_pos hc] at h
                simp at h
              · have hcs := space_of_not_nonspace hc
                have hca : (c == a) = false := by
                  rw [beq_eq_false_iff_ne]
                  intro he
                  rw [he, ha] at hcs
                  cases hcs
                show (((c == a) && litPref w' u') &&
                    headNonSpace ((c :: u').drop (a :: w').length)) =
                  (false && headNonSpace (([] : List Char).drop (a :: w').length))
                rw [hca]
                rfl
          | cons d v' =>
              by_cases hc : nonspaceP c = true <;> by_cases hd : nonspaceP d = true
              · rw [List.takeWhile_cons_of_pos hc, List.takeWhile_cons_of_pos hd] at h
                injection h with h1 h2
                subst h1
                show (((c == a) && litPref w' u') && headNonSpace (u'.drop w'.length)) =
                  (((c == a) && litPref w' v') && headNonSpace (v'.drop w'.length))
                by_cases hca : (c == a) = true
                · rw [hca, Bool.true_and, Bool.true_and]
                  exact ih (fun x hx => hw x (by simp [hx])) u' v' h2
                · have : (c == a) = false := by
                    cases hx : (c == a)
                    · rfl
                    · exact absurd hx hca
                  rw [this]
                  rfl
              · rw [List.takeWhile_cons_of_pos hc, List.takeWhile_cons_of_neg hd] at h
                simp at h
              · rw [List.takeWhile_cons_of_neg hc, List.takeWhile_cons_of_pos hd] at h
                simp at h
              · have hcs := space_of_not_nonspace hc
                have hds := space_of_not_nonspace hd
                have hca : (c == a) = false := by
                  rw [beq_eq_false_iff_ne]
                  intro he
                  rw [he, ha] at hcs
                  cases hcs
                have hda : (d == a) = false := by
                  rw [beq_eq_false_iff_ne]
                  intro he
                  rw [he, ha] at hds
                  cases hds
                show (((c == a) && litPref w' u') &&
                    headNonSpace ((c :: u').drop (a :: w').length)) =
                  (((d == a) && litPref w' v') &&
                    headNonSpace ((d :: v').drop (a :: w').length))
                rw [hca, hda]
                rfl

theorem urlTrig_run_congr (u v : List Char)
    (h : u.takeWhile nonspaceP = v.takeWhile nonspaceP) : urlTrig u = urlTrig v := by
  unfold urlTrig
  have c1 := comp_run_congr "http://".data (by decide) u v h
  have c2 := comp_run_congr "https://".data (by decide) u v h
  have c3 := comp_run_congr "www.".data (by decide) u v h
  rw [show ("http://".data.length : Nat) = 7 from rfl] at c1
  rw [show ("https://".data.length : Nat) = 8 from rfl] at c2
  rw [show ("www.".data.length : Nat) = 4 from rfl] at c3
  rw [c1, c2, c3]

theorem collapse_takeWhile : ∀ (t : List Char),
    (collapseWsAux false t).takeWhile nonspaceP = t.takeWhile nonspaceP := by
  intro t
  induction t with
  | nil => rfl
  | cons d t' ih =>
      by_cases hd : isSpaceC d = true
      · show ((if isSpaceC d then
            (if false = true then collapseWsAux true t' else ' ' :: collapseWsAux true t')
            else d :: collapseWsAux false t').takeWhile nonspaceP) = _
        rw [if_pos hd]
        show ((' ' :: collapseWsAux true t').takeWhile nonspaceP) = _
        rw [List.takeWhile_cons_of_neg (by decide),
            List.takeWhile_cons_of_neg (by
              show ¬ (!isSpaceC d) = true
              rw [hd]
              simp)]
      · show ((if isSpaceC d then
            (if false = true then collapseWsAux true t' else ' ' :: collapseWsAux true t')
            else d :: collapseWsAux false t').takeWhile nonspaceP) = _
        rw [if_neg hd]
        have hdp : nonspaceP d = true := by
          show (!isSpaceC d) = true
          cases hx : isSpaceC d
          · rfl
          · exact absurd hx hd
        rw [List.takeWhile_cons_of_pos hdp, List.takeWhile_cons_of_pos hdp, ih]

theorem collapse_trigFree : ∀ (t : List Char) (flag : Bool),
    (∀ j, urlTrig (t.drop j) = false) →
    ∀ i, urlTrig ((collapseWsAux flag t).drop i) = false := by
  intro t
  induction t with
  | nil =>
      intro flag h i
      show urlTrig (([] : List Char).drop i) = false
      rw [List.drop_nil]
      decide
  | cons c t' ih =>
      intro flag h i
      by_cases hc : isSpaceC c = true
      · cases flag with
        | true =>
            show urlTrig ((if isSpaceC c then
                (if true = true then collapseWsAux true t' else
                  ' ' :: collapseWsAux true t') else
                c :: collapseWsAux false t').drop i) = false
            rw [if_pos hc, if_pos rfl]
            exact ih true (fun j => h (j + 1)) i
        | false =>
            show urlTrig ((if isSpaceC c then
                (if false = true then collapseWsAux true t' else
                  ' ' :: collapseWsAux true t') else
                c :: collapseWsAux false t').drop i) = false
            rw [if_pos hc, if_neg (by simp)]
            cases i with
            | zero => exact urlTrig_cons_false ' ' _ (by decide) (by decide)
            | succ i1 =>
                rw [List.drop_succ_cons]
                exact ih true (fun j => h (j + 1)) i1
      · show urlTrig ((if isSpaceC c then
            (if flag = true then collapseWsAux true t' else
              ' ' :: collapseWsAux true t') else
            c :: collapseWsAux false t').drop i) = false
        rw [if_neg hc]
        cases i with
        | succ i1 =>
            rw [List.drop_succ_cons]
            exact ih false (fun j => h (j + 1)) i1
        | zero =>
            rw [List.drop_zero]
            have hcp : nonspaceP c = true := by
              show (!isSpaceC c) = true
              cases hx : isSpaceC c
              · rfl
              · exact absurd hx hc
            have hrun : (c :: collapseWsAux false t').takeWhile nonspaceP =
                (c :: t').takeWhile nonspaceP := by
              rw [List.takeWhile_cons_of_pos hcp, List.takeWhile_cons_of_pos hcp,
                  collapse_takeWhile]
            rw [urlTrig_run_congr _ _ hrun]
            exact h 0

theorem email_none_headNotLocal (q : Option Char) (c : Char) (r : List Char)
    (h : isLocal c = false) : emailMatchAt q (c :: r) = none := by
  cases hq : emailMatchAt q (c :: r) with
  | none => rfl
  | some n =>
      exfalso
      obtain ⟨-, L, y, heq, hLne, hLc, -⟩ := (emailMatch_iff q _).mp ⟨n, hq⟩
      cases L with
      | nil => exact absurd rfl hLne
      | cons cL L' =>
          have : c = cL := by
            have := congrArg (fun l => List.head? l) heq
            simpa using this
          rw [this] at h
          rw [hLc cL (by simp)] at h
          cases h

theorem collapse_email : ∀ (t : List Char) (flag : Bool) (q q2 : Option Char),
    prevWord q2 = prevWord q → (flag = true → prevWord q2 = false) →
    noMatchFrom emailMatchAt q t →
    noMatchFrom emailMatchAt q2 (collapseWsAux flag t) := by
  intro t
  induction t with
  | nil =>
      intro flag q q2 hqq hflag h
      show noMatchFrom emailMatchAt q2 []
      exact email_none_nil q2
  | cons c t' ih =>
      intro flag q q2 hqq hflag h
      by_cases hc : isSpaceC c = true
      · cases flag with
        | true =>
            show noMatchFrom emailMatchAt q2 (if isSpaceC c then
                (if true = true then collapseWsAux true t' else
                  ' ' :: collapseWsAux true t') else
                c :: collapseWsAux false t')
            rw [if_pos hc, if_pos rfl]
            refine ih true (some c) q2 ?_ hflag h.2
            rw [hflag rfl]
            show false = isWordChar c
            rw [space_nonword c hc]
        | false =>
            show noMatchFrom emailMatchAt q2 (if isSpaceC c then
                (if false = true then collapseWsAux true t' else
                  ' ' :: collapseWsAux true t') else
                c :: collapseWsAux false t')
            rw [if_pos hc, if_neg (by simp)]
            refine ⟨?_, ?_⟩
            · exact email_none_headNotLocal q2 ' ' _ (by decide)
            · refine ih true (some c) (some ' ') ?_ (fun _ => by decide) h.2
              show isWordChar ' ' = isWordChar c
              rw [space_nonword c hc]
              decide
      · show noMatchFrom emailMatchAt q2 (if isSpaceC c then
            (if flag = true then collapseWsAux true t' else
              ' ' :: collapseWsAux true t') else
            c :: collapseWsAux false t')
        rw [if_neg hc]
        refine ⟨?_, ?_⟩
        · have e0 : emailMatchAt q2 (c :: t') = none := by
            rw [emailMatchAt_ctx q2 q _ hqq]
            exact h.1
          have hcp : nonspaceP c = true := by
            show (!isSpaceC c) = true
            cases hx : isSpaceC c
            · rfl
            · exact absurd hx hc
          refine email_runwin q2 (c :: t') _ ?_ e0
          rw [List.takeWhile_cons_of_pos hcp, List.takeWhile_cons_of_pos hcp,
              collapse_takeWhile]
        · exact ih false (some c) (some c) rfl (fun hx => by simp at hx) h.2

theorem stripR_take : ∀ (v : List Char), ∃ k, stripR v = v.take k ∧
    ∀ c ∈ v.drop k, isSpaceC c = true := by
  intro v
  induction v with
  | nil => exact ⟨0, rfl, by simp⟩
  | cons c t ih =>
      obtain ⟨k, hk, hws⟩ := ih
      cases hsr : stripR t with
      | nil =>
          have htws : ∀ c2 ∈ t, isSpaceC c2 = true := by
            intro c2 hc2
            have htake : t.take k = [] := by rw [← hk, hsr]
            rcases List.take_eq_nil_iff.mp htake with hk0 | ht0
            · subst hk0
              exact hws c2 (by simpa using hc2)
            · rw [ht0] at hc2
              cases hc2
          by_cases hc : isSpaceC c = true
          · refine ⟨0, ?_, ?_⟩
            · show (match stripR t with
                | [] => if isSpaceC c then [] else [c]
                | r => c :: r) = (c :: t).take 0
              rw [hsr]
              show (if isSpaceC c then ([] : List Char) else [c]) = []
              rw [if_pos hc]
            · intro c2 hc2
              rw [List.drop_zero] at hc2
              rcases List.mem_cons.mp hc2 with rfl | hc2
              · exact hc
              · exact htws c2 hc2
          · refine ⟨1, ?_, ?_⟩
            · show (match stripR t with
                | [] => if isSpaceC c then [] else [c]
                | r => c :: r) = (c :: t).take 1
              rw [hsr]
              show (if isSpaceC c then ([] : List Char) else [c]) = [c]
              rw [if_neg hc]
            · intro c2 hc2
              rw [List.drop_succ_cons, List.drop_zero] at hc2
              exact htws c2 hc2
      | cons r0 rr =>
          have htk : t.take k = r0 :: rr := by rw [← hk, hsr]
          refine ⟨k + 1, ?_, ?_⟩
          · show (match stripR t with
              | [] => if isSpaceC c then [] else [c]
              | r => c :: r) = (c :: t).take (k + 1)
            rw [hsr]
            show c :: (r0 :: rr) = c :: t.take k
            rw [htk]
          · intro c2 hc2
            rw [List.drop_succ_cons] at hc2
            exact hws c2 hc2

theorem dropWhile_drop : ∀ (u : List Char), ∃ j, u.dropWhile isSpaceC = u.drop j := by
  intro u
  induction u with
  | nil => exact ⟨0, rfl⟩
  | cons c t ih =>
      by_cases hc : isSpaceC c = true
      · obtain ⟨j, hj⟩ := ih
        refine ⟨j + 1, ?_⟩
        rw [List.dropWhile_cons_of_pos hc, List.drop_succ_cons, hj]
      · exact ⟨0, by rw [List.dropWhile_cons_of_neg hc, List.drop_zero]⟩

theorem strip_trigFree (u : List Char) (h : ∀ j, urlTrig (u.drop j) = false) :
    ∀ i, urlTrig ((pyStrip u).drop i) = false := by
  obtain ⟨j, hj⟩ := dropWhile_drop u
  have hdw : ∀ j2, urlTrig ((u.dropWhile isSpaceC).drop j2) = false := by
    intro j2
    rw [hj, List.drop_drop]
    exact h (j + j2)
  obtain ⟨k, hk, hws⟩ := stripR_take (u.dropWhile isSpaceC)
  intro i
  show urlTrig ((stripR (u.dropWhile isSpaceC)).drop i) = false
  rw [hk]
  by_cases hik : i ≤ k
  · rw [List.drop_take]
    have hz : ∀ c ∈ ((u.dropWhile isSpaceC).drop i).drop (k - i), isSpaceC c = true := by
      rw [List.drop_drop, show i + (k - i) = k from by omega]
      exact hws
    have hrun : (((u.dropWhile isSpaceC).drop i).take (k - i)).takeWhile nonspaceP =
        ((u.dropWhile isSpaceC).drop i).takeWhile nonspaceP := by
      conv_rhs => rw [← List.take_append_drop (k - i) ((u.dropWhile isSpaceC).drop i)]
      rw [takeWhile_append_ws _ _ hz]
    rw [urlTrig_run_congr _ _ hrun]
    exact hdw i
  · rw [List.drop_eq_nil_of_le (by rw [List.length_take]; omega)]
    decide

theorem email_dropWhile : ∀ (u : List Char) (q : Option Char), prevWord q = false →
    noMatchFrom emailMatchAt q u →
    noMatchFrom emailMatchAt q (u.dropWhile isSpaceC) := by
  intro u
  induction u with
  | nil => intro q hq h; exact h
  | cons c t ih =>
      intro q hq h
      by_cases hc : isSpaceC c = true
      · rw [List.dropWhile_cons_of_pos hc]
        refine ih q hq ?_
        refine noMatchFrom_email_ctx (some c) q t ?_ h.2
        show isWordChar c = prevWord q
        rw [space_nonword c hc, hq]
      · rw [List.dropWhile_cons_of_neg hc]
        exact h

theorem email_take_ws : ∀ (v : List Char) (k : Nat) (q : Option Char),
    (∀ c ∈ v.drop k, isSpaceC c = true) →
    noMatchFrom emailMatchAt q v →
    noMatchFrom emailMatchAt q (v.take k) := by
  intro v
  induction v with
  | nil =>
      intro k q hws h
      rw [List.take_nil]
      exact email_none_nil q
  | cons c t ih =>
      intro k q hws h
      cases k with
      | zero =>
          rw [List.take_zero]
          exact email_none_nil q
      | succ k =>
          rw [List.take_succ_cons]
          refine ⟨?_, ?_⟩
          · refine email_runwin q (c :: t) _ ?_ h.1
            have he : (c :: t.take k) ++ t.drop k = c :: t := by
              rw [List.cons_append, List.take_append_drop]
            have := takeWhile_append_ws (c :: t.take k) (t.drop k) (by
              intro c2 hc2
              exact hws c2 (by rw [List.drop_succ_cons]; exact hc2))
            rw [he] at this
            rw [this]
          · refine ih k (some c) ?_ h.2
            intro c2 hc2
            exact hws c2 (by rw [List.drop_succ_cons]; exact hc2)

theorem email_strip (u : List Char) (h : noMatchFrom emailMatchAt none u) :
    noMatchFrom emailMatchAt none (pyStrip u) := by
  have h1 := email_dropWhile u none rfl h
  obtain ⟨k, hk, hws⟩ := stripR_take (u.dropWhile isSpaceC)
  show noMatchFrom emailMatchAt none (stripR (u.dropWhile isSpaceC))
  rw [hk]
  exact email_take_ws _ k none hws h1

theorem noMatchFrom_url_of_trigFree : ∀ (x : List Char),
    (∀ j, urlTrig (x.drop j) = false) → ∀ q, noMatchFrom urlMatchAt q x := by
  intro x
  induction x with
  | nil => intro hx q; exact url_none_of_trigFalse [] (by decide) q
  | cons c t ihx =>
      intro hx q
      refine ⟨url_none_of_trigFalse (c :: t) ?_ q, ihx (fun j => ?_) (some c)⟩
      · have := hx 0
        rwa [List.drop_zero] at this
      · have := hx (j + 1)
        rwa [List.drop_succ_cons] at this

theorem c5_assembly (s : List Char)
    (hws1 : collapseWs (pyStrip (collapseWs (emailSub (urlSub s)))) =
      pyStrip (collapseWs (emailSub (urlSub s))))
    (hws2 : pyStrip (pyStrip (collapseWs (emailSub (urlSub s)))) =
      pyStrip (collapseWs (emailSub (urlSub s)))) :
    preprocess_text (preprocess_text s) = preprocess_text s := by
  have f1 : ∀ j, urlTrig ((urlSub s).drop j) = false := by
    intro j
    show urlTrig ((subFrom urlMatchAt "[URL]".data none s).drop j) = false
    exact url_sub_trigFree s.length s (le_refl _) none j
  have f2 : ∀ j, urlTrig ((emailSub (urlSub s)).drop j) = false := by
    intro j
    show urlTrig ((subFrom emailMatchAt "[EMAIL]".data none (urlSub s)).drop j) = false
    exact email_sub_trigFree (urlSub s).length (urlSub s) (le_refl _) f1 none j
  have f3 : ∀ j, urlTrig ((collapseWs (emailSub (urlSub s))).drop j) = false :=
    fun j => collapse_trigFree (emailSub (urlSub s)) false f2 j
  have f4 : ∀ j, urlTrig ((pyStrip (collapseWs (emailSub (urlSub s)))).drop j) = false :=
    strip_trigFree (collapseWs (emailSub (urlSub s))) f3
  have f5 : noMatchFrom emailMatchAt none (emailSub (urlSub s)) := by
    show noMatchFrom emailMatchAt none
      (subFrom emailMatchAt "[EMAIL]".data none (urlSub s))
    exact email_sub_noMatch (urlSub s).length (urlSub s) (le_refl _) none none
      (Or.inl rfl)
  have f6 : noMatchFrom emailMatchAt none (collapseWs (emailSub (urlSub s))) :=
    collapse_email (emailSub (urlSub s)) false none none rfl
      (fun hx => by simp at hx) f5
  have f7 : noMatchFrom emailMatchAt none (pyStrip (collapseWs (emailSub (urlSub s)))) :=
    email_strip (collapseWs (emailSub (urlSub s))) f6
  have f8 : noMatchFrom urlMatchAt none (pyStrip (collapseWs (emailSub (urlSub s)))) :=
    noMatchFrom_url_of_trigFree _ f4 none
  show pyStrip (collapseWs (emailSub (urlSub
    (pyStrip (collapseWs (emailSub (urlSub s))))))) = _
  have g1 : urlSub (pyStrip (collapseWs (emailSub (urlSub s)))) =
      pyStrip (collapseWs (emailSub (urlSub s))) :=
    subAux_eq_of_noMatch _ _ _ _ none f8
  rw [g1]
  have g2 : emailSub (pyStrip (collapseWs (emailSub (urlSub s)))) =
      pyStrip (collapseWs (emailSub (urlSub s))) :=
    subAux_eq_of_noMatch _ _ _ _ none f7
  rw [g2, hws1, hws2]
  rfl



/-- Claim C1: get_risk_level is a pure function of the total marker count and
the high-severity count, equal to the spec decision table evaluated top to
bottom; the empty mapping scores low, and a single low-severity category
counted 10 times scores critical through the total-ten clause. -/
theorem c1_risk_scorer_is_spec_table :
    (∀ cc : List (String × Nat),
      get_risk_level cc = riskLevelTable (totalMarkers cc) (highSeverityCount cc)) ∧
    get_risk_level [] = "low" ∧
    get_risk_level [("natural", 10)] = "critical" :=
  ⟨fun _ => rfl, rfl, by decide⟩

/-- Claim C10: a category id absent from RISK_CATEGORIES contributes its
count to the total but never to the high-severity total (the severity lookup
returns Python None, never raising), so a lone unknown category with count 3
scores medium. -/
theorem c10_unknown_category_total_only :
    (∀ (cat : String) (cnt : Nat) (cc : List (String × Nat)),
      RISK_CATEGORIES.lookup cat = none →
        highSeverityCount ((cat, cnt) :: cc) = highSeverityCount cc ∧
        totalMarkers ((cat, cnt) :: cc) = cnt + totalMarkers cc) ∧
    get_risk_level [("X", 3)] = "medium" := by
  refine ⟨fun cat cnt cc h => ⟨?_, ?_⟩, by decide⟩
  · simp [highSeverityCount, severityOf, h]
  · simp [totalMarkers]

/-- Witness for C10 at the concrete unknown category "XYZ". -/
theorem c10_witness :
    highSeverityCount [("XYZ", 7)] = 0 ∧ totalMarkers [("XYZ", 7)] = 7 := by
  have h := (c10_unknown_category_total_only.1 "XYZ" 7 [] (by decide))
  exact ⟨h.1.trans rfl, h.2.trans rfl⟩

/-- Claim C7: requesting the catalog for an unsupported language fails, while
the legitimate-term search and the amplifier search degrade to empty results
on every text. -/
theorem c7_unsupported_language (language : String)
    (h1 : language ≠ "russian") (h2 : language ≠ "english") :
    get_all_patterns language = none ∧
    (∀ text, find_legitimate_terms language text = []) ∧
    (∀ text, find_amplifiers language text = []) := by
  have e1 : (language == "russian") = false := beq_eq_false_iff_ne.mpr h1
  have e2 : (language == "english") = false := beq_eq_false_iff_ne.mpr h2
  refine ⟨?_, ?_, ?_⟩
  · simp [get_all_patterns, PSEUDOSCIENCE_MARKERS, List.lookup, e1, e2]
  · intro text
    simp [find_legitimate_terms, LEGITIMATE_MEDICAL_TERMS, List.lookup, e1, e2, termMatches]
  · intro text
    simp [find_amplifiers, AMPLIFIERS, List.lookup, e1, e2, termMatches]

/-- Witness for C7 at the concrete unsupported language "german". -/
theorem c7_witness :
    get_all_patterns "german" = none ∧
    find_legitimate_terms "german" "clinical trial".data = [] ∧
    find_amplifiers "german" "абсолютно".data = [] := by
  have h := c7_unsupported_language "german" (by decide) (by decide)
  exact ⟨h.1, h.2.1 _, h.2.2 _⟩

/-- Claim C6: detect_language returns russian exactly when the Cyrillic share
of the counted alphabetic characters exceeds 0.6, english exactly when the
Latin share does, and unknown otherwise (in particular with no alphabetic
characters at all); the three spec examples evaluate accordingly.  It is a
Lean function, hence pure. -/
theorem c6_detect_language_shares :
    (∀ s : List Char,
      (detect_language s = "russian" ↔
        5 * (s.filter isCyr).length >
          3 * ((s.filter isCyr).length + (s.filter isLat).length)) ∧
      (detect_language s = "english" ↔
        5 * (s.filter isLat).length >
          3 * ((s.filter isCyr).length + (s.filter isLat).length)) ∧
      (detect_language s = "unknown" ↔
        ¬ 5 * (s.filter isCyr).length >
            3 * ((s.filter isCyr).length + (s.filter isLat).length) ∧
        ¬ 5 * (s.filter isLat).length >
            3 * ((s.filter isCyr).length + (s.filter isLat).length))) ∧
    detect_language "Привет мир".data = "russian" ∧
    detect_language "Hello world".data = "english" ∧
    detect_language "123 456".data = "unknown" := by
  refine ⟨fun s => ?_, by decide, by decide, by decide⟩
  simp only [detect_language]
  generalize (s.filter isCyr).length = c
  generalize (s.filter isLat).length = l
  rcases Nat.eq_zero_or_pos (c + l) with h0 | hpos
  · have hnr : ¬ 5 * c > 3 * (c + l) := by omega
    have hnl : ¬ 5 * l > 3 * (c + l) := by omega
    rw [if_pos h0]
    exact ⟨⟨fun h => absurd h (by decide), fun h => absurd h hnr⟩,
           ⟨fun h => absurd h (by decide), fun h => absurd h hnl⟩,
           ⟨fun _ => ⟨hnr, hnl⟩, fun _ => rfl⟩⟩
  · have hne : ¬ c + l = 0 := by omega
    by_cases hru : 5 * c > 3 * (c + l)
    · have hen : ¬ 5 * l > 3 * (c + l) := by omega
      rw [if_neg hne, if_pos hru]
      exact ⟨⟨fun _ => hru, fun _ => rfl⟩,
             ⟨fun h => absurd h (by decide), fun h => absurd h hen⟩,
             ⟨fun h => absurd h (by decide), fun h => absurd hru h.1⟩⟩
    · by_cases hen : 5 * l > 3 * (c + l)
      · rw [if_neg hne, if_neg hru, if_pos hen]
        exact ⟨⟨fun h => absurd h (by decide), fun h => absurd h hru⟩,
               ⟨fun _ => hen, fun _ => rfl⟩,
               ⟨fun h => absurd h (by decide), fun h => absurd hen h.2⟩⟩
      · rw [if_neg hne, if_neg hru, if_neg hen]
        exact ⟨⟨fun h => absurd h (by decide), fun h => absurd h hru⟩,
               ⟨fun h => absurd h (by decide), fun h => absurd h hen⟩,
               ⟨fun _ => ⟨hru, hen⟩, fun _ => rfl⟩⟩

/-- Permuting each category's pattern list while keeping category names
permutes the emitted markers. -/
theorem findMarkersWith_perm_of_forall₂ {c₁ c' : Catalog} (text : List Char)
    (h : List.Forall₂ (fun e₁ e₂ => e₁.1 = e₂.1 ∧ e₁.2.Perm e₂.2) c₁ c') :
    (findMarkersWith c₁ text).Perm (findMarkersWith c' text) := by
  induction h with
  | nil => exact List.Perm.refl _
  | cons hab hrest ih =>
      simp only [findMarkersWith, List.flatMap_cons] at ih ⊢
      refine List.Perm.append ?_ ih
      rw [hab.1]
      exact hab.2.flatMap_right _

/-- Claim C8: the multiset of markers found is independent of the category
and per-category pattern iteration order of the catalog. -/
theorem c8_find_markers_order_independent (text : List Char) (c₁ c₂ : Catalog)
    (h : catalogEquiv c₁ c₂) :
    (findMarkersWith c₁ text).Perm (findMarkersWith c₂ text) := by
  obtain ⟨c', h12, h23⟩ := h
  refine (findMarkersWith_perm_of_forall₂ text h12).trans ?_
  simp only [findMarkersWith]
  exact h23.flatMap_right _

/-- Witness for C8: two concrete reorderings of a two-category catalog give
permuted marker lists on a text matching both categories. -/
theorem c8_witness :
    (findMarkersWith
        [("detox", [lits "детокс"]), ("universal", [lits "панацея", lits "лечит всё"])]
        "детокс и панацея".data).Perm
      (findMarkersWith
        [("universal", [lits "лечит всё", lits "панацея"]), ("detox", [lits "детокс"])]
        "детокс и панацея".data) :=
  c8_find_markers_order_independent _ _ _
    ⟨[("detox", [lits "детокс"]), ("universal", [lits "лечит всё", lits "панацея"])],
     List.Forall₂.cons ⟨rfl, List.Perm.refl _⟩
       (List.Forall₂.cons ⟨rfl, List.Perm.swap _ _ _⟩ List.Forall₂.nil),
     List.Perm.swap _ _ _⟩

/-- The length of the token-splitting accumulator pass equals the one-pass
token count, in both accumulator states. -/
theorem pySplitWsAux_length (s : List Char) :
    (pySplitWsAux [] s).length = tokCount false s ∧
    ∀ c cur, (pySplitWsAux (c :: cur) s).length = 1 + tokCount true s := by
  induction s with
  | nil => exact ⟨rfl, fun c cur => by simp [pySplitWsAux, tokCount]⟩
  | cons d t ih =>
      by_cases hd : isSpaceC d = true
      · refine ⟨?_, fun c cur => ?_⟩
        · simp [pySplitWsAux, hd, tokCount, ih.1]
        · simp [pySplitWsAux, hd, tokCount, ih.1]
          omega
      · refine ⟨?_, fun c cur => ?_⟩
        · simp only [Bool.not_eq_true] at hd
          simp [pySplitWsAux, hd, tokCount, ih.2 d []]
        · simp only [Bool.not_eq_true] at hd
          simp [pySplitWsAux, hd, tokCount, ih.2 d (c :: cur)]

/-- Claim C9: text_stats reports the whitespace-delimited token count as
words, and the average sentence length is words over sentences, defined as 0
for zero sentences, so no division by zero occurs. -/
theorem c9_text_stats_guarded_average :
    ∀ s : List Char,
      (get_text_stats s).words = tokCount false s ∧
      ((get_text_stats s).sentences = 0 → (get_text_stats s).avg_sentence_length = 0) ∧
      ((get_text_stats s).sentences ≠ 0 →
        (get_text_stats s).avg_sentence_length * ((get_text_stats s).sentences : ℚ) =
          ((get_text_stats s).words : ℚ)) := by
  intro s
  refine ⟨?_, fun h => ?_, fun h => ?_⟩
  · simpa [get_text_stats, pySplitWs] using (pySplitWsAux_length s).1
  · simp only [get_text_stats] at h ⊢
    simp [h]
  · simp only [get_text_stats] at h ⊢
    rw [if_neg h]
    exact div_mul_cancel₀ _ (Nat.cast_ne_zero.mpr h)

/-- Witness for C9 at a two-sentence text and a blank text. -/
theorem c9_witness :
    (get_text_stats "Hello world. Ok!".data).avg_sentence_length *
        ((get_text_stats "Hello world. Ok!".data).sentences : ℚ) =
      ((get_text_stats "Hello world. Ok!".data).words : ℚ) ∧
    (get_text_stats " ".data).avg_sentence_length = 0 :=
  ⟨(c9_text_stats_guarded_average "Hello world. Ok!".data).2.2 (by decide),
   (c9_text_stats_guarded_average " ".data).2.1 (by decide)⟩

/-- Claim C3 counterexample: on the end-to-end scenario text the analyzer
finds no guarantees marker at all (the catalog pattern requires the
nominative form, the text has the accusative), and only 2 markers, not the
claimed 3 or more. -/
theorem c3_counterexample :
    ((analyze_text ruAnalyzer
        "Это чудо-средство даёт 100% гарантию излечения за 3 дня".data).markers.filter
      (fun m => m.category = "guarantees")) = [] ∧
    (analyze_text ruAnalyzer
        "Это чудо-средство даёт 100% гарантию излечения за 3 дня".data).markers_count = 2 := by
  decide

/-- Claim C3 amended: the scenario text matches exactly one miracle_claims
marker (severity high) and one fast_results marker (severity medium); the
category counts sum to 2 and the risk level is high (so at least high). -/
theorem c3_scenario_markers :
    (analyze_text ruAnalyzer
        "Это чудо-средство даёт 100% гарантию излечения за 3 дня".data).markers.map
        (fun m => (m.category, m.text, m.start, m.endPos, m.severity)) =
      [("miracle_claims", "чудо-средство".data, 4, 17, "high"),
       ("fast_results", "за 3 дня".data, 47, 55, "medium")] ∧
    (analyze_text ruAnalyzer
        "Это чудо-средство даёт 100% гарантию излечения за 3 дня".data).category_counts =
      [("miracle_claims", 1), ("fast_results", 1)] ∧
    (analyze_text ruAnalyzer
        "Это чудо-средство даёт 100% гарантию излечения за 3 дня".data).risk_level = "high" := by
  decide

/-- The six whitespace characters, spelled out. -/
theorem space_cases {c : Char} (h : isSpaceC c = true) :
    c = ' ' ∨ c = '\t' ∨ c = '\n' ∨ c = '\r' ∨ c = '\x0b' ∨ c = '\x0c' := by
  simp only [isSpaceC, Bool.or_eq_true, beq_iff_eq] at h
  tauto

/-- A whitespace character is not a word character. -/
theorem isWordChar_of_space {c : Char} (h : isSpaceC c = true) : isWordChar c = false := by
  rcases space_cases h with h | h | h | h | h | h <;> subst h <;> decide

/-- A whitespace character is not the literal h. -/
theorem space_ne_h {c : Char} (h : isSpaceC c = true) :
    ccMatches false (.lit 'h') c = false := by
  rcases space_cases h with h | h | h | h | h | h <;> subst h <;> decide

/-- A whitespace character is not the literal w. -/
theorem space_ne_w {c : Char} (h : isSpaceC c = true) :
    ccMatches false (.lit 'w') c = false := by
  rcases space_cases h with h | h | h | h | h | h <;> subst h <;> decide

/-- A pattern whose first item is a mandatory class fails when the head of
the text fails the class or the text is empty. -/
theorem matchEnd_one_fail (ci : Bool) (fuel : Nat) (cc : CharCls) (rest : Pat)
    (prev : Option Char) (s : List Char)
    (h : ∀ c, s.head? = some c → ccMatches ci cc c = false) :
    matchEnd ci fuel (.cls cc .one :: rest) prev s = none := by
  cases fuel with
  | zero => rfl
  | succ n =>
      cases s with
      | nil => rfl
      | cons c t => simp [matchEnd, h c rfl]

/-- A pattern starting with a word boundary fails when the previous and next
characters agree on wordness. -/
theorem matchEnd_bnd_fail (ci : Bool) (fuel : Nat) (rest : Pat)
    (prev : Option Char) (s : List Char)
    (h : (match s with
          | c :: _ => isWordChar c
          | [] => false) = prevWord prev) :
    matchEnd ci fuel (.bnd :: rest) prev s = none := by
  cases fuel with
  | zero => rfl
  | succ n =>
      cases prev with
      | none =>
          cases s with
          | nil => rfl
          | cons c t =>
              have hc : isWordChar c = false := by simpa [prevWord] using h
              simp [matchEnd, hc]
      | some p =>
          cases s with
          | nil =>
              have hp : isWordChar p = false := by simpa [prevWord] using h.symm
              simp [matchEnd, hp]
          | cons c t =>
              have hc : isWordChar c = isWordChar p := by simpa [prevWord] using h
              simp [matchEnd, hc]

/-- The URL matcher finds nothing at a whitespace or end position. -/
theorem urlMatchAt_space_none (prev : Option Char) (s : List Char)
    (h : ∀ c, s.head? = some c → isSpaceC c = true) :
    urlMatchAt prev s = none := by
  have h1 : patMatchAt false urlPat1 prev s = none :=
    matchEnd_one_fail _ _ _ _ _ _ (fun c hc => space_ne_h (h c hc))
  have h2 : patMatchAt false urlPat2 prev s = none :=
    matchEnd_one_fail _ _ _ _ _ _ (fun c hc => space_ne_w (h c hc))
  simp [urlMatchAt, h1, h2]

/-- The email matcher finds nothing when both sides of the position are
non-word (whitespace, start, or end). -/
theorem emailMatchAt_nonword_none (prev : Option Char) (s : List Char)
    (hp : prevWord prev = false)
    (h : ∀ c, s.head? = some c → isWordChar c = false) :
    emailMatchAt prev s = none := by
  refine matchEnd_bnd_fail _ _ _ _ _ ?_
  cases s with
  | nil => exact hp.symm
  | cons c t =>
      show isWordChar c = prevWord prev
      rw [h c rfl, hp]

/-- Whitespace-only text admits no URL match at any position. -/
theorem noMatch_url_allspace :
    ∀ s : List Char, allSpace s = true → ∀ prev, noMatchFrom urlMatchAt prev s := by
  intro s
  induction s with
  | nil => exact fun _ prev => urlMatchAt_space_none prev [] (by simp)
  | cons c t ih =>
      intro h prev
      simp only [allSpace, List.all_cons, Bool.and_eq_true] at h
      refine ⟨urlMatchAt_space_none prev (c :: t) ?_, ih (by simpa [allSpace] using h.2) (some c)⟩
      intro d hd
      simp only [List.head?] at hd
      exact (Option.some_inj.mp hd) ▸ h.1

/-- Whitespace-only text admits no email match at any position, scanning from
a non-word previous character. -/
theorem noMatch_email_allspace :
    ∀ s : List Char, allSpace s = true →
      ∀ prev, prevWord prev = false → noMatchFrom emailMatchAt prev s := by
  intro s
  induction s with
  | nil => exact fun _ prev hp => emailMatchAt_nonword_none prev [] hp (by simp)
  | cons c t ih =>
      intro h prev hp
      simp only [allSpace, List.all_cons, Bool.and_eq_true] at h
      refine ⟨emailMatchAt_nonword_none prev (c :: t) hp ?_, ?_⟩
      · intro d hd
        simp only [List.head?] at hd
        exact (Option.some_inj.mp hd) ▸ isWordChar_of_space h.1
      · exact ih (by simpa [allSpace] using h.2) (some c) (by simp [prevWord, isWordChar_of_space h.1])

/-- Collapsing whitespace-only text yields nothing (after a space) or one
space (at a token boundary). -/
theorem collapse_allspace :
    ∀ s : List Char, allSpace s = true →
      collapseWsAux true s = [] ∧ (s ≠ [] → collapseWsAux false s = [' ']) := by
  intro s
  induction s with
  | nil => exact fun _ => ⟨rfl, fun h => absurd rfl h⟩
  | cons c t ih =>
      intro h
      simp only [allSpace, List.all_cons, Bool.and_eq_true] at h
      have ht := ih (by simpa [allSpace] using h.2)
      constructor
      · simp [collapseWsAux, h.1, ht.1]
      · intro _
        simp [collapseWsAux, h.1, ht.1]

/-- Stripping whitespace-only text yields the empty text. -/
theorem pyStrip_allspace (s : List Char) (h : allSpace s = true) : pyStrip s = [] := by
  have : s.dropWhile isSpaceC = [] := by
    rw [List.dropWhile_eq_nil_iff]
    intro x hx
    simp only [allSpace, List.all_eq_true] at h
    exact h x hx
  simp [pyStrip, this, stripR]

/-- Preprocessing whitespace-only text yields the empty text. -/
theorem preprocess_allspace (s : List Char) (h : allSpace s = true) :
    preprocess_text s = [] := by
  unfold preprocess_text urlSub emailSub reSub
  rw [subAux_eq_of_noMatch _ _ s _ none (noMatch_url_allspace s h none),
      subAux_eq_of_noMatch _ _ s _ none (noMatch_email_allspace s h none rfl)]
  cases hs : s with
  | nil => rfl
  | cons c t =>
      rw [← hs]
      have hcol : collapseWs s = [' '] := (collapse_allspace s h).2 (by simp [hs])
      rw [hcol]
      decide

/-- Claim C2 counterexample: analyze_text does not reject whitespace-only
input; on three spaces it returns a normal analysis result with zero markers
and risk low. -/
theorem c2_counterexample :
    (analyze_text ruAnalyzer "   ".data).risk_level = "low" ∧
    (analyze_text ruAnalyzer "   ".data).markers_count = 0 ∧
    (analyze_text ruAnalyzer "   ".data).language_detected = "unknown" := by
  decide

/-- Claim C2 amended: blank or whitespace-only text is rejected with a
ValueError by TextLoader.load_from_string, but analyze_text itself performs
no such rejection: it normalizes the text to empty and returns an ordinary
result with zero markers and risk low. -/
theorem c2_blank_rejected_in_loader_only (s : List Char) (h : allSpace s = true) :
    load_from_string s = none ∧
    analyze_text ruAnalyzer s = analyzeProcessed ruAnalyzer [] ∧
    (analyze_text ruAnalyzer s).risk_level = "low" ∧
    (analyze_text ruAnalyzer s).markers_count = 0 := by
  have hpre : preprocess_text s = [] := preprocess_allspace s h
  have hres : analyze_text ruAnalyzer s = analyzeProcessed ruAnalyzer [] := by
    rw [analyze_text, hpre]
  refine ⟨?_, hres, ?_, ?_⟩
  · simp [load_from_string, pyStrip_allspace s h]
  · rw [hres]; decide
  · rw [hres]; decide

/-- Witness for C2 at a concrete tab-and-spaces input. -/
theorem c2_witness :
    load_from_string " \t ".data = none ∧
    (analyze_text ruAnalyzer " \t ".data).risk_level = "low" :=
  ⟨(c2_blank_rejected_in_loader_only " \t ".data (by decide)).1,
   (c2_blank_rejected_in_loader_only " \t ".data (by decide)).2.2.1⟩

/-- Destructuring of the ascending-disjoint-markers predicate. -/
theorem okFromB_cons {p len : Nat} {m : Marker} {ms : List Marker}
    (h : okFromB p len (m :: ms) = true) :
    p ≤ m.start ∧ m.start < m.endPos ∧ m.endPos ≤ len ∧ okFromB m.endPos len ms = true := by
  simpa [okFromB, Bool.and_eq_true, decide_eq_true_eq, and_assoc] using h

/-- Every marker of an ascending-disjoint list starts at or after the lower
bound. -/
theorem okFromB_le_start {len : Nat} :
    ∀ {ms : List Marker} {p : Nat}, okFromB p len ms = true →
      ∀ x ∈ ms, p ≤ x.start := by
  intro ms
  induction ms with
  | nil => intro p _ x hx; cases hx
  | cons m t ih =>
      intro p h x hx
      obtain ⟨h1, h2, h3, h4⟩ := okFromB_cons h
      rcases List.mem_cons.mp hx with hx | hx
      · exact hx ▸ h1
      · exact le_trans (le_trans h1 (le_of_lt h2)) (ih h4 x hx)

/-- Inserting a marker that starts strictly before every element of a list
appends it at the end. -/
theorem insertDesc_all_lt {m : Marker} :
    ∀ {l : List Marker}, (∀ x ∈ l, m.start < x.start) → insertDesc m l = l ++ [m] := by
  intro l
  induction l with
  | nil => intro _; rfl
  | cons x xs ih =>
      intro h
      simp only [insertDesc, if_pos (h x (by simp))]
      rw [ih (fun y hy => h y (by simp [hy]))]
      simp

/-- The stable descending sort of a strictly ascending marker list is its
reverse. -/
theorem sortDesc_of_ascending {len : Nat} :
    ∀ {ms : List Marker} {p : Nat}, okFromB p len ms = true →
      sortDesc ms = ms.reverse := by
  intro ms
  induction ms with
  | nil => intro p _; rfl
  | cons m t ih =>
      intro p h
      obtain ⟨h1, h2, h3, h4⟩ := okFromB_cons h
      have hall : ∀ x ∈ t.reverse, m.start < x.start := by
        intro x hx
        exact lt_of_lt_of_le h2 (okFromB_le_start h4 x (List.mem_reverse.mp hx))
      simp only [sortDesc, ih h4]
      rw [insertDesc_all_lt hall]
      simp

/-- Splicing an ascending disjoint marker list back to front equals the
alternating gaps-and-wrapped-spans rendering. -/
theorem foldSplice_renderFrom (useColors : Bool) (l : List Char) :
    ∀ (ms : List Marker) (p : Nat), okFromB p l.length ms = true →
      List.foldr (fun m acc => spliceOne useColors acc m) l ms =
        l.take p ++ renderFrom useColors l p ms := by
  intro ms
  induction ms with
  | nil =>
      intro p _
      simp [renderFrom]
  | cons m t ih =>
      intro p h
      obtain ⟨h1, h2, h3, h4⟩ := okFromB_cons h
      have hlen : (l.take m.endPos).length = m.endPos := by
        simp [List.length_take, Nat.min_eq_left h3]
      simp only [List.foldr_cons, ih m.endPos h4]
      have hse : m.start ≤ m.endPos := le_of_lt h2
      have hR_take : (l.take m.endPos ++ renderFrom useColors l m.endPos t).take m.start =
          l.take m.start := by
        rw [List.take_append_of_le_length (by omega), List.take_take,
          Nat.min_eq_left hse]
      have hR_drop : (l.take m.endPos ++ renderFrom useColors l m.endPos t).drop m.endPos =
          renderFrom useColors l m.endPos t := List.drop_left' hlen
      have hR_seg : seg (l.take m.endPos ++ renderFrom useColors l m.endPos t)
          m.start m.endPos = seg l m.start m.endPos := by
        have hlen2 : ((l.take m.endPos).drop m.start).length = m.endPos - m.start := by
          simp [List.length_drop, hlen]
        rw [seg, List.drop_append_of_le_length (by omega),
          List.take_append_of_le_length (by omega), List.drop_take]
        simp [seg, List.take_take]
      rw [spliceOne, hR_take, hR_drop, hR_seg]
      have hgap : l.take p ++ (l.drop p).take (m.start - p) = l.take m.start := by
        have hps : l.take p = (l.take m.start).take p := by
          rw [List.take_take, Nat.min_eq_left h1]
        rw [hps, ← List.drop_take]
        exact List.take_append_drop p (l.take m.start)
      simp only [renderFrom]
      rw [← List.append_assoc, ← List.append_assoc, hgap]

/-- Claim C4: highlight_text splices markers in descending start order, so
for ascending, pairwise disjoint, in-bounds marker spans the output is
exactly the original text with each marked span wrapped in place: every
lower-offset replacement keeps its content and position, unaffected by the
length changes of higher-offset replacements. -/
theorem c4_highlight_offset_stability (useColors : Bool) (l : List Char)
    (ms : List Marker) (h : okFromB 0 l.length ms = true) :
    highlight_text useColors l ms = renderFrom useColors l 0 ms := by
  cases ms with
  | nil => simp [highlight_text, renderFrom]
  | cons m t =>
      unfold highlight_text
      rw [if_neg (by simp), sortDesc_of_ascending h, List.foldl_reverse]
      simpa using foldSplice_renderFrom useColors l (m :: t) 0 h

/-- Witness for C4: two concrete markers at spans 0-5 and 10-15 of a 15
character text; the lower span is wrapped exactly in place. -/
theorem c4_witness :
    okFromB 0 ("abcdefghijklmno".data).length
      [⟨"x", "abcde".data, 0, 5, "high", "", ""⟩,
       ⟨"y", "klmno".data, 10, 15, "low", "", ""⟩] = true ∧
    highlight_text false "abcdefghijklmno".data
        [⟨"x", "abcde".data, 0, 5, "high", "", ""⟩,
         ⟨"y", "klmno".data, 10, 15, "low", "", ""⟩] =
      renderFrom false "abcdefghijklmno".data 0
        [⟨"x", "abcde".data, 0, 5, "high", "", ""⟩,
         ⟨"y", "klmno".data, 10, 15, "low", "", ""⟩] ∧
    renderFrom false "abcdefghijklmno".data 0
        [⟨"x", "abcde".data, 0, 5, "high", "", ""⟩,
         ⟨"y", "klmno".data, 10, 15, "low", "", ""⟩] =
      "**abcde**fghij**klmno**".data :=
  ⟨by decide, c4_highlight_offset_stability false _ _ (by decide), by decide⟩

/-! ### Whitespace normalization is idempotent (toward claim C5) -/

/-- Collapsing always produces whitespace-normal output, and after a space
the output starts with a non-space. -/
theorem collapseWsAux_wsOk :
    ∀ l : List Char,
      (wsOk (collapseWsAux true l) = true ∧ headNonWs (collapseWsAux true l) = true) ∧
      wsOk (collapseWsAux false l) = true := by
  intro l
  induction l with
  | nil => exact ⟨⟨rfl, rfl⟩, rfl⟩
  | cons c t ih =>
      by_cases hc : isSpaceC c = true
      · have e1 : collapseWsAux true (c :: t) = collapseWsAux true t := by
          simp [collapseWsAux, hc]
        have e2 : collapseWsAux false (c :: t) = ' ' :: collapseWsAux true t := by
          simp [collapseWsAux, hc]
        refine ⟨⟨e1 ▸ ih.1.1, e1 ▸ ih.1.2⟩, ?_⟩
        rw [e2]
        simp only [wsOk, Bool.and_eq_true]
        refine ⟨?_, ih.1.1⟩
        simp [ih.1.2]
      · simp only [Bool.not_eq_true] at hc
        have e1 : collapseWsAux true (c :: t) = c :: collapseWsAux false t := by
          simp [collapseWsAux, hc]
        have e2 : collapseWsAux false (c :: t) = c :: collapseWsAux false t := by
          simp [collapseWsAux, hc]
        have hx : wsOk (c :: collapseWsAux false t) = true := by
          simp only [wsOk, Bool.and_eq_true]
          exact ⟨by simp [hc], ih.2⟩
        exact ⟨⟨e1 ▸ hx, by rw [e1]; simp [headNonWs, hc]⟩, e2 ▸ hx⟩

/-- Collapsing is the identity on whitespace-normal text. -/
theorem collapseWsAux_eq_self :
    ∀ l : List Char, wsOk l = true →
      collapseWsAux false l = l ∧ (headNonWs l = true → collapseWsAux true l = l) := by
  intro l
  induction l with
  | nil => exact fun _ => ⟨rfl, fun _ => rfl⟩
  | cons c t ih =>
      intro h
      simp only [wsOk, Bool.and_eq_true] at h
      have ht := ih h.2
      by_cases hc : isSpaceC c = true
      · have hsp : c = ' ' ∧ headNonWs t = true := by
          rcases h with ⟨h1, -⟩
          simp only [hc, Bool.not_true, Bool.false_or, Bool.and_eq_true] at h1
          exact ⟨beq_iff_eq.mp h1.1, h1.2⟩
        have htt : collapseWsAux true t = t := ht.2 hsp.2
        constructor
        · rw [hsp.1]
          simp [collapseWsAux, isSpaceC, htt]
        · intro hh
          simp [headNonWs, hc] at hh
      · simp only [Bool.not_eq_true] at hc
        exact ⟨by simp [collapseWsAux, hc, ht.1], fun _ => by simp [collapseWsAux, hc, ht.1]⟩

/-- Dropping leading whitespace preserves whitespace-normal form. -/
theorem wsOk_dropWhile {l : List Char} (h : wsOk l = true) :
    wsOk (l.dropWhile isSpaceC) = true := by
  induction l with
  | nil => exact h
  | cons c t ih =>
      simp only [wsOk, Bool.and_eq_true] at h
      by_cases hc : isSpaceC c = true
      · simpa [List.dropWhile, hc] using ih h.2
      · simp only [Bool.not_eq_true] at hc
        simp only [List.dropWhile, hc]
        simp only [wsOk, Bool.and_eq_true]
        exact ⟨by simp [hc], h.2⟩

/-- After dropping leading whitespace the head is non-whitespace. -/
theorem headNonWs_dropWhile (l : List Char) :
    headNonWs (l.dropWhile isSpaceC) = true := by
  induction l with
  | nil => rfl
  | cons c t ih =>
      by_cases hc : isSpaceC c = true
      · simpa [List.dropWhile, hc] using ih
      · simp only [Bool.not_eq_true] at hc
        simp [List.dropWhile, hc, headNonWs]

/-- Stripping the right end preserves the head. -/
theorem headNonWs_stripR {l : List Char} (h : headNonWs l = true) :
    headNonWs (stripR l) = true := by
  cases l with
  | nil => exact h
  | cons c t =>
      simp only [stripR]
      cases stripR t with
      | nil =>
          by_cases hc : isSpaceC c = true
          · simp [hc, headNonWs]
          · simp only [Bool.not_eq_true] at hc
            simp [hc, headNonWs]
      | cons d r => simpa [headNonWs] using h

/-- Stripping the right end preserves whitespace-normal form. -/
theorem wsOk_stripR : ∀ {l : List Char}, wsOk l = true → wsOk (stripR l) = true := by
  intro l
  induction l with
  | nil => exact fun h => h
  | cons c t ih =>
      intro h
      simp only [wsOk, Bool.and_eq_true] at h
      simp only [stripR]
      cases hr : stripR t with
      | nil =>
          by_cases hc : isSpaceC c = true
          · simp [hc, wsOk]
          · simp only [Bool.not_eq_true] at hc
            simp [hc, wsOk]
      | cons d r =>
          have hw : wsOk (d :: r) = true := hr ▸ ih h.2
          show ((!isSpaceC c || (c == ' ' && headNonWs (d :: r))) && wsOk (d :: r)) = true
          rw [Bool.and_eq_true]
          refine ⟨?_, hw⟩
          by_cases hc : isSpaceC c = true
          · rcases h with ⟨h1, -⟩
            simp only [hc, Bool.not_true, Bool.false_or, Bool.and_eq_true] at h1
            have hht : headNonWs (stripR t) = true := headNonWs_stripR h1.2
            rw [hr] at hht
            simp [hc, beq_iff_eq.mp h1.1, hht]
          · simp [hc]

/-- The right-stripped text ends with a non-whitespace character. -/
theorem lastNonWs_stripR : ∀ l : List Char, lastNonWs (stripR l) = true := by
  intro l
  induction l with
  | nil => rfl
  | cons c t ih =>
      simp only [stripR]
      cases hr : stripR t with
      | nil =>
          by_cases hc : isSpaceC c = true
          · simp [hc, lastNonWs]
          · simp only [Bool.not_eq_true] at hc
            simp [hc, lastNonWs]
      | cons d r =>
          rw [hr] at ih
          simpa [lastNonWs] using ih

/-- Right-stripping is the identity when the last character is not
whitespace. -/
theorem stripR_eq_self : ∀ {l : List Char}, lastNonWs l = true → stripR l = l := by
  intro l
  induction l with
  | nil => exact fun _ => rfl
  | cons c t ih =>
      intro h
      cases t with
      | nil =>
          have hc : isSpaceC c = false := by simpa [lastNonWs] using h
          simp [stripR, hc]
      | cons d t' =>
          have ht : stripR (d :: t') = d :: t' := ih (by simpa [lastNonWs] using h)
          show (match stripR (d :: t') with
                | [] => if isSpaceC c = true then [] else [c]
                | r => c :: r) = c :: d :: t'
          rw [ht]

/-- Dropping leading whitespace is the identity when the head is not
whitespace. -/
theorem dropWhile_eq_self_of_headNonWs :
    ∀ {l : List Char}, headNonWs l = true → l.dropWhile isSpaceC = l := by
  intro l h
  cases l with
  | nil => rfl
  | cons c t =>
      have hc : isSpaceC c = false := by simpa [headNonWs] using h
      simp [List.dropWhile, hc]

/-- Whitespace normalization (collapse runs, then strip ends) is idempotent:
its output is whitespace-normal with non-whitespace ends, on which both
stages are the identity. -/
theorem wsNormalize_idem (u : List Char) :
    collapseWs (pyStrip (collapseWs u)) = pyStrip (collapseWs u) ∧
    pyStrip (pyStrip (collapseWs u)) = pyStrip (collapseWs u) := by
  have h1 : wsOk (collapseWs u) = true := (collapseWsAux_wsOk u).2
  have h2 : wsOk ((collapseWs u).dropWhile isSpaceC) = true := wsOk_dropWhile h1
  have h3 : wsOk (pyStrip (collapseWs u)) = true := wsOk_stripR h2
  have hhead : headNonWs (pyStrip (collapseWs u)) = true :=
    headNonWs_stripR (headNonWs_dropWhile (collapseWs u))
  have hlast : lastNonWs (pyStrip (collapseWs u)) = true :=
    lastNonWs_stripR ((collapseWs u).dropWhile isSpaceC)
  constructor
  · exact (collapseWsAux_eq_self _ h3).1
  · show stripR ((pyStrip (collapseWs u)).dropWhile isSpaceC) = _
    rw [dropWhile_eq_self_of_headNonWs hhead]
    exact stripR_eq_self hlast


/-- Claim C5: preprocess_text is idempotent: applying URL masking, email
masking, whitespace collapsing and stripping a second time leaves the text
unchanged, because the first pass leaves no URL trigger, no email match at
any scan position, and a whitespace-normal form. -/
theorem c5_preprocess_idempotent (s : List Char) :
    preprocess_text (preprocess_text s) = preprocess_text s :=
  c5_assembly s (wsNormalize_idem (emailSub (urlSub s))).1
    (wsNormalize_idem (emailSub (urlSub s))).2

end MedCheck
